import Mathlib

/-!
Expression trees and the where-clause compiler.

A shallow embedding of `criteria/criteria.go` (expression nodes, parent links,
annotations, factory functions, `IterateParents`) and of
`models/expression_compiler.go` (`Compile`, the JSON-context pre-pass and the
emission visitor).

Go pointers to nodes are addresses into an explicit heap (a list of nodes, the
address being the index); a Go interface value of type `Expression` is either
`nil` or such an address.  Code that mutates a node takes the heap and returns
the new one.  A run-time panic and an exhausted recursion budget are separate
outcomes of `Result`.
-/

/-- Outcome of running Go code: a normal return, a run-time panic, or the
recursion budget of the model ran out (the Go code would not have returned). -/
inductive Result (α : Type) where
  | ok (a : α)
  | panic
  | timeout
deriving DecidableEq

namespace Result

/-- Sequencing: the continuation runs only after a normal return. -/
def bind {α β : Type} (r : Result α) (k : α → Result β) : Result β :=
  match r with
  | ok a => k a
  | panic => panic
  | timeout => timeout

end Result

/-- A Go value held in an `interface{}`: the dynamic type and the value.
`nil` is the nil interface; `float64` carries the IEEE-754 bit pattern;
`other` stands for every dynamic type the compiler has no case for
(structs, slices, maps, ...), named by its type. -/
inductive Value where
  | nil
  | float64 (bits : Nat)
  | int (i : Int)
  | int64 (i : Int)
  | uint (n : Nat)
  | uint64 (n : Nat)
  | int32 (i : Int)
  | uint32 (n : Nat)
  | string (s : String)
  | bool (b : Bool)
  | other (typeName : String)
deriving DecidableEq

/-- An `error` value made by `fmt.Errorf(format, args...)`, kept unrendered. -/
inductive Error where
  | Errorf (format : String) (args : List Value)
deriving DecidableEq

namespace strings

/-- Go `strings.Contains(s, substr)`: `substr` occurs in `s` as a contiguous run. -/
def Contains (s substr : String) : Bool :=
  decide (substr.toList <:+: s.toList)

/-- Go `strings.Count(s, string(c))` for a single character `c`. -/
def CountChar (s : String) (c : Char) : Nat :=
  s.toList.count c

/-- The nesting depth of parentheses after the characters, read from depth
`d`; none as soon as a closing parenthesis closes more than is open. -/
def parenDepth : Nat → List Char → Option Nat
  | d, [] => some d
  | d, c :: cs =>
    if c = Char.ofNat 40 then parenDepth (d + 1) cs
    else if c = Char.ofNat 41 then
      match d with
      | 0 => none
      | d + 1 => parenDepth d cs
    else parenDepth d cs

/-- Balanced parentheses: no prefix closes more than it opens, and opens equal
closes overall. -/
def Balanced (s : String) : Bool :=
  parenDepth 0 s.toList == some 0

end strings

namespace json

/-- Where the reader of a JSON string literal stands: among plain characters,
right after a backslash, or inside the `k` remaining hex digits of a `\u`
escape whose value so far is `acc`. -/
inductive Mode where
  | normal
  | escape
  | hex (k : Nat) (acc : Nat)

/-- The value of a hexadecimal digit. -/
def hexVal (c : Char) : Option Nat :=
  if 48 ≤ c.toNat ∧ c.toNat ≤ 57 then some (c.toNat - 48)
  else if 97 ≤ c.toNat ∧ c.toNat ≤ 102 then some (c.toNat - 87)
  else if 65 ≤ c.toNat ∧ c.toNat ≤ 70 then some (c.toNat - 55)
  else none

/-- The character a two-character escape stands for (RFC 8259, section 7). -/
def unescape (c : Char) : Option Char :=
  if c = Char.ofNat 34 then some (Char.ofNat 34)
  else if c = Char.ofNat 92 then some (Char.ofNat 92)
  else if c = Char.ofNat 47 then some (Char.ofNat 47)
  else if c = Char.ofNat 98 then some (Char.ofNat 8)
  else if c = Char.ofNat 102 then some (Char.ofNat 12)
  else if c = Char.ofNat 110 then some (Char.ofNat 10)
  else if c = Char.ofNat 114 then some (Char.ofNat 13)
  else if c = Char.ofNat 116 then some (Char.ofNat 9)
  else none

/-- Read the characters that follow the opening quote of a JSON string
literal: the decoded characters, when the literal is well formed and its
closing quote ends the input. Control characters must be escaped. -/
def decodeFrom : Mode → List Char → Option (List Char)
  | _, [] => none
  | Mode.normal, c :: cs =>
    if c = Char.ofNat 34 then (if cs = [] then some [] else none)
    else if c = Char.ofNat 92 then decodeFrom Mode.escape cs
    else if c.toNat < 32 then none
    else (decodeFrom Mode.normal cs).map (fun r => c :: r)
  | Mode.escape, c :: cs =>
    if c = Char.ofNat 117 then decodeFrom (Mode.hex 4 0) cs
    else
      match unescape c with
      | some x => (decodeFrom Mode.normal cs).map (fun r => x :: r)
      | none => none
  | Mode.hex k acc, c :: cs =>
    match hexVal c with
    | none => none
    | some v =>
      if k ≤ 1 then (decodeFrom Mode.normal cs).map (fun r => Char.ofNat (16 * acc + v) :: r)
      else decodeFrom (Mode.hex (k - 1) (16 * acc + v)) cs

/-- The value of a text that is one well-formed JSON string literal. -/
def decodeString (s : String) : Option String :=
  match s.toList with
  | [] => none
  | c :: cs => if c = Char.ofNat 34 then (decodeFrom Mode.normal cs).map String.mk else none

end json

namespace strconv

/-- Go `strconv.FormatUint(n, 10)`. -/
def FormatUint (n : Nat) : String := Nat.repr n

/-- Go `strconv.FormatInt(i, 10)`. -/
def FormatInt (i : Int) : String :=
  if i < 0 then "-" ++ Nat.repr i.natAbs else Nat.repr i.toNat

/-- Go `strconv.FormatBool(b)`. -/
def FormatBool (b : Bool) : String :=
  if b then "true" else "false"

/-- The number written by a run of decimal digits; none when the run is empty
or holds another character. -/
def parseDigits (cs : List Char) : Option Nat :=
  if cs ≠ [] ∧ cs.all Char.isDigit then
    some (cs.foldl (fun n c => 10 * n + (c.toNat - 48)) 0)
  else none

/-- Go `strconv.Atoi(s)` with a 64-bit `int`: an optional sign and decimal
digits; a syntax error or a value out of range gives an error. -/
def Atoi (s : String) : Except Error Int :=
  match s.toList with
  | '-' :: ds =>
    match parseDigits ds with
    | some n =>
      if n ≤ 2 ^ 63 then .ok (-(n : Int))
      else .error (Error.Errorf "strconv.Atoi: parsing %q: value out of range" [Value.string s])
    | none => .error (Error.Errorf "strconv.Atoi: parsing %q: invalid syntax" [Value.string s])
  | '+' :: ds =>
    match parseDigits ds with
    | some n =>
      if n < 2 ^ 63 then .ok (n : Int)
      else .error (Error.Errorf "strconv.Atoi: parsing %q: value out of range" [Value.string s])
    | none => .error (Error.Errorf "strconv.Atoi: parsing %q: invalid syntax" [Value.string s])
  | ds =>
    match parseDigits ds with
    | some n =>
      if n < 2 ^ 63 then .ok (n : Int)
      else .error (Error.Errorf "strconv.Atoi: parsing %q: value out of range" [Value.string s])
    | none => .error (Error.Errorf "strconv.Atoi: parsing %q: invalid syntax" [Value.string s])

end strconv

namespace paging

/-- Go `const pageSizeDefault = 20`. -/
def pageSizeDefault : Int := 20

/-- Go `const pageSizeMax = 100`. -/
def pageSizeMax : Int := 100

/-- Go `func computePagingLimts(offsetParam *string, limitParam *int) (offset int, limit int)`;
a nil pointer is `none`. -/
def computePagingLimts (offsetParam : Option String) (limitParam : Option Int) : Int × Int :=
  let offset : Int :=
    match offsetParam with
    | none => 0
    | some s =>
      match strconv.Atoi s with
      | .error _ => 0
      | .ok offsetValue => offsetValue
  let offset : Int := if offset < 0 then 0 else offset
  let limit : Int :=
    match limitParam with
    | none => pageSizeDefault
    | some l => l
  let limit : Int :=
    if limit ≤ 0 then pageSizeDefault
    else if limit > pageSizeMax then pageSizeMax
    else limit
  (offset, limit)

end paging

namespace criteria

/-- A value of the Go interface type `Expression`: `nil` or the address of a node. -/
abbrev Expression := Option Nat

/-- Go `type expression struct { parent Expression; annotations map[string]interface{} }`.
The map is an association list with at most one entry per key; the nil map is `[]`. -/
structure expression where
  parent : Expression
  annotations : List (String × Value)
deriving DecidableEq

/-- The concrete node types; each embeds `expression`, the binary ones through
`binaryExpression { expression; left, right Expression }`. -/
inductive Node where
  | FieldExpression (base : expression) (FieldName : String)
  | ParameterExpression (base : expression)
  | LiteralExpression (base : expression) (value : Value)
  | AndExpression (base : expression) (left right : Expression)
  | OrExpression (base : expression) (left right : Expression)
  | EqualsExpression (base : expression) (left right : Expression)
  | MatchesExpression (base : expression) (left right : Expression)
deriving DecidableEq

/-- The heap of allocated nodes; a pointer is an index into it. -/
abbrev Heap := List Node

/-- The embedded `expression` struct of a node. -/
def Node.base : Node → expression
  | .FieldExpression b _ => b
  | .ParameterExpression b => b
  | .LiteralExpression b _ => b
  | .AndExpression b _ _ => b
  | .OrExpression b _ _ => b
  | .EqualsExpression b _ _ => b
  | .MatchesExpression b _ _ => b

/-- The node with its embedded `expression` struct replaced. -/
def Node.withBase : Node → expression → Node
  | .FieldExpression _ n, b => .FieldExpression b n
  | .ParameterExpression _, b => .ParameterExpression b
  | .LiteralExpression _ v, b => .LiteralExpression b v
  | .AndExpression _ l r, b => .AndExpression b l r
  | .OrExpression _ l r, b => .OrExpression b l r
  | .EqualsExpression _ l r, b => .EqualsExpression b l r
  | .MatchesExpression _ l r, b => .MatchesExpression b l r

/-- The two children of a node that implements `BinaryExpression`. -/
def Node.children : Node → Option (Expression × Expression)
  | .AndExpression _ l r => some (l, r)
  | .OrExpression _ l r => some (l, r)
  | .EqualsExpression _ l r => some (l, r)
  | .MatchesExpression _ l r => some (l, r)
  | _ => none

/-- Dereference an `Expression`: panics on nil (and on an address outside the heap). -/
def deref (h : Heap) (exp : Expression) : Result Node :=
  match exp with
  | none => .panic
  | some p =>
    match h[p]? with
    | none => .panic
    | some n => .ok n

/-- Go map assignment `annotations[key] = value`. -/
def expression.put (e : expression) (key : String) (value : Value) : expression :=
  { e with annotations := (key, value) :: e.annotations.filter (fun kv => kv.1 ≠ key) }

/-- Go map read `annotations[key]`: the zero value `nil` when the key is absent. -/
def expression.get (e : expression) (key : String) : Value :=
  (e.annotations.lookup key).getD Value.nil

/-- Go `func (exp *expression) SetAnnotation(key string, value interface{})`. -/
def SetAnnotation (h : Heap) (exp : Expression) (key : String) (value : Value) : Result Heap :=
  match exp with
  | none => .panic
  | some p =>
    match h[p]? with
    | none => .panic
    | some n => .ok (h.set p (n.withBase (n.base.put key value)))

/-- Go `func (exp *expression) Annotation(key string) interface{}`. -/
def Annotation (h : Heap) (exp : Expression) (key : String) : Result Value :=
  (deref h exp).bind fun n => .ok (n.base.get key)

/-- Go `func (exp *expression) Parent() Expression`. -/
def Parent (h : Heap) (exp : Expression) : Result Expression :=
  (deref h exp).bind fun n => .ok n.base.parent

/-- Go `func (exp *expression) setParent(parent Expression)`. -/
def setParent (h : Heap) (exp : Expression) (parent : Expression) : Result Heap :=
  match exp with
  | none => .panic
  | some p =>
    match h[p]? with
    | none => .panic
    | some n => .ok (h.set p (n.withBase { n.base with parent := parent }))

/-- Go `func (exp *binaryExpression) Left() Expression`. -/
def Left (h : Heap) (exp : Expression) : Result Expression :=
  (deref h exp).bind fun n =>
    match n.children with
    | some (l, _) => .ok l
    | none => .panic

/-- Go `func (exp *binaryExpression) Right() Expression`. -/
def Right (h : Heap) (exp : Expression) : Result Expression :=
  (deref h exp).bind fun n =>
    match n.children with
    | some (_, r) => .ok r
    | none => .panic

/-- The `for exp != nil` loop of `IterateParents`. The callback `f` gets the
ancestor and the state of the variables it captures, and returns its boolean
with the new state. The budget bounds the number of iterations. -/
def IterateParents.loop {σ : Type} (h : Heap)
    (f : Expression → σ → Result (Bool × σ)) : Nat → Expression → σ → Result σ
  | _, none, s => .ok s
  | 0, some _, _ => .timeout
  | fuel + 1, some p, s =>
    (f (some p) s).bind fun r =>
      if !r.1 then .ok r.2
      else (Parent h (some p)).bind fun e => IterateParents.loop h f fuel e r.2

/-- Go `func IterateParents(exp Expression, f func(Expression) bool)`. A chain
of distinct ancestors has at most as many members as the heap has nodes, so
that many iterations are granted. -/
def IterateParents {σ : Type} (h : Heap) (exp : Expression)
    (f : Expression → σ → Result (Bool × σ)) (s : σ) : Result σ :=
  match exp with
  | none => IterateParents.loop h f h.length none s
  | some p => (Parent h (some p)).bind fun e => IterateParents.loop h f h.length e s

/-- Go `func Field(id string) Expression`: allocates a fresh node. -/
def Field (h : Heap) (id : String) : Expression × Heap :=
  (some h.length, h ++ [Node.FieldExpression ⟨none, []⟩ id])

/-- Go `func Parameter() Expression`. -/
def Parameter (h : Heap) : Expression × Heap :=
  (some h.length, h ++ [Node.ParameterExpression ⟨none, []⟩])

/-- Go `func Literal(value interface{}) Expression`. -/
def Literal (h : Heap) (value : Value) : Expression × Heap :=
  (some h.length, h ++ [Node.LiteralExpression ⟨none, []⟩ value])

/-- Go `func reparent(parent BinaryExpression) Expression`. -/
def reparent (h : Heap) (parent : Expression) : Result (Expression × Heap) :=
  (Left h parent).bind fun l =>
  (setParent h l parent).bind fun h1 =>
  (Right h1 parent).bind fun r =>
  (setParent h1 r parent).bind fun h2 =>
  .ok (parent, h2)

/-- Go `func And(left Expression, right Expression) Expression`. -/
def And (h : Heap) (left right : Expression) : Result (Expression × Heap) :=
  reparent (h ++ [Node.AndExpression ⟨none, []⟩ left right]) (some h.length)

/-- Go `func Or(left Expression, right Expression) Expression`. -/
def Or (h : Heap) (left right : Expression) : Result (Expression × Heap) :=
  reparent (h ++ [Node.OrExpression ⟨none, []⟩ left right]) (some h.length)

/-- Go `func Equals(left Expression, right Expression) Expression`. -/
def Equals (h : Heap) (left right : Expression) : Result (Expression × Heap) :=
  reparent (h ++ [Node.EqualsExpression ⟨none, []⟩ left right]) (some h.length)

/-- Go `func Matches(left Expression, right Expression) Expression`. -/
def Matches (h : Heap) (left right : Expression) : Result (Expression × Heap) :=
  reparent (h ++ [Node.MatchesExpression ⟨none, []⟩ left right]) (some h.length)

/-- Modelled from the spec: the recursion of `criteria.IteratePostOrder`, whose
source is not among the files: both subtrees of a binary node, left before
right, then the node itself. The budget bounds the nesting depth. -/
def IteratePostOrder.walk (visitorFunction : Heap → Expression → Result (Bool × Heap)) :
    Nat → Heap → Expression → Result Heap
  | _, h, none => .ok h
  | 0, _, some _ => .timeout
  | fuel + 1, h, some p =>
    match h[p]? with
    | none => .panic
    | some n =>
      match n.children with
      | none => (visitorFunction h (some p)).bind fun r => .ok r.2
      | some (l, r) =>
        (IteratePostOrder.walk visitorFunction fuel h l).bind fun h1 =>
        (IteratePostOrder.walk visitorFunction fuel h1 r).bind fun h2 =>
        (visitorFunction h2 (some p)).bind fun r => .ok r.2

/-- Modelled from the spec: `criteria.IteratePostOrder` is called by `Compile`
but its source is not among the files. Per the spec it visits every node of
the tree in post-order (both children fully visited, left before right, before
the node itself) and invokes the caller-supplied function on each node
unconditionally. The function may mutate the nodes, so it takes and returns
the heap. -/
def IteratePostOrder (h : Heap) (exp : Expression)
    (visitorFunction : Heap → Expression → Result (Bool × Heap)) : Result Heap :=
  IteratePostOrder.walk visitorFunction h.length h exp

end criteria

namespace models

open criteria

/-- Go `const jsonAnnotation = "JSON"`. -/
def jsonAnnotation : String := "JSON"

/-- Go `func isJSONField(fieldName string) bool`. -/
def isJSONField (fieldName : String) : Bool :=
  if fieldName = "ID" ∨ fieldName = "Type" ∨ fieldName = "Version" then false else true

/-- Go `func bubbleUpJSONContext(exp criteria.Expression) bool`: the type switch
has a case for `*FieldExpression` and one for `*EqualsExpression` only. -/
def bubbleUpJSONContext (h : Heap) (exp : Expression) : Result (Bool × Heap) :=
  match exp with
  | none => .ok (true, h)
  | some p =>
    match h[p]? with
    | none => .panic
    | some (.FieldExpression _ FieldName) =>
      if isJSONField FieldName then
        ( SetAnnotation h exp jsonAnnotation (Value.bool true)).bind fun h1 => .ok (true, h1)
      else .ok (true, h)
    | some (.EqualsExpression _ left right) =>
      ( Annotation h left jsonAnnotation).bind fun a =>
        if a = Value.bool true then
          ( SetAnnotation h exp jsonAnnotation (Value.bool true)).bind fun h1 => .ok (true, h1)
        else
          ( Annotation h right jsonAnnotation).bind fun b =>
            if b = Value.bool true then
              ( SetAnnotation h exp jsonAnnotation (Value.bool true)).bind fun h1 => .ok (true, h1)
            else .ok (true, h)
    | some _ => .ok (true, h)

/-- Go `type expressionCompiler struct { parameters []interface{}; err []error }`. -/
structure expressionCompiler where
  parameters : List Value
  err : List Error
deriving DecidableEq

/-- Go `func newExpressionCompiler() expressionCompiler`. -/
def newExpressionCompiler : expressionCompiler :=
  { parameters := [], err := [] }

/-- What a visitor method returns: `nil` (`none`) or a string, with the
compiler state after the call. -/
abbrev Visit := Option String × expressionCompiler

/-- Go `func (c *expressionCompiler) Field(f *criteria.FieldExpression) interface{}`. -/
def expressionCompiler.Field (c : expressionCompiler) (FieldName : String) : Visit :=
  if !isJSONField FieldName then (some FieldName, c)
  else if strings.Contains FieldName "'" then
    (none, { c with err := c.err ++ [Error.Errorf "single quote not allowed in field name" []] })
  else (some ("Fields->'" ++ FieldName ++ "'"), c)

/-- Go `func (c *expressionCompiler) binary(a criteria.BinaryExpression, op string) interface{}`;
`accept e c` is `e.Accept(c)`. -/
def expressionCompiler.binary (c : expressionCompiler)
    (accept : Expression → expressionCompiler → Result Visit)
    (left right : Expression) (op : String) : Result Visit :=
  (accept left c).bind fun l =>
  (accept right l.2).bind fun r =>
    match l.1, r.1 with
    | some ls, some rs => .ok (some ("(" ++ ls ++ " " ++ op ++ " " ++ rs ++ ")"), r.2)
    | _, _ => .ok (none, r.2)

/-- Go `func (c *expressionCompiler) And(a *criteria.AndExpression) interface{}`. -/
def expressionCompiler.And (c : expressionCompiler)
    (accept : Expression → expressionCompiler → Result Visit)
    (left right : Expression) : Result Visit :=
  c.binary accept left right "and"

/-- Go `func (c *expressionCompiler) Or(a *criteria.OrExpression) interface{}`. -/
def expressionCompiler.Or (c : expressionCompiler)
    (accept : Expression → expressionCompiler → Result Visit)
    (left right : Expression) : Result Visit :=
  c.binary accept left right "or"

/-- Go `func (c *expressionCompiler) Equals(e *criteria.EqualsExpression) interface{}`. -/
def expressionCompiler.Equals (c : expressionCompiler)
    (accept : Expression → expressionCompiler → Result Visit)
    (left right : Expression) : Result Visit :=
  c.binary accept left right "="

/-- Go `func (c *expressionCompiler) Matches(e *criteria.MatchesExpression) interface{}`. -/
def expressionCompiler.Matches (c : expressionCompiler)
    (accept : Expression → expressionCompiler → Result Visit)
    (left right : Expression) : Result Visit :=
  (accept left c).bind fun l =>
  (accept right l.2).bind fun r =>
    match l.1, r.1 with
    | some ls, some rs =>
      .ok (some ("(to_tsvector('english', " ++ ls ++ ") @@ to_tsquery('english', " ++ rs ++ "))"), r.2)
    | _, _ => .ok (none, r.2)

/-- Go `func (c *expressionCompiler) Parameter(v *criteria.ParameterExpression) interface{}`. -/
def expressionCompiler.Parameter (c : expressionCompiler) : Visit :=
  (none, { c with err := c.err ++ [Error.Errorf "Parameter expression not supported" []] })

/-- The function literal that `isInJSONContext` passes to `IterateParents`; its
state is the captured variable `result`. -/
def isInJSONContext.visit (h : Heap) (exp : Expression) (result : Bool) : Result (Bool × Bool) :=
  ( Annotation h exp jsonAnnotation).bind fun a =>
    if a = Value.bool true then .ok (false, true) else .ok (true, result)

/-- Go `func isInJSONContext(exp criteria.Expression) bool`. -/
def isInJSONContext (h : Heap) (exp : Expression) : Result Bool :=
  IterateParents h exp (isInJSONContext.visit h) false

/-- Go `func (c *expressionCompiler) convertToString(value interface{}) (string, error)`.
`FormatFloat bits` is `strconv.FormatFloat(t, 'f', -1, 64)`. -/
def expressionCompiler.convertToString (FormatFloat : Nat → String) (value : Value) :
    Except Error String :=
  match value with
  | .float64 t => .ok (FormatFloat t)
  | .int t => .ok (strconv.FormatInt t)
  | .int64 t => .ok (strconv.FormatInt t)
  | .uint t => .ok (strconv.FormatUint t)
  | .uint64 t => .ok (strconv.FormatUint t)
  | .string t => .ok ("\"" ++ t ++ "\"")
  | .bool t => .ok (strconv.FormatBool t)
  | _ => .error (Error.Errorf "unknown value type of %v: %T" [value, value])

/-- Go `func (c *expressionCompiler) Literal(v *criteria.LiteralExpression) interface{}`. -/
def expressionCompiler.Literal (FormatFloat : Nat → String) (c : expressionCompiler)
    (h : Heap) (v : Expression) (value : Value) : Result Visit :=
  (isInJSONContext h v).bind fun json =>
    if json then
      match expressionCompiler.convertToString FormatFloat value with
      | .ok stringVal =>
        .ok (some "?::jsonb", { c with parameters := c.parameters ++ [Value.string stringVal] })
      | .error err => .ok (none, { c with err := c.err ++ [err] })
    else .ok (some "?", { c with parameters := c.parameters ++ [value] })

/-- Go `exp.Accept(c)` for the visitor `*expressionCompiler`: each node type
calls the visitor method of its own kind; on a nil `exp` the call panics. The
budget bounds the nesting depth. -/
def Accept (FormatFloat : Nat → String) (h : Heap) :
    Nat → Expression → expressionCompiler → Result Visit
  | _, none, _ => .panic
  | 0, some _, _ => .timeout
  | fuel + 1, some p, c =>
    match h[p]? with
    | none => .panic
    | some (.FieldExpression _ FieldName) => .ok (c.Field FieldName)
    | some (.ParameterExpression _) => .ok c.Parameter
    | some (.LiteralExpression _ value) => c.Literal FormatFloat h (some p) value
    | some (.AndExpression _ l r) => c.And (Accept FormatFloat h fuel) l r
    | some (.OrExpression _ l r) => c.Or (Accept FormatFloat h fuel) l r
    | some (.EqualsExpression _ l r) => c.Equals (Accept FormatFloat h fuel) l r
    | some (.MatchesExpression _ l r) => c.Matches (Accept FormatFloat h fuel) l r

/-- The two steps of `Compile` before its `return`: the pre-pass, then the
emission visitor run from the root with a fresh compiler. Returns the
visitor's result, the compiler state and the heap after the pre-pass. -/
def compilePasses (FormatFloat : Nat → String) (h : Heap) (whereExp : Expression) :
    Result (Visit × Heap) :=
  (IteratePostOrder h whereExp bubbleUpJSONContext).bind fun h1 =>
  (Accept FormatFloat h1 h1.length whereExp newExpressionCompiler).bind fun r =>
  .ok (r, h1)

/-- Go `func Compile(where criteria.Expression) (whereClause string, parameters []interface{}, err []error)`.
The type assertion `compiled.(string)` panics when `compiled` is nil. The heap
after the call is returned with the three results. -/
def Compile (FormatFloat : Nat → String) (h : Heap) (whereExp : Expression) :
    Result ((String × List Value × List Error) × Heap) :=
  (compilePasses FormatFloat h whereExp).bind fun r =>
    match r.1.1 with
    | some s => .ok ((s, r.1.2.parameters, r.1.2.err), r.2)
    | none => .panic

end models

/-- A tree as the caller writes it: a nest of calls of the factory functions. -/
inductive Term where
  | Field (id : String)
  | Parameter
  | Literal (value : Value)
  | And (left right : Term)
  | Or (left right : Term)
  | Equals (left right : Term)
  | Matches (left right : Term)
deriving DecidableEq

namespace Term

open criteria

/-- Evaluate the nest of factory calls, arguments left to right, on a heap:
every node is freshly allocated and used as a child once. -/
def construct : Term → Heap → Result (Expression × Heap)
  | Field id, h => .ok (criteria.Field h id)
  | Parameter, h => .ok (criteria.Parameter h)
  | Literal v, h => .ok (criteria.Literal h v)
  | And l r, h =>
    (construct l h).bind fun a => (construct r a.2).bind fun b => criteria.And b.2 a.1 b.1
  | Or l r, h =>
    (construct l h).bind fun a => (construct r a.2).bind fun b => criteria.Or b.2 a.1 b.1
  | Equals l r, h =>
    (construct l h).bind fun a => (construct r a.2).bind fun b => criteria.Equals b.2 a.1 b.1
  | Matches l r, h =>
    (construct l h).bind fun a => (construct r a.2).bind fun b => criteria.Matches b.2 a.1 b.1

/-- Construct the tree on a heap and compile it. -/
def compile (FormatFloat : Nat → String) (t : Term) (h : Heap) :
    Result ((String × List Value × List Error) × Heap) :=
  (t.construct h).bind fun a => models.Compile FormatFloat a.2 a.1

end Term

/-! ## The heap image of a constructed tree -/

namespace Term

open criteria models

/-- Number of nodes of the tree, less one: the offset of the root node from
the first node allocated for the tree. -/
def rootOff : Term → Nat
  | Field _ => 0
  | Parameter => 0
  | Literal _ => 0
  | And l r => l.rootOff + r.rootOff + 2
  | Or l r => l.rootOff + r.rootOff + 2
  | Equals l r => l.rootOff + r.rootOff + 2
  | Matches l r => l.rootOff + r.rootOff + 2

/-- Number of nodes of the tree. -/
def size (t : Term) : Nat := t.rootOff + 1

/-- Whether the root of the tree is a node that the pre-pass marks: a Field
whose name is not a column, or an Equals with a marked direct child. -/
def marked : Term → Bool
  | Field id => isJSONField id
  | Equals l r => l.marked || r.marked
  | _ => false

/-- The annotation map of a node that is marked (`true`) or not. -/
def mark (b : Bool) : List (String × Value) :=
  if b then [( jsonAnnotation, Value.bool true)] else []

/-- The root node of the tree when its first node has address `base`, its
parent link is `par`, and the pre-pass has run (`m = true`) or not. -/
def top (m : Bool) : Term → Nat → Expression → Node
  | Field id, _, par => .FieldExpression ⟨par, mark (m && isJSONField id)⟩ id
  | Parameter, _, par => .ParameterExpression ⟨par, []⟩
  | Literal v, _, par => .LiteralExpression ⟨par, []⟩ v
  | And l r, base, par =>
    .AndExpression ⟨par, []⟩ (some (base + l.rootOff)) (some (base + l.size + r.rootOff))
  | Or l r, base, par =>
    .OrExpression ⟨par, []⟩ (some (base + l.rootOff)) (some (base + l.size + r.rootOff))
  | Equals l r, base, par =>
    .EqualsExpression ⟨par, mark (m && (l.marked || r.marked))⟩
      (some (base + l.rootOff)) (some (base + l.size + r.rootOff))
  | Matches l r, base, par =>
    .MatchesExpression ⟨par, []⟩ (some (base + l.rootOff)) (some (base + l.size + r.rootOff))

/-- The nodes of the tree below its root, in allocation order. -/
def body (m : Bool) : Term → Nat → List Node
  | Field _, _ => []
  | Parameter, _ => []
  | Literal _, _ => []
  | And l r, base =>
    (body m l base ++ [top m l base (some (base + l.size + r.size))]) ++
    (body m r (base + l.size) ++ [top m r (base + l.size) (some (base + l.size + r.size))])
  | Or l r, base =>
    (body m l base ++ [top m l base (some (base + l.size + r.size))]) ++
    (body m r (base + l.size) ++ [top m r (base + l.size) (some (base + l.size + r.size))])
  | Equals l r, base =>
    (body m l base ++ [top m l base (some (base + l.size + r.size))]) ++
    (body m r (base + l.size) ++ [top m r (base + l.size) (some (base + l.size + r.size))])
  | Matches l r, base =>
    (body m l base ++ [top m l base (some (base + l.size + r.size))]) ++
    (body m r (base + l.size) ++ [top m r (base + l.size) (some (base + l.size + r.size))])

/-- All nodes of the tree, in allocation order (children before their parent,
left before right). -/
def layout (m : Bool) (t : Term) (base : Nat) (par : Expression) : List Node :=
  body m t base ++ [top m t base par]

/-- The value read back under the key `"JSON"` from a node that is marked or not. -/
def jsonVal (b : Bool) : Value := if b then Value.bool true else Value.nil

/-- The fragment of a binary node from the results of its children: nil when
either is nil. -/
def joinBinary (op : String) (l r : Option String) : Option String :=
  match l, r with
  | some ls, some rs => some ("(" ++ ls ++ " " ++ op ++ " " ++ rs ++ ")")
  | _, _ => none

/-- The fragment of a Matches node from the results of its children. -/
def joinMatches (l r : Option String) : Option String :=
  match l, r with
  | some ls, some rs =>
    some ("(to_tsvector('english', " ++ ls ++ ") @@ to_tsquery('english', " ++ rs ++ "))")
  | _, _ => none

/-- What the Literal visitor does once it knows whether the node is in JSON
context. -/
def emitLiteral (FormatFloat : Nat → String) (json : Bool) (c : expressionCompiler)
    (value : Value) : Visit :=
  if json then
    match expressionCompiler.convertToString FormatFloat value with
    | .ok stringVal =>
      (some "?::jsonb", { c with parameters := c.parameters ++ [Value.string stringVal] })
    | .error err => (none, { c with err := c.err ++ [err] })
  else (some "?", { c with parameters := c.parameters ++ [value] })

/-- The emission visitor read off the tree: `ctx` says whether a proper
ancestor of the subtree is marked. -/
def emit (FormatFloat : Nat → String) : Term → Bool → expressionCompiler → Visit
  | Field id, _, c => c.Field id
  | Parameter, _, c => c.Parameter
  | Literal v, ctx, c => emitLiteral FormatFloat ctx c v
  | And l r, ctx, c =>
    let a := emit FormatFloat l ctx c
    let b := emit FormatFloat r ctx a.2
    (joinBinary "and" a.1 b.1, b.2)
  | Or l r, ctx, c =>
    let a := emit FormatFloat l ctx c
    let b := emit FormatFloat r ctx a.2
    (joinBinary "or" a.1 b.1, b.2)
  | Equals l r, ctx, c =>
    let a := emit FormatFloat l (l.marked || r.marked || ctx) c
    let b := emit FormatFloat r (l.marked || r.marked || ctx) a.2
    (joinBinary "=" a.1 b.1, b.2)
  | Matches l r, ctx, c =>
    let a := emit FormatFloat l ctx c
    let b := emit FormatFloat r ctx a.2
    (joinMatches a.1 b.1, b.2)

/-- Construct the tree on a heap and run the two passes of `Compile` on it. -/
def passes (FormatFloat : Nat → String) (t : Term) (h : Heap) : Result (Visit × Heap) :=
  (t.construct h).bind fun a => compilePasses FormatFloat a.2 a.1

/-- The parent-chain search of `isInJSONContext`, started at `par` on heap `H`,
answers `ctx` whenever it is granted at least `k` iterations. -/
def CtxAt (H : Heap) (par : Expression) (k : Nat) (ctx : Bool) : Prop :=
  ∀ fuel, k ≤ fuel → IterateParents.loop H (isInJSONContext.visit H) fuel par false = .ok ctx

end Term

/-! ## Vocabulary of the properties -/

/-- A step from a binary node to one of its two children. -/
inductive Dir where
  | left
  | right
deriving DecidableEq

namespace criteria

/-- The list `as` is the chain of proper ancestors of `e`, nearest first: the
parent of `e`, the parent of that, and so on up to a node without parent. -/
def ancestorChain (h : Heap) : Expression → List Nat → Prop
  | e, [] => Parent h e = .ok none
  | e, a :: as => Parent h e = .ok (some a) ∧ ancestorChain h (some a) as

/-- A callback for `IterateParents` that answers `pred` and records, in its
state, the nodes it was called on, in order. -/
def recordCalls (pred : Expression → Bool) (e : Expression) (calls : List Expression) :
    Result (Bool × List Expression) :=
  .ok (pred e, calls ++ [e])

/-- The calls the specification describes: the ancestors in order, up to and
including the first on which `pred` answers false. -/
def expectedCalls (pred : Expression → Bool) : List Nat → List Expression
  | [] => []
  | a :: as => some a :: (if pred (some a) then expectedCalls pred as else [])

/-- Follow `Left()` and `Right()` from a node along a path of steps. -/
def descend (h : Heap) : Expression → List Dir → Result Expression
  | e, [] => .ok e
  | e, Dir.left :: p => (Left h e).bind fun l => descend h l p
  | e, Dir.right :: p => (Right h e).bind fun r => descend h r p

end criteria

/-- The textual form the specification names for a literal value: a string in
double quotes, an integer in base 10, a boolean as `true` or `false`. -/
def Value.textualForm : Value → Option String
  | .string s => some ("\"" ++ s ++ "\"")
  | .int i => some (strconv.FormatInt i)
  | .int64 i => some (strconv.FormatInt i)
  | .uint n => some (strconv.FormatUint n)
  | .uint64 n => some (strconv.FormatUint n)
  | .bool true => some "true"
  | .bool false => some "false"
  | _ => none

/-- Whether the value has one of the types the compiler converts to text:
float64, int, int64, uint, uint64, string, bool. -/
def Value.supported : Value → Bool
  | .float64 _ => true
  | .int _ => true
  | .int64 _ => true
  | .uint _ => true
  | .uint64 _ => true
  | .string _ => true
  | .bool _ => true
  | _ => false

/-- The text the specification binds for a literal value in document context:
a float in its shortest round-trippable decimal form (`FormatFloat`), an
integer in base 10, a string wrapped in double quotes, a boolean as `true` or
`false`; a value of any other type has none. -/
def Value.documentText (FormatFloat : Nat → String) : Value → Option String
  | .float64 b => some (FormatFloat b)
  | .int i => some (strconv.FormatInt i)
  | .int64 i => some (strconv.FormatInt i)
  | .uint n => some (strconv.FormatUint n)
  | .uint64 n => some (strconv.FormatUint n)
  | .string s => some ("\"" ++ s ++ "\"")
  | .bool true => some "true"
  | .bool false => some "false"
  | _ => none

namespace Term

open criteria models

/-- The error list the specification describes: one entry per failing leaf,
in left-to-right order. The failing leaves are every Parameter node, every
Field whose name is not a column and contains a single quote, and every
Literal in document context whose value type is unsupported. `inside` says
whether the subtree lies under a marked Equals node. -/
def expectedErrors : Term → Bool → List Error
  | Field id, _ =>
    if isJSONField id && id.toList.contains (Char.ofNat 39) then
      [Error.Errorf "single quote not allowed in field name" []]
    else []
  | Parameter, _ => [Error.Errorf "Parameter expression not supported" []]
  | Literal v, inside =>
    if inside && !v.supported then [Error.Errorf "unknown value type of %v: %T" [v, v]]
    else []
  | And l r, inside => expectedErrors l inside ++ expectedErrors r inside
  | Or l r, inside => expectedErrors l inside ++ expectedErrors r inside
  | Equals l r, inside =>
    expectedErrors l (inside || (Equals l r).marked) ++
      expectedErrors r (inside || (Equals l r).marked)
  | Matches l r, inside => expectedErrors l inside ++ expectedErrors r inside

/-- The tree with the values of its Literal nodes erased: its shape, node
kinds and field names. -/
def erase : Term → Term
  | Field id => Field id
  | Parameter => Parameter
  | Literal _ => Literal Value.nil
  | And l r => And l.erase r.erase
  | Or l r => Or l.erase r.erase
  | Equals l r => Equals l.erase r.erase
  | Matches l r => Matches l.erase r.erase

/-- The subtree reached from the root along a path, if the path stays in the tree. -/
def sub : Term → List Dir → Option Term
  | t, [] => some t
  | And l _, Dir.left :: p => sub l p
  | And _ r, Dir.right :: p => sub r p
  | Or l _, Dir.left :: p => sub l p
  | Or _ r, Dir.right :: p => sub r p
  | Equals l _, Dir.left :: p => sub l p
  | Equals _ r, Dir.right :: p => sub r p
  | Matches l _, Dir.left :: p => sub l p
  | Matches _ r, Dir.right :: p => sub r p
  | _, _ :: _ => none

/-- Whether the node reached along the path has a proper ancestor that is a
marked Equals node. -/
def underMarked : Term → List Dir → Bool
  | _, [] => false
  | And l _, Dir.left :: p => underMarked l p
  | And _ r, Dir.right :: p => underMarked r p
  | Or l _, Dir.left :: p => underMarked l p
  | Or _ r, Dir.right :: p => underMarked r p
  | Equals l r, Dir.left :: p => (Equals l r).marked || underMarked l p
  | Equals l r, Dir.right :: p => (Equals l r).marked || underMarked r p
  | Matches l _, Dir.left :: p => underMarked l p
  | Matches _ r, Dir.right :: p => underMarked r p
  | _, _ :: _ => false

/-- Whether the tree contains a Parameter node, at any position. -/
def hasParameter : Term → Bool
  | Parameter => true
  | Field _ => false
  | Literal _ => false
  | And l r => l.hasParameter || r.hasParameter
  | Or l r => l.hasParameter || r.hasParameter
  | Equals l r => l.hasParameter || r.hasParameter
  | Matches l r => l.hasParameter || r.hasParameter

/-- Number of Literal nodes of the tree. -/
def countLiterals : Term → Nat
  | Literal _ => 1
  | Field _ => 0
  | Parameter => 0
  | And l r => l.countLiterals + r.countLiterals
  | Or l r => l.countLiterals + r.countLiterals
  | Equals l r => l.countLiterals + r.countLiterals
  | Matches l r => l.countLiterals + r.countLiterals

/-- The parameter list the specification describes: the Literal nodes in
left-to-right order, each giving its raw value when it is outside document
context, its textual form `Value.documentText` (as a string) when it is inside
and has one, and nothing when it is inside and its type has no textual form. `inside` says whether the subtree lies under a marked
Equals node. -/
def expectedParams (FormatFloat : Nat → String) : Term → Bool → List Value
  | Field _, _ => []
  | Parameter, _ => []
  | Literal v, inside =>
    if inside then
      match v.documentText FormatFloat with
      | some s => [Value.string s]
      | none => []
    else [v]
  | And l r, inside => expectedParams FormatFloat l inside ++ expectedParams FormatFloat r inside
  | Or l r, inside => expectedParams FormatFloat l inside ++ expectedParams FormatFloat r inside
  | Equals l r, inside =>
    expectedParams FormatFloat l (inside || (Equals l r).marked) ++
      expectedParams FormatFloat r (inside || (Equals l r).marked)
  | Matches l r, inside =>
    expectedParams FormatFloat l inside ++ expectedParams FormatFloat r inside

/-- Whether no Field name of the tree contains the character `ch`. -/
def fieldsAvoid (ch : Char) : Term → Bool
  | Field id => !(id.toList.contains ch)
  | Parameter => true
  | Literal _ => true
  | And l r => l.fieldsAvoid ch && r.fieldsAvoid ch
  | Or l r => l.fieldsAvoid ch && r.fieldsAvoid ch
  | Equals l r => l.fieldsAvoid ch && r.fieldsAvoid ch
  | Matches l r => l.fieldsAvoid ch && r.fieldsAvoid ch

/-- Construct the tree on a heap and run pass 1 of `Compile` on it: the root
and the heap on which pass 2 runs. -/
def prepass (t : Term) (h : Heap) : Result (Expression × Heap) :=
  (t.construct h).bind fun a =>
  (IteratePostOrder a.2 a.1 bubbleUpJSONContext).bind fun h1 => .ok (a.1, h1)

end Term

/-! ## Sequencing lemmas -/

namespace Result

@[simp] theorem ok_bind {α β : Type} (a : α) (k : α → Result β) :
    (ok a).bind k = k a := rfl

@[simp] theorem panic_bind {α β : Type} (k : α → Result β) :
    (panic : Result α).bind k = panic := rfl

@[simp] theorem timeout_bind {α β : Type} (k : α → Result β) :
    (timeout : Result α).bind k = timeout := rfl

end Result

/-! ## Lemmas on lists used as heaps -/

theorem getElem?_mid {α : Type} (pre post : List α) (x : α) (i : Nat) (hi : i = pre.length) :
    (pre ++ x :: post)[i]? = some x := by
  subst hi
  rw [List.getElem?_append_right (le_refl _)]
  simp

theorem set_mid {α : Type} (pre post : List α) (x y : α) (i : Nat) (hi : i = pre.length) :
    (pre ++ x :: post).set i y = pre ++ y :: post := by
  subst hi
  simp

namespace Term

open criteria models

theorem length_body (m : Bool) (t : Term) (base : Nat) :
    (body m t base).length = t.rootOff := by
  induction t generalizing base with
  | Field id => rfl
  | Parameter => rfl
  | Literal v => rfl
  | And l r ihl ihr => simp [body, rootOff, ihl, ihr]; omega
  | Or l r ihl ihr => simp [body, rootOff, ihl, ihr]; omega
  | Equals l r ihl ihr => simp [body, rootOff, ihl, ihr]; omega
  | Matches l r ihl ihr => simp [body, rootOff, ihl, ihr]; omega

theorem length_layout (m : Bool) (t : Term) (base : Nat) (par : Expression) :
    (layout m t base par).length = t.size := by
  simp [layout, length_body, size]

theorem top_withParent (m : Bool) (t : Term) (base : Nat) (par par2 : Expression) :
    (top m t base par).withBase { (top m t base par).base with parent := par2 } =
      top m t base par2 := by
  cases t <;> rfl

/-- Setting the parent of the root of a tree just laid out. -/
theorem setParent_layout (m : Bool) (t : Term) (pre post : Heap) (par par2 : Expression) :
    setParent (pre ++ layout m t pre.length par ++ post) (some (pre.length + t.rootOff)) par2 =
      .ok (pre ++ layout m t pre.length par2 ++ post) := by
  have e : ∀ q, pre ++ layout m t pre.length q ++ post =
      (pre ++ body m t pre.length) ++ top m t pre.length q :: post := by
    intro q; simp [layout]
  rw [e, e]
  have hi : pre.length + t.rootOff = (pre ++ body m t pre.length).length := by
    simp [length_body]
  simp only [setParent, getElem?_mid _ _ _ _ hi, set_mid _ _ _ _ _ hi, top_withParent]

end Term

namespace Term

open criteria models

/-- The result of `reparent` on a fresh binary node placed after its two subtrees. -/
theorem reparent_layout (m : Bool) (l r : Term) (pre : Heap) (N : Node) (p1 p2 : Expression)
    (hN : N.children =
      some (some (pre.length + l.rootOff), some (pre.length + l.size + r.rootOff))) :
    reparent (pre ++ layout m l pre.length p1 ++ layout m r (pre.length + l.size) p2 ++ [N])
        (some (pre.length + l.size + r.size)) =
      .ok (some (pre.length + l.size + r.size),
        pre ++ layout m l pre.length (some (pre.length + l.size + r.size)) ++
          layout m r (pre.length + l.size) (some (pre.length + l.size + r.size)) ++ [N]) := by
  have hroot : ∀ q1 q2, (pre ++ layout m l pre.length q1 ++
      layout m r (pre.length + l.size) q2 ++ [N])[pre.length + l.size + r.size]? = some N := by
    intro q1 q2
    have := getElem?_mid (pre ++ layout m l pre.length q1 ++ layout m r (pre.length + l.size) q2)
      [] N (pre.length + l.size + r.size) (by simp [length_layout]; omega)
    simpa using this
  have s1 : setParent (pre ++ layout m l pre.length p1 ++
        layout m r (pre.length + l.size) p2 ++ [N]) (some (pre.length + l.rootOff))
        (some (pre.length + l.size + r.size)) =
      .ok (pre ++ layout m l pre.length (some (pre.length + l.size + r.size)) ++
        layout m r (pre.length + l.size) p2 ++ [N]) := by
    have := setParent_layout m l pre (layout m r (pre.length + l.size) p2 ++ [N]) p1
      (some (pre.length + l.size + r.size))
    simpa [List.append_assoc] using this
  have s2 : setParent (pre ++ layout m l pre.length (some (pre.length + l.size + r.size)) ++
        layout m r (pre.length + l.size) p2 ++ [N]) (some (pre.length + l.size + r.rootOff))
        (some (pre.length + l.size + r.size)) =
      .ok (pre ++ layout m l pre.length (some (pre.length + l.size + r.size)) ++
        layout m r (pre.length + l.size) (some (pre.length + l.size + r.size)) ++ [N]) := by
    have := setParent_layout m r (pre ++ layout m l pre.length (some (pre.length + l.size + r.size)))
      [N] p2 (some (pre.length + l.size + r.size))
    simpa [List.append_assoc, length_layout] using this
  simp only [reparent, Left, Right, deref, hroot, hN, Result.ok_bind, s1, s2]

theorem construct_eq (t : Term) (h : Heap) :
    t.construct h = .ok (some (h.length + t.rootOff), h ++ layout false t h.length none) := by
  induction t generalizing h with
  | Field id => simp [construct, criteria.Field, layout, body, top, rootOff, mark]
  | Parameter => simp [construct, criteria.Parameter, layout, body, top, rootOff]
  | Literal v => simp [construct, criteria.Literal, layout, body, top, rootOff]
  | And l r ihl ihr =>
    simp only [construct, ihl, ihr, Result.ok_bind, criteria.And, length_layout,
      List.length_append]
    have := reparent_layout false l r h
      (Node.AndExpression ⟨none, []⟩ (some (h.length + l.rootOff))
        (some (h.length + l.size + r.rootOff))) none none rfl
    simp only [this]
    simp [layout, body, top, rootOff, size, List.append_assoc]
    omega
  | Or l r ihl ihr =>
    simp only [construct, ihl, ihr, Result.ok_bind, criteria.Or, length_layout,
      List.length_append]
    have := reparent_layout false l r h
      (Node.OrExpression ⟨none, []⟩ (some (h.length + l.rootOff))
        (some (h.length + l.size + r.rootOff))) none none rfl
    simp only [this]
    simp [layout, body, top, rootOff, size, List.append_assoc]
    omega
  | Equals l r ihl ihr =>
    simp only [construct, ihl, ihr, Result.ok_bind, criteria.Equals, length_layout,
      List.length_append]
    have := reparent_layout false l r h
      (Node.EqualsExpression ⟨none, []⟩ (some (h.length + l.rootOff))
        (some (h.length + l.size + r.rootOff))) none none rfl
    simp only [this]
    simp [layout, body, top, rootOff, size, List.append_assoc, mark]
    omega
  | Matches l r ihl ihr =>
    simp only [construct, ihl, ihr, Result.ok_bind, criteria.Matches, length_layout,
      List.length_append]
    have := reparent_layout false l r h
      (Node.MatchesExpression ⟨none, []⟩ (some (h.length + l.rootOff))
        (some (h.length + l.size + r.rootOff))) none none rfl
    simp only [this]
    simp [layout, body, top, rootOff, size, List.append_assoc]
    omega

end Term

/-! ## Pass 1 on a constructed tree -/

namespace Term

open criteria models

theorem top_get (t : Term) (base : Nat) (par : Expression) :
    (top true t base par).base.get jsonAnnotation = jsonVal t.marked := by
  cases t <;> simp [top, Node.base, expression.get, marked, jsonVal, mark, List.lookup] <;>
    split <;> simp_all [List.lookup]

theorem getElem?_root (m : Bool) (t : Term) (pre post : Heap) (par : Expression) :
    (pre ++ layout m t pre.length par ++ post)[pre.length + t.rootOff]? =
      some (top m t pre.length par) := by
  have e : pre ++ layout m t pre.length par ++ post =
      (pre ++ body m t pre.length) ++ top m t pre.length par :: post := by
    simp [layout]
  rw [e]
  exact getElem?_mid _ _ _ _ (by simp [length_body])

theorem walk_leaf (f : Heap → Expression → Result (Bool × Heap)) (fuel : Nat) (h : Heap)
    (p : Nat) (n : Node) (hp : h[p]? = some n) (hc : n.children = none) :
    IteratePostOrder.walk f (fuel + 1) h (some p) = (f h (some p)).bind fun r => .ok r.2 := by
  simp [IteratePostOrder.walk, hp, hc]

theorem walk_bin (f : Heap → Expression → Result (Bool × Heap)) (fuel : Nat) (h : Heap)
    (p : Nat) (n : Node) (l r : Expression) (hp : h[p]? = some n)
    (hc : n.children = some (l, r)) :
    IteratePostOrder.walk f (fuel + 1) h (some p) =
      (IteratePostOrder.walk f fuel h l).bind fun h1 =>
      (IteratePostOrder.walk f fuel h1 r).bind fun h2 =>
      (f h2 (some p)).bind fun r => .ok r.2 := by
  simp [IteratePostOrder.walk, hp, hc]

theorem SetAnnotation_mid (A post : Heap) (n : Node) (k : String) (v : Value) :
    SetAnnotation (A ++ n :: post) (some A.length) k v =
      .ok (A ++ n.withBase (n.base.put k v) :: post) := by
  simp only [ SetAnnotation, getElem?_mid A post n A.length rfl, set_mid A post n _ A.length rfl]

/-- The pre-pass step on the root of a tree whose children have been processed. -/
theorem bubble_top (t : Term) (A post : Heap) (base : Nat) (par : Expression)
    (p : Nat) (hA : p = A.length)
    (hk : ∀ l r, t = Equals l r →
      Annotation (A ++ top false t base par :: post) (some (base + l.rootOff)) jsonAnnotation
          = .ok (jsonVal l.marked) ∧
      Annotation (A ++ top false t base par :: post) (some (base + l.size + r.rootOff))
          jsonAnnotation = .ok (jsonVal r.marked)) :
    bubbleUpJSONContext (A ++ top false t base par :: post) (some p) =
      .ok (true, A ++ top true t base par :: post) := by
  subst hA
  have hp : (A ++ top false t base par :: post)[A.length]? = some (top false t base par) :=
    getElem?_mid _ _ _ _ rfl
  cases t with
  | Field id =>
    simp only [top] at hp ⊢
    simp only [bubbleUpJSONContext, hp, SetAnnotation_mid]
    by_cases hj : isJSONField id = true
    · simp [hj, Node.withBase, Node.base, expression.put, mark]
    · simp [hj, mark]
  | Parameter => simp only [top] at hp ⊢; simp only [bubbleUpJSONContext, hp]
  | Literal v => simp only [top] at hp ⊢; simp only [bubbleUpJSONContext, hp]
  | And l r => simp only [top] at hp ⊢; simp only [bubbleUpJSONContext, hp]
  | Or l r => simp only [top] at hp ⊢; simp only [bubbleUpJSONContext, hp]
  | Matches l r => simp only [top] at hp ⊢; simp only [bubbleUpJSONContext, hp]
  | Equals l r =>
    obtain ⟨h1, h2⟩ := hk l r rfl
    simp only [top] at h1 h2 hp ⊢
    simp only [bubbleUpJSONContext, hp, h1, h2, Result.ok_bind, SetAnnotation_mid]
    cases hl : l.marked <;> cases hr : r.marked <;>
      simp [jsonVal, Node.withBase, Node.base, expression.put, mark]

end Term

namespace Term

open criteria models

/-- Reading the `"JSON"` annotation of the root of a processed subtree. -/
theorem Annotation_root (t : Term) (pre post : Heap) (par : Expression) :
    Annotation (pre ++ layout true t pre.length par ++ post) (some (pre.length + t.rootOff))
      jsonAnnotation = .ok (jsonVal t.marked) := by
  simp only [ Annotation, deref, getElem?_root, Result.ok_bind, top_get]

/-- The pre-pass on a binary node, given the pre-pass on its two subtrees. -/
theorem walk_node (t l r : Term) (pre post : Heap) (par : Expression) (fuel : Nat)
    (hbody : ∀ m, body m t pre.length =
      layout m l pre.length (some (pre.length + l.size + r.size)) ++
        layout m r (pre.length + l.size) (some (pre.length + l.size + r.size)))
    (hoff : t.rootOff = l.rootOff + r.rootOff + 2)
    (hch : (top false t pre.length par).children =
      some (some (pre.length + l.rootOff), some (pre.length + l.size + r.rootOff)))
    (hEq : ∀ l2 r2, t = Equals l2 r2 → l2 = l ∧ r2 = r)
    (ihl : ∀ (pre post : Heap) (par : Expression),
      IteratePostOrder.walk bubbleUpJSONContext fuel
        (pre ++ layout false l pre.length par ++ post) (some (pre.length + l.rootOff)) =
      .ok (pre ++ layout true l pre.length par ++ post))
    (ihr : ∀ (pre post : Heap) (par : Expression),
      IteratePostOrder.walk bubbleUpJSONContext fuel
        (pre ++ layout false r pre.length par ++ post) (some (pre.length + r.rootOff)) =
      .ok (pre ++ layout true r pre.length par ++ post)) :
    IteratePostOrder.walk bubbleUpJSONContext (fuel + 1)
        (pre ++ layout false t pre.length par ++ post) (some (pre.length + t.rootOff)) =
      .ok (pre ++ layout true t pre.length par ++ post) := by
  rw [walk_bin _ _ _ _ _ _ _ (getElem?_root false t pre post par) hch]
  have e1 : pre ++ layout false t pre.length par ++ post =
      pre ++ layout false l pre.length (some (pre.length + l.size + r.size)) ++
        (layout false r (pre.length + l.size) (some (pre.length + l.size + r.size)) ++
          top false t pre.length par :: post) := by
    simp [layout, hbody]
  rw [e1, ihl]
  simp only [Result.ok_bind]
  have e2 : pre ++ layout true l pre.length (some (pre.length + l.size + r.size)) ++
        (layout false r (pre.length + l.size) (some (pre.length + l.size + r.size)) ++
          top false t pre.length par :: post) =
      (pre ++ layout true l pre.length (some (pre.length + l.size + r.size))) ++
        layout false r (pre ++ layout true l pre.length
            (some (pre.length + l.size + r.size))).length
          (some (pre.length + l.size + r.size)) ++
        (top false t pre.length par :: post) := by
    simp [length_layout]
  have e2i : pre.length + l.size + r.rootOff =
      (pre ++ layout true l pre.length (some (pre.length + l.size + r.size))).length +
        r.rootOff := by
    simp [length_layout]
  rw [e2, e2i, ihr]
  simp only [Result.ok_bind]
  have hlen : (pre ++ layout true l pre.length (some (pre.length + l.size + r.size))).length =
      pre.length + l.size := by
    simp [length_layout]
  rw [hlen]
  have e3 : pre ++ layout true l pre.length (some (pre.length + l.size + r.size)) ++
        layout true r (pre.length + l.size) (some (pre.length + l.size + r.size)) ++
        top false t pre.length par :: post =
      (pre ++ layout true l pre.length (some (pre.length + l.size + r.size)) ++
        layout true r (pre.length + l.size) (some (pre.length + l.size + r.size))) ++
        top false t pre.length par :: post := by
    simp
  have e3i : pre.length + t.rootOff =
      (pre ++ layout true l pre.length (some (pre.length + l.size + r.size)) ++
        layout true r (pre.length + l.size) (some (pre.length + l.size + r.size))).length := by
    simp [length_layout, size, hoff]
    omega
  rw [bubble_top t _ post pre.length par _ e3i]
  · simp [layout, hbody]
  · intro l2 r2 h2
    obtain ⟨rfl, rfl⟩ := hEq l2 r2 h2
    constructor
    · have := Annotation_root l2 pre
        (layout true r2 (pre.length + l2.size) (some (pre.length + l2.size + r2.size)) ++
          top false t pre.length par :: post) (some (pre.length + l2.size + r2.size))
      simpa [List.append_assoc] using this
    · have := Annotation_root r2
        (pre ++ layout true l2 pre.length (some (pre.length + l2.size + r2.size)))
        (top false t pre.length par :: post) (some (pre.length + l2.size + r2.size))
      simpa [List.append_assoc, length_layout] using this

/-- Pass 1 on a freshly constructed subtree marks exactly the nodes `marked` names. -/
theorem walk_layout (t : Term) (pre post : Heap) (par : Expression) (fuel : Nat)
    (hf : t.size ≤ fuel) :
    IteratePostOrder.walk bubbleUpJSONContext fuel
        (pre ++ layout false t pre.length par ++ post) (some (pre.length + t.rootOff)) =
      .ok (pre ++ layout true t pre.length par ++ post) := by
  induction t generalizing pre post par fuel with
  | Field id =>
    obtain ⟨fuel, rfl⟩ : ∃ k, fuel = k + 1 := ⟨fuel - 1, by simp [size] at hf; omega⟩
    rw [walk_leaf _ _ _ _ _ (getElem?_root false _ pre post par) (by rfl)]
    have := bubble_top (Field id) pre post pre.length par (pre.length + (Field id).rootOff)
      (by simp [rootOff]) (by simp)
    simp only [layout, body, List.append_nil, List.nil_append, List.append_assoc,
      List.singleton_append, this, Result.ok_bind]
  | Parameter =>
    obtain ⟨fuel, rfl⟩ : ∃ k, fuel = k + 1 := ⟨fuel - 1, by simp [size] at hf; omega⟩
    rw [walk_leaf _ _ _ _ _ (getElem?_root false _ pre post par) (by rfl)]
    have := bubble_top Parameter pre post pre.length par (pre.length + Parameter.rootOff)
      (by simp [rootOff]) (by simp)
    simp only [layout, body, List.append_nil, List.nil_append, List.append_assoc,
      List.singleton_append, this, Result.ok_bind]
  | Literal v =>
    obtain ⟨fuel, rfl⟩ : ∃ k, fuel = k + 1 := ⟨fuel - 1, by simp [size] at hf; omega⟩
    rw [walk_leaf _ _ _ _ _ (getElem?_root false _ pre post par) (by rfl)]
    have := bubble_top (Literal v) pre post pre.length par (pre.length + (Literal v).rootOff)
      (by simp [rootOff]) (by simp)
    simp only [layout, body, List.append_nil, List.nil_append, List.append_assoc,
      List.singleton_append, this, Result.ok_bind]
  | And l r ihl ihr =>
    obtain ⟨fuel, rfl⟩ : ∃ k, fuel = k + 1 := ⟨fuel - 1, by simp [size] at hf; omega⟩
    simp only [size, rootOff] at hf
    exact walk_node _ l r pre post par fuel (by intro m; simp [body, layout]) rfl rfl
      (by simp) (fun a b c => ihl a b c fuel (by simp only [size]; omega))
      (fun a b c => ihr a b c fuel (by simp only [size]; omega))
  | Or l r ihl ihr =>
    obtain ⟨fuel, rfl⟩ : ∃ k, fuel = k + 1 := ⟨fuel - 1, by simp [size] at hf; omega⟩
    simp only [size, rootOff] at hf
    exact walk_node _ l r pre post par fuel (by intro m; simp [body, layout]) rfl rfl
      (by simp) (fun a b c => ihl a b c fuel (by simp only [size]; omega))
      (fun a b c => ihr a b c fuel (by simp only [size]; omega))
  | Equals l r ihl ihr =>
    obtain ⟨fuel, rfl⟩ : ∃ k, fuel = k + 1 := ⟨fuel - 1, by simp [size] at hf; omega⟩
    simp only [size, rootOff] at hf
    exact walk_node _ l r pre post par fuel (by intro m; simp [body, layout]) rfl rfl
      (by intro l2 r2 h; injection h with h1 h2; exact ⟨h1.symm, h2.symm⟩)
      (fun a b c => ihl a b c fuel (by simp only [size]; omega))
      (fun a b c => ihr a b c fuel (by simp only [size]; omega))
  | Matches l r ihl ihr =>
    obtain ⟨fuel, rfl⟩ : ∃ k, fuel = k + 1 := ⟨fuel - 1, by simp [size] at hf; omega⟩
    simp only [size, rootOff] at hf
    exact walk_node _ l r pre post par fuel (by intro m; simp [body, layout]) rfl rfl
      (by simp) (fun a b c => ihl a b c fuel (by simp only [size]; omega))
      (fun a b c => ihr a b c fuel (by simp only [size]; omega))

end Term

/-! ## Pass 2 on a constructed tree -/

namespace Term

open criteria models

theorem CtxAt_nil (H : Heap) : CtxAt H none 0 false := by
  intro fuel _
  cases fuel <;> rfl

theorem jsonVal_eq_true (b : Bool) : (jsonVal b = Value.bool true) ↔ b = true := by
  cases b <;> simp [jsonVal]

theorem CtxAt_step (H : Heap) (r : Nat) (n : Node) (par : Expression) (k : Nat) (b b0 : Bool)
    (hr : H[r]? = some n) (hp : n.base.parent = par)
    (ha : n.base.get jsonAnnotation = jsonVal b0) (h : CtxAt H par k b) :
    CtxAt H (some r) (k + 1) (b0 || b) := by
  intro fuel hf
  obtain ⟨fuel, rfl⟩ : ∃ m, fuel = m + 1 := ⟨fuel - 1, by omega⟩
  simp only [IterateParents.loop, isInJSONContext.visit, Annotation, Parent, deref, hr,
    Result.ok_bind, ha, hp]
  cases b0 with
  | true => simp [jsonVal]
  | false =>
    simp only [jsonVal, Bool.false_eq_true, if_false, Bool.false_or]
    simpa using h fuel (by omega)

theorem isInJSONContext_of (H : Heap) (x : Nat) (n : Node) (par : Expression) (k : Nat)
    (ctx : Bool) (hx : H[x]? = some n) (hp : n.base.parent = par) (h : CtxAt H par k ctx)
    (hk : k ≤ H.length) : isInJSONContext H (some x) = .ok ctx := by
  simp only [isInJSONContext, IterateParents, Parent, deref, hx, Result.ok_bind, hp]
  exact h _ hk

theorem Literal_eq (F : Nat → String) (c : expressionCompiler) (H : Heap) (v : Expression)
    (value : Value) (ctx : Bool) (h : isInJSONContext H v = .ok ctx) :
    c.Literal F H v value = .ok (emitLiteral F ctx c value) := by
  simp only [expressionCompiler.Literal, h, Result.ok_bind, emitLiteral]
  cases ctx with
  | false => simp
  | true =>
    simp only [if_true]
    cases expressionCompiler.convertToString F value <;> rfl

theorem binary_eq (c : expressionCompiler)
    (accept : Expression → expressionCompiler → Result Visit) (left right : Expression)
    (op : String) :
    c.binary accept left right op =
      (accept left c).bind fun l => (accept right l.2).bind fun r =>
        .ok (joinBinary op l.1 r.1, r.2) := by
  unfold expressionCompiler.binary
  congr 1; funext l; congr 1; funext r
  rcases l with ⟨_ | ls, c1⟩ <;> rcases r with ⟨_ | rs, c2⟩ <;> rfl

theorem Matches_eq (c : expressionCompiler)
    (accept : Expression → expressionCompiler → Result Visit) (left right : Expression) :
    c.Matches accept left right =
      (accept left c).bind fun l => (accept right l.2).bind fun r =>
        .ok (joinMatches l.1 r.1, r.2) := by
  unfold expressionCompiler.Matches
  congr 1; funext l; congr 1; funext r
  rcases l with ⟨_ | ls, c1⟩ <;> rcases r with ⟨_ | rs, c2⟩ <;> rfl

theorem Accept_succ (F : Nat → String) (H : Heap) (fuel p : Nat) (c : expressionCompiler)
    (n : Node) (hp : H[p]? = some n) :
    Accept F H (fuel + 1) (some p) c =
      match n with
      | .FieldExpression _ FieldName => .ok (c.Field FieldName)
      | .ParameterExpression _ => .ok c.Parameter
      | .LiteralExpression _ value => c.Literal F H (some p) value
      | .AndExpression _ l r => c.And (Accept F H fuel) l r
      | .OrExpression _ l r => c.Or (Accept F H fuel) l r
      | .EqualsExpression _ l r => c.Equals (Accept F H fuel) l r
      | .MatchesExpression _ l r => c.Matches (Accept F H fuel) l r := by
  simp only [Accept, hp]
  cases n <;> rfl

/-- How the heap image of a binary node splits around each of its subtrees. -/
theorem node_split (m : Bool) (t l r : Term) (pre post : Heap) (par : Expression)
    (hbody : body m t pre.length =
      layout m l pre.length (some (pre.length + l.size + r.size)) ++
        layout m r (pre.length + l.size) (some (pre.length + l.size + r.size))) :
    (pre ++ layout m t pre.length par ++ post =
      pre ++ layout m l pre.length (some (pre.length + l.size + r.size)) ++
        (layout m r (pre.length + l.size) (some (pre.length + l.size + r.size)) ++
          top m t pre.length par :: post)) ∧
    (pre ++ layout m t pre.length par ++ post =
      (pre ++ layout m l pre.length (some (pre.length + l.size + r.size))) ++
        layout m r (pre ++ layout m l pre.length
            (some (pre.length + l.size + r.size))).length
          (some (pre.length + l.size + r.size)) ++
        (top m t pre.length par :: post)) := by
  constructor
  · simp [layout, hbody]
  · simp [layout, hbody, length_body, size]

/-- The emission of a binary node, given the emission of its two subtrees. -/
theorem Accept_node (F : Nat → String) (t l r : Term) (H pre post : Heap) (par : Expression)
    (k : Nat) (ctx : Bool) (fuel : Nat)
    (hH : H = pre ++ layout true t pre.length par ++ post)
    (hctx : CtxAt H par k ctx) (hk : k + t.size ≤ H.length)
    (hbody : body true t pre.length =
      layout true l pre.length (some (pre.length + l.size + r.size)) ++
        layout true r (pre.length + l.size) (some (pre.length + l.size + r.size)))
    (hoff : t.rootOff = l.rootOff + r.rootOff + 2)
    (hpar : (top true t pre.length par).base.parent = par)
    (ihl : ∀ (H pre post : Heap) (par : Expression) (k : Nat) (ctx : Bool)
      (c : expressionCompiler),
      H = pre ++ layout true l pre.length par ++ post → CtxAt H par k ctx →
      k + l.size ≤ H.length →
      Accept F H fuel (some (pre.length + l.rootOff)) c = .ok (emit F l ctx c))
    (ihr : ∀ (H pre post : Heap) (par : Expression) (k : Nat) (ctx : Bool)
      (c : expressionCompiler),
      H = pre ++ layout true r pre.length par ++ post → CtxAt H par k ctx →
      k + r.size ≤ H.length →
      Accept F H fuel (some (pre.length + r.rootOff)) c = .ok (emit F r ctx c))
    (c : expressionCompiler) :
    Accept F H fuel (some (pre.length + l.rootOff)) c =
        .ok (emit F l (t.marked || ctx) c) ∧
    ∀ c2, Accept F H fuel (some (pre.length + l.size + r.rootOff)) c2 =
        .ok (emit F r (t.marked || ctx) c2) := by
  have hp := getElem?_root true t pre post par
  rw [← hH] at hp
  obtain ⟨e1, e2⟩ := node_split true t l r pre post par hbody
  have hR : pre.length + t.rootOff = pre.length + l.size + r.size := by
    simp only [size, hoff]; omega
  rw [hR] at hp
  have hc : CtxAt H (some (pre.length + l.size + r.size)) (k + 1) (t.marked || ctx) :=
    CtxAt_step H _ _ par k ctx t.marked hp hpar (top_get t pre.length par) hctx
  have hsz : t.size = l.size + r.size + 1 := by simp only [size, hoff]; omega
  constructor
  · exact ihl H pre _ _ (k + 1) _ c (hH.trans e1) hc (by simp only [size] at *; omega)
  · intro c2
    have := ihr H _ _ _ (k + 1) _ c2 (hH.trans e2) hc (by simp only [size] at *; omega)
    simpa [length_layout] using this

end Term

namespace Term

open criteria models

/-- Pass 2 on a processed subtree computes `emit`. -/
theorem Accept_layout (F : Nat → String) (t : Term) :
    ∀ (fuel : Nat) (H pre post : Heap) (par : Expression) (k : Nat) (ctx : Bool)
      (c : expressionCompiler),
      t.size ≤ fuel → H = pre ++ layout true t pre.length par ++ post → CtxAt H par k ctx →
      k + t.size ≤ H.length →
      Accept F H fuel (some (pre.length + t.rootOff)) c = .ok (emit F t ctx c) := by
  induction t with
  | Field id =>
    intro fuel H pre post par k ctx c hf hH hctx hk
    obtain ⟨fuel, rfl⟩ : ∃ n, fuel = n + 1 := ⟨fuel - 1, by simp only [size] at hf; omega⟩
    have hp := getElem?_root true (Field id) pre post par
    rw [← hH] at hp
    rw [Accept_succ F H fuel _ c _ hp]
    rfl
  | Parameter =>
    intro fuel H pre post par k ctx c hf hH hctx hk
    obtain ⟨fuel, rfl⟩ : ∃ n, fuel = n + 1 := ⟨fuel - 1, by simp only [size] at hf; omega⟩
    have hp := getElem?_root true Parameter pre post par
    rw [← hH] at hp
    rw [Accept_succ F H fuel _ c _ hp]
    rfl
  | Literal v =>
    intro fuel H pre post par k ctx c hf hH hctx hk
    obtain ⟨fuel, rfl⟩ : ∃ n, fuel = n + 1 := ⟨fuel - 1, by simp only [size] at hf; omega⟩
    have hp := getElem?_root true (Literal v) pre post par
    rw [← hH] at hp
    rw [Accept_succ F H fuel _ c _ hp]
    exact Literal_eq F c H _ v ctx
      (isInJSONContext_of H _ _ par k ctx hp rfl hctx (by omega))
  | And l r ihl ihr =>
    intro fuel H pre post par k ctx c hf hH hctx hk
    obtain ⟨fuel, rfl⟩ : ∃ n, fuel = n + 1 := ⟨fuel - 1, by simp only [size] at hf; omega⟩
    have hp := getElem?_root true (And l r) pre post par
    rw [← hH] at hp
    simp only [size, rootOff] at hf
    obtain ⟨h1, h2⟩ := Accept_node F (And l r) l r H pre post par k ctx fuel hH hctx hk
      (by simp [body, layout]) rfl rfl
      (fun H pre post par k ctx c => ihl fuel H pre post par k ctx c (by simp only [size]; omega))
      (fun H pre post par k ctx c => ihr fuel H pre post par k ctx c (by simp only [size]; omega))
      c
    rw [Accept_succ F H fuel _ c _ hp]
    simp only [top, expressionCompiler.And, binary_eq, h1, h2, Result.ok_bind, emit, marked,
      Bool.false_or]
  | Or l r ihl ihr =>
    intro fuel H pre post par k ctx c hf hH hctx hk
    obtain ⟨fuel, rfl⟩ : ∃ n, fuel = n + 1 := ⟨fuel - 1, by simp only [size] at hf; omega⟩
    have hp := getElem?_root true (Or l r) pre post par
    rw [← hH] at hp
    simp only [size, rootOff] at hf
    obtain ⟨h1, h2⟩ := Accept_node F (Or l r) l r H pre post par k ctx fuel hH hctx hk
      (by simp [body, layout]) rfl rfl
      (fun H pre post par k ctx c => ihl fuel H pre post par k ctx c (by simp only [size]; omega))
      (fun H pre post par k ctx c => ihr fuel H pre post par k ctx c (by simp only [size]; omega))
      c
    rw [Accept_succ F H fuel _ c _ hp]
    simp only [top, expressionCompiler.Or, binary_eq, h1, h2, Result.ok_bind, emit, marked,
      Bool.false_or]
  | Equals l r ihl ihr =>
    intro fuel H pre post par k ctx c hf hH hctx hk
    obtain ⟨fuel, rfl⟩ : ∃ n, fuel = n + 1 := ⟨fuel - 1, by simp only [size] at hf; omega⟩
    have hp := getElem?_root true (Equals l r) pre post par
    rw [← hH] at hp
    simp only [size, rootOff] at hf
    obtain ⟨h1, h2⟩ := Accept_node F (Equals l r) l r H pre post par k ctx fuel hH hctx hk
      (by simp [body, layout]) rfl rfl
      (fun H pre post par k ctx c => ihl fuel H pre post par k ctx c (by simp only [size]; omega))
      (fun H pre post par k ctx c => ihr fuel H pre post par k ctx c (by simp only [size]; omega))
      c
    rw [Accept_succ F H fuel _ c _ hp]
    simp only [top, expressionCompiler.Equals, binary_eq, h1, h2, Result.ok_bind, emit, marked]
  | Matches l r ihl ihr =>
    intro fuel H pre post par k ctx c hf hH hctx hk
    obtain ⟨fuel, rfl⟩ : ∃ n, fuel = n + 1 := ⟨fuel - 1, by simp only [size] at hf; omega⟩
    have hp := getElem?_root true (Matches l r) pre post par
    rw [← hH] at hp
    simp only [size, rootOff] at hf
    obtain ⟨h1, h2⟩ := Accept_node F (Matches l r) l r H pre post par k ctx fuel hH hctx hk
      (by simp [body, layout]) rfl rfl
      (fun H pre post par k ctx c => ihl fuel H pre post par k ctx c (by simp only [size]; omega))
      (fun H pre post par k ctx c => ihr fuel H pre post par k ctx c (by simp only [size]; omega))
      c
    rw [Accept_succ F H fuel _ c _ hp]
    simp only [top, Matches_eq, h1, h2, Result.ok_bind, emit,
      marked, Bool.false_or]

/-- The two passes on a freshly constructed tree: the heap gets the marks of
`marked`, and the visitor returns `emit` started outside JSON context. -/
theorem passes_eq (F : Nat → String) (t : Term) (h : Heap) :
    t.passes F h =
      .ok (emit F t false newExpressionCompiler, h ++ layout true t h.length none) := by
  simp only [passes, construct_eq, Result.ok_bind, compilePasses, IteratePostOrder]
  have w := walk_layout t h [] none (h ++ layout false t h.length none).length
    (by simp [length_layout])
  simp only [List.append_nil] at w
  rw [w]
  simp only [Result.ok_bind]
  rw [Accept_layout F t _ (h ++ layout true t h.length none) h [] none 0 false
    newExpressionCompiler (by simp [length_layout]) (by simp) (CtxAt_nil _)
    (by simp [length_layout])]
  rfl

/-- `Compile` on a freshly constructed tree, in terms of `emit`. -/
theorem compile_eq (F : Nat → String) (t : Term) (h : Heap) :
    t.compile F h =
      match (emit F t false newExpressionCompiler).1 with
      | some s =>
        .ok ((s, (emit F t false newExpressionCompiler).2.parameters,
          (emit F t false newExpressionCompiler).2.err), h ++ layout true t h.length none)
      | none => .panic := by
  have hp := passes_eq F t h
  simp only [passes, construct_eq, Result.ok_bind] at hp
  simp only [compile, construct_eq, Result.ok_bind, Compile, hp]

end Term

/-! ## Facts about strings -/

theorem singleton_infix_iff_mem (c : Char) (l : List Char) : [c] <:+: l ↔ c ∈ l := by
  constructor
  · rintro ⟨s, t, rfl⟩; simp
  · intro h
    obtain ⟨s, t, rfl⟩ := List.append_of_mem h
    exact ⟨s, t, by simp⟩

theorem Contains_quote (s : String) :
    strings.Contains s "'" = true ↔ Char.ofNat 39 ∈ s.toList := by
  have e : ("'" : String).toList = [Char.ofNat 39] := by decide
  simp only [strings.Contains, e, decide_eq_true_eq]
  exact singleton_infix_iff_mem _ _

theorem CountChar_append (s t : String) (c : Char) :
    strings.CountChar (s ++ t) c = strings.CountChar s c + strings.CountChar t c := by
  simp [strings.CountChar, String.toList, String.data_append, List.count_append]

theorem CountChar_of_not_mem (s : String) (c : Char) (h : s.toList.contains c = false) :
    strings.CountChar s c = 0 := by
  simp only [strings.CountChar]
  apply List.count_eq_zero_of_not_mem
  intro hm
  simp at h
  exact h hm

theorem quoted_ne (s : String) : "\"" ++ s ++ "\"" ≠ s := by
  intro h
  have := congrArg String.length h
  have e : ("\"" : String).length = 1 := by decide
  simp only [String.length_append, e] at this
  omega

/-! ## Facts about the emission read off the tree -/

namespace Term

open criteria models

theorem isJSONField_eq_false (n : String) :
    isJSONField n = false ↔ (n = "ID" ∨ n = "Type" ∨ n = "Version") := by
  unfold isJSONField
  split <;> simp_all

theorem isJSONField_eq_true (n : String) :
    isJSONField n = true ↔ (n ≠ "ID" ∧ n ≠ "Type" ∧ n ≠ "Version") := by
  unfold isJSONField
  split
  · rename_i h
    simp only [Bool.false_eq_true, false_iff]
    rintro ⟨h1, h2, h3⟩
    rcases h with h | h | h
    · exact h1 h
    · exact h2 h
    · exact h3 h
  · rename_i h
    simp only [true_iff]
    exact ⟨fun e => h (Or.inl e), fun e => h (Or.inr (Or.inl e)), fun e => h (Or.inr (Or.inr e))⟩

theorem Field_column (c : expressionCompiler) (n : String) (h : isJSONField n = false) :
    c.Field n = (some n, c) := by
  simp [expressionCompiler.Field, h]

theorem Field_document (c : expressionCompiler) (n : String) (h : isJSONField n = true)
    (hq : ¬ Char.ofNat 39 ∈ n.toList) :
    c.Field n = (some ("Fields->'" ++ n ++ "'"), c) := by
  have : strings.Contains n "'" = false := by
    rw [← Bool.not_eq_true, Contains_quote]; exact hq
  simp [expressionCompiler.Field, h, this]

theorem Field_quote (c : expressionCompiler) (n : String) (h : isJSONField n = true)
    (hq : Char.ofNat 39 ∈ n.toList) :
    c.Field n = (none,
      { c with err := c.err ++ [Error.Errorf "single quote not allowed in field name" []] }) := by
  have : strings.Contains n "'" = true := (Contains_quote n).2 hq
  simp [expressionCompiler.Field, h, this]

/-- The conversion of the code returns the text the specification names, and
the "unknown value type" error for a value that has none. -/
theorem convertToString_documentText (F : Nat → String) (v : Value) :
    expressionCompiler.convertToString F v =
      match v.documentText F with
      | some s => Except.ok s
      | none => Except.error (Error.Errorf "unknown value type of %v: %T" [v, v]) := by
  cases v with
  | bool b => cases b <;> rfl
  | _ => rfl

/-- A value has a textual form exactly when its type is supported. -/
theorem documentText_isSome (F : Nat → String) (v : Value) :
    (v.documentText F).isSome = v.supported := by
  cases v with
  | bool b => cases b <;> rfl
  | _ => rfl

/-- Away from floats the textual form is the one named for strings, integers
and booleans. -/
theorem documentText_of_textualForm (F : Nat → String) (v : Value) (s : String)
    (hv : v.textualForm = some s) : v.documentText F = some s := by
  cases v with
  | bool b => cases b <;> simp_all [Value.textualForm, Value.documentText]
  | _ => simp_all [Value.textualForm, Value.documentText]

/-- The parameters the emission adds are those the specification lists. -/
theorem emit_parameters (F : Nat → String) (t : Term) :
    ∀ (ctx : Bool) (c : expressionCompiler),
      (emit F t ctx c).2.parameters = c.parameters ++ expectedParams F t ctx := by
  induction t with
  | Field id =>
    intro ctx c
    simp only [emit, expectedParams, List.append_nil, expressionCompiler.Field]
    split
    · rfl
    · split <;> rfl
  | Parameter => intro ctx c; simp [emit, expectedParams, expressionCompiler.Parameter]
  | Literal v =>
    intro ctx c
    simp only [emit, emitLiteral, expectedParams]
    cases ctx with
    | false => simp
    | true =>
      simp only [if_true]
      rw [convertToString_documentText]
      cases v.documentText F <;> simp
  | And l r ihl ihr => intro ctx c; simp [emit, expectedParams, ihl, ihr]
  | Or l r ihl ihr => intro ctx c; simp [emit, expectedParams, ihl, ihr]
  | Equals l r ihl ihr =>
    intro ctx c
    simp [emit, expectedParams, ihl, ihr, marked, Bool.or_comm]
  | Matches l r ihl ihr => intro ctx c; simp [emit, expectedParams, ihl, ihr]

theorem joinBinary_eq_none (op : String) (a b : Option String) :
    joinBinary op a b = none ↔ a = none ∨ b = none := by
  cases a <;> cases b <;> simp [joinBinary]

theorem joinMatches_eq_none (a b : Option String) :
    joinMatches a b = none ↔ a = none ∨ b = none := by
  cases a <;> cases b <;> simp [joinMatches]

/-- The emission only appends errors, and returns nil exactly when it appended one. -/
theorem emit_err (F : Nat → String) (t : Term) :
    ∀ (ctx : Bool) (c : expressionCompiler), ∃ E : List Error,
      (emit F t ctx c).2.err = c.err ++ E ∧ ((emit F t ctx c).1 = none ↔ E ≠ []) ∧
      (t.hasParameter = true →
        Error.Errorf "Parameter expression not supported" [] ∈ E) := by
  induction t with
  | Field id =>
    intro ctx c
    simp only [emit, expressionCompiler.Field, hasParameter]
    split
    · exact ⟨[], by simp⟩
    · split
      · exact ⟨[_], rfl, by simp⟩
      · exact ⟨[], by simp⟩
  | Parameter =>
    intro ctx c
    exact ⟨[_], rfl, by simp [emit, expressionCompiler.Parameter], by simp⟩
  | Literal v =>
    intro ctx c
    simp only [emit, emitLiteral, hasParameter]
    cases ctx with
    | false => exact ⟨[], by simp⟩
    | true =>
      simp only [if_true]
      cases expressionCompiler.convertToString F v with
      | ok s => exact ⟨[], by simp⟩
      | error e => exact ⟨[e], rfl, by simp⟩
  | And l r ihl ihr =>
    intro ctx c
    obtain ⟨E1, h1, n1, p1⟩ := ihl ctx c
    obtain ⟨E2, h2, n2, p2⟩ := ihr ctx (emit F l ctx c).2
    refine ⟨E1 ++ E2, ?_, ?_, ?_⟩
    · simp [emit, h1, h2]
    · simp only [emit, joinBinary_eq_none, n1, n2]
      cases E1 <;> cases E2 <;> simp
    · intro hp
      simp only [hasParameter, Bool.or_eq_true] at hp
      rcases hp with hp | hp
      · exact List.mem_append_left _ (p1 hp)
      · exact List.mem_append_right _ (p2 hp)
  | Or l r ihl ihr =>
    intro ctx c
    obtain ⟨E1, h1, n1, p1⟩ := ihl ctx c
    obtain ⟨E2, h2, n2, p2⟩ := ihr ctx (emit F l ctx c).2
    refine ⟨E1 ++ E2, ?_, ?_, ?_⟩
    · simp [emit, h1, h2]
    · simp only [emit, joinBinary_eq_none, n1, n2]
      cases E1 <;> cases E2 <;> simp
    · intro hp
      simp only [hasParameter, Bool.or_eq_true] at hp
      rcases hp with hp | hp
      · exact List.mem_append_left _ (p1 hp)
      · exact List.mem_append_right _ (p2 hp)
  | Equals l r ihl ihr =>
    intro ctx c
    obtain ⟨E1, h1, n1, p1⟩ := ihl (l.marked || r.marked || ctx) c
    obtain ⟨E2, h2, n2, p2⟩ := ihr (l.marked || r.marked || ctx)
      (emit F l (l.marked || r.marked || ctx) c).2
    refine ⟨E1 ++ E2, ?_, ?_, ?_⟩
    · simp [emit, h1, h2]
    · simp only [emit, joinBinary_eq_none, n1, n2]
      cases E1 <;> cases E2 <;> simp
    · intro hp
      simp only [hasParameter, Bool.or_eq_true] at hp
      rcases hp with hp | hp
      · exact List.mem_append_left _ (p1 hp)
      · exact List.mem_append_right _ (p2 hp)
  | Matches l r ihl ihr =>
    intro ctx c
    obtain ⟨E1, h1, n1, p1⟩ := ihl ctx c
    obtain ⟨E2, h2, n2, p2⟩ := ihr ctx (emit F l ctx c).2
    refine ⟨E1 ++ E2, ?_, ?_, ?_⟩
    · simp [emit, h1, h2]
    · simp only [emit, joinMatches_eq_none, n1, n2]
      cases E1 <;> cases E2 <;> simp
    · intro hp
      simp only [hasParameter, Bool.or_eq_true] at hp
      rcases hp with hp | hp
      · exact List.mem_append_left _ (p1 hp)
      · exact List.mem_append_right _ (p2 hp)

end Term

/-! ## Locating a node of a constructed tree -/

namespace Term

open criteria models

theorem prepass_eq (t : Term) (h : Heap) :
    t.prepass h =
      .ok (some (h.length + t.rootOff), h ++ layout true t h.length none) := by
  simp only [prepass, construct_eq, Result.ok_bind, IteratePostOrder]
  have w := walk_layout t h [] none (h ++ layout false t h.length none).length
    (by simp [length_layout])
  simp only [List.append_nil] at w
  rw [w]
  rfl

/-- What a binary node of a processed tree gives its two subtrees: their
addresses, their place in the heap, and the JSON context they lie in. -/
theorem node_facts (t l r : Term) (H pre post : Heap) (par : Expression) (k : Nat) (ctx : Bool)
    (hH : H = pre ++ layout true t pre.length par ++ post)
    (hctx : CtxAt H par k ctx)
    (hbody : body true t pre.length =
      layout true l pre.length (some (pre.length + l.size + r.size)) ++
        layout true r (pre.length + l.size) (some (pre.length + l.size + r.size)))
    (hoff : t.rootOff = l.rootOff + r.rootOff + 2)
    (hpar : (top true t pre.length par).base.parent = par)
    (hch : (top true t pre.length par).children =
      some (some (pre.length + l.rootOff), some (pre.length + l.size + r.rootOff))) :
    Left H (some (pre.length + t.rootOff)) = .ok (some (pre.length + l.rootOff)) ∧
    Right H (some (pre.length + t.rootOff)) = .ok (some (pre.length + l.size + r.rootOff)) ∧
    (∃ postL, H = pre ++ layout true l pre.length (some (pre.length + l.size + r.size)) ++
      postL) ∧
    (∃ preR postR, preR.length = pre.length + l.size ∧
      H = preR ++ layout true r preR.length (some (pre.length + l.size + r.size)) ++ postR) ∧
    CtxAt H (some (pre.length + l.size + r.size)) (k + 1) (t.marked || ctx) := by
  have hp := getElem?_root true t pre post par
  rw [← hH] at hp
  obtain ⟨e1, e2⟩ := node_split true t l r pre post par hbody
  have hR : pre.length + t.rootOff = pre.length + l.size + r.size := by
    simp only [size, hoff]; omega
  refine ⟨?_, ?_, ⟨_, hH.trans e1⟩, ⟨_, _, ?_, hH.trans e2⟩, ?_⟩
  · simp only [Left, deref, hp, Result.ok_bind, hch]
  · simp only [Right, deref, hp, Result.ok_bind, hch]
  · simp [length_layout]
  · rw [hR] at hp
    exact CtxAt_step H _ _ par k ctx t.marked hp hpar (top_get t pre.length par) hctx

/-- Descending along a path in a processed tree reaches the subtree the path
names, and the JSON context there is that of the root joined with the marked
Equals nodes passed on the way. -/
theorem descend_layout (t : Term) :
    ∀ (path : List Dir) (s : Term) (H pre post : Heap) (par : Expression) (k : Nat)
      (ctx : Bool),
      H = pre ++ layout true t pre.length par ++ post → CtxAt H par k ctx →
      k + t.size ≤ H.length → t.sub path = some s →
      ∃ (pre2 post2 : Heap) (par2 : Expression) (k2 : Nat),
        descend H (some (pre.length + t.rootOff)) path = .ok (some (pre2.length + s.rootOff)) ∧
        H = pre2 ++ layout true s pre2.length par2 ++ post2 ∧
        CtxAt H par2 k2 (ctx || t.underMarked path) ∧ k2 + s.size ≤ H.length := by
  have leaf : ∀ (t : Term), (∀ d p, t.sub (d :: p) = none) →
      ∀ (path : List Dir) (s : Term) (H pre post : Heap) (par : Expression) (k : Nat)
      (ctx : Bool),
      H = pre ++ layout true t pre.length par ++ post → CtxAt H par k ctx →
      k + t.size ≤ H.length → t.sub path = some s →
      ∃ (pre2 post2 : Heap) (par2 : Expression) (k2 : Nat),
        descend H (some (pre.length + t.rootOff)) path = .ok (some (pre2.length + s.rootOff)) ∧
        H = pre2 ++ layout true s pre2.length par2 ++ post2 ∧
        CtxAt H par2 k2 (ctx || t.underMarked path) ∧ k2 + s.size ≤ H.length := by
    intro t hl path s H pre post par k ctx hH hctx hk hs
    cases path with
    | nil =>
      simp only [sub, Option.some.injEq] at hs
      subst hs
      exact ⟨pre, post, par, k, rfl, hH, by simpa [underMarked] using hctx, hk⟩
    | cons d p => rw [hl d p] at hs; cases hs
  have node : ∀ (t l r : Term),
      (∀ base, body true t base =
        layout true l base (some (base + l.size + r.size)) ++
          layout true r (base + l.size) (some (base + l.size + r.size))) →
      t.rootOff = l.rootOff + r.rootOff + 2 →
      (∀ base par, (top true t base par).base.parent = par) →
      (∀ base par, (top true t base par).children =
        some (some (base + l.rootOff), some (base + l.size + r.rootOff))) →
      (∀ p, t.sub (Dir.left :: p) = l.sub p) → (∀ p, t.sub (Dir.right :: p) = r.sub p) →
      (∀ p, t.underMarked (Dir.left :: p) = (t.marked || l.underMarked p)) →
      (∀ p, t.underMarked (Dir.right :: p) = (t.marked || r.underMarked p)) →
      (∀ (path : List Dir) (s : Term) (H pre post : Heap) (par : Expression) (k : Nat)
        (ctx : Bool),
        H = pre ++ layout true l pre.length par ++ post → CtxAt H par k ctx →
        k + l.size ≤ H.length → l.sub path = some s →
        ∃ (pre2 post2 : Heap) (par2 : Expression) (k2 : Nat),
          descend H (some (pre.length + l.rootOff)) path =
            .ok (some (pre2.length + s.rootOff)) ∧
          H = pre2 ++ layout true s pre2.length par2 ++ post2 ∧
          CtxAt H par2 k2 (ctx || l.underMarked path) ∧ k2 + s.size ≤ H.length) →
      (∀ (path : List Dir) (s : Term) (H pre post : Heap) (par : Expression) (k : Nat)
        (ctx : Bool),
        H = pre ++ layout true r pre.length par ++ post → CtxAt H par k ctx →
        k + r.size ≤ H.length → r.sub path = some s →
        ∃ (pre2 post2 : Heap) (par2 : Expression) (k2 : Nat),
          descend H (some (pre.length + r.rootOff)) path =
            .ok (some (pre2.length + s.rootOff)) ∧
          H = pre2 ++ layout true s pre2.length par2 ++ post2 ∧
          CtxAt H par2 k2 (ctx || r.underMarked path) ∧ k2 + s.size ≤ H.length) →
      ∀ (path : List Dir) (s : Term) (H pre post : Heap) (par : Expression) (k : Nat)
      (ctx : Bool),
      H = pre ++ layout true t pre.length par ++ post → CtxAt H par k ctx →
      k + t.size ≤ H.length → t.sub path = some s →
      ∃ (pre2 post2 : Heap) (par2 : Expression) (k2 : Nat),
        descend H (some (pre.length + t.rootOff)) path = .ok (some (pre2.length + s.rootOff)) ∧
        H = pre2 ++ layout true s pre2.length par2 ++ post2 ∧
        CtxAt H par2 k2 (ctx || t.underMarked path) ∧ k2 + s.size ≤ H.length := by
    intro t l r hbody hoff hpar hch hsl hsr hul hur ihl ihr path s H pre post par k ctx
      hH hctx hk hs
    have hsz : t.size = l.size + r.size + 1 := by simp only [size, hoff]; omega
    obtain ⟨hL, hR, ⟨postL, eL⟩, ⟨preR, postR, hlen, eR⟩, hc⟩ :=
      node_facts t l r H pre post par k ctx hH hctx (hbody _) hoff (hpar _ _) (hch _ _)
    cases path with
    | nil =>
      simp only [sub, Option.some.injEq] at hs
      subst hs
      exact ⟨pre, post, par, k, rfl, hH, by simpa [underMarked] using hctx, hk⟩
    | cons d p =>
      cases d with
      | left =>
        rw [hsl] at hs
        obtain ⟨pre2, post2, par2, k2, h1, h2, h3, h4⟩ :=
          ihl p s H pre postL _ (k + 1) _ eL hc (by simp only [size] at *; omega) hs
        refine ⟨pre2, post2, par2, k2, ?_, h2, ?_, h4⟩
        · simp only [descend, hL, Result.ok_bind, h1]
        · rw [hul]
          simpa [Bool.or_assoc, Bool.or_comm, Bool.or_left_comm] using h3
      | right =>
        rw [hsr] at hs
        obtain ⟨pre2, post2, par2, k2, h1, h2, h3, h4⟩ :=
          ihr p s H preR postR _ (k + 1) _ eR hc (by simp only [size] at *; omega) hs
        refine ⟨pre2, post2, par2, k2, ?_, h2, ?_, h4⟩
        · rw [hlen] at h1
          simp only [descend, hR, Result.ok_bind, h1]
        · rw [hur]
          simpa [Bool.or_assoc, Bool.or_comm, Bool.or_left_comm] using h3
  induction t with
  | Field id => exact leaf _ (fun _ _ => rfl)
  | Parameter => exact leaf _ (fun _ _ => rfl)
  | Literal v => exact leaf _ (fun _ _ => rfl)
  | And l r ihl ihr =>
    exact node _ l r (fun _ => by simp [body, layout]) rfl (fun _ _ => rfl) (fun _ _ => rfl)
      (fun _ => rfl) (fun _ => rfl) (fun _ => by simp [underMarked, marked])
      (fun _ => by simp [underMarked, marked]) ihl ihr
  | Or l r ihl ihr =>
    exact node _ l r (fun _ => by simp [body, layout]) rfl (fun _ _ => rfl) (fun _ _ => rfl)
      (fun _ => rfl) (fun _ => rfl) (fun _ => by simp [underMarked, marked])
      (fun _ => by simp [underMarked, marked]) ihl ihr
  | Equals l r ihl ihr =>
    exact node _ l r (fun _ => by simp [body, layout]) rfl (fun _ _ => rfl) (fun _ _ => rfl)
      (fun _ => rfl) (fun _ => rfl) (fun _ => by simp [underMarked, marked])
      (fun _ => by simp [underMarked, marked]) ihl ihr
  | Matches l r ihl ihr =>
    exact node _ l r (fun _ => by simp [body, layout]) rfl (fun _ _ => rfl) (fun _ _ => rfl)
      (fun _ => rfl) (fun _ => rfl) (fun _ => by simp [underMarked, marked])
      (fun _ => by simp [underMarked, marked]) ihl ihr

end Term

/-! ## Nodes, annotations and parent links on an arbitrary heap -/

namespace criteria

theorem withBase_base (n : Node) (b : expression) : (n.withBase b).base = b := by
  cases n <;> rfl

theorem withBase_children (n : Node) (b : expression) :
    (n.withBase b).children = n.children := by
  cases n <;> rfl

theorem get_put_same (e : expression) (k : String) (v : Value) : (e.put k v).get k = v := by
  simp [expression.put, expression.get, List.lookup]

theorem lookup_filter_ne (l : List (String × Value)) (k k2 : String) (hk : k2 ≠ k) :
    (l.filter (fun kv => kv.1 ≠ k)).lookup k2 = l.lookup k2 := by
  induction l with
  | nil => rfl
  | cons x xs ih =>
    obtain ⟨a, b⟩ := x
    simp only [ne_eq, decide_not] at ih
    by_cases ha : a = k
    · subst ha
      have hne : (k2 == a) = false := by simpa using hk
      simp [List.filter, List.lookup, hne, ih]
    · by_cases h2 : k2 = a
      · subst h2
        simp [List.filter, List.lookup, ha]
      · have hne : (k2 == a) = false := by simpa using h2
        simp [List.filter, List.lookup, ha, hne, ih]

theorem get_put_other (e : expression) (k k2 : String) (v : Value) (hk : k2 ≠ k) :
    (e.put k v).get k2 = e.get k2 := by
  have hne : (k2 == k) = false := by simpa using hk
  have hf := lookup_filter_ne e.annotations k k2 hk
  simp only [ne_eq, decide_not] at hf
  simp [expression.put, expression.get, List.lookup, hne, hf]

theorem deref_of_getElem? (h : Heap) (x : Nat) (n : Node) (hx : h[x]? = some n) :
    deref h (some x) = .ok n := by
  simp [deref, hx]

/-- The effect of `SetAnnotation` on a node that exists. -/
theorem SetAnnotation_spec (H : Heap) (x : Nat) (n : Node) (k : String) (v : Value)
    (hx : H[x]? = some n) :
    SetAnnotation H (some x) k v = .ok (H.set x (n.withBase (n.base.put k v))) ∧
    (H.set x (n.withBase (n.base.put k v)))[x]? = some (n.withBase (n.base.put k v)) := by
  have hlt : x < H.length := by
    by_contra hc
    rw [List.getElem?_eq_none (by omega)] at hx
    cases hx
  constructor
  · simp [ SetAnnotation, hx]
  · simp [List.getElem?_set, hlt]

/-- The result of `reparent` on a node just allocated whose two children exist. -/
theorem reparent_spec (h : Heap) (N : Node) (l r : Nat)
    (hN : N.children = some (some l, some r)) (hl : l < h.length) (hr : r < h.length) :
    ∃ h2, reparent (h ++ [N]) (some h.length) = .ok (some h.length, h2) ∧
      h2.length = h.length + 1 ∧ h2[h.length]? = some N ∧
      (∃ n, h2[l]? = some n ∧ n.base.parent = some h.length) ∧
      (∃ n, h2[r]? = some n ∧ n.base.parent = some h.length) := by
  obtain ⟨nl, hnl⟩ : ∃ nl, h[l]? = some nl := ⟨h[l], by simp [hl]⟩
  have h0p : (h ++ [N])[h.length]? = some N := by simp
  have h0l : (h ++ [N])[l]? = some nl := by
    rw [List.getElem?_append_left hl]; exact hnl
  have hlen1 : ((h ++ [N]).set l (nl.withBase { nl.base with parent := some h.length })).length
      = h.length + 1 := by simp
  have h1p : ((h ++ [N]).set l (nl.withBase { nl.base with parent := some h.length }))[h.length]?
      = some N := by
    rw [List.getElem?_set]
    have : ¬ l = h.length := by omega
    simp [this]
  obtain ⟨nr, hnr⟩ : ∃ nr,
      ((h ++ [N]).set l (nl.withBase { nl.base with parent := some h.length }))[r]? = some nr :=
    ⟨_, List.getElem?_eq_getElem (by rw [hlen1]; omega)⟩
  refine ⟨((h ++ [N]).set l (nl.withBase { nl.base with parent := some h.length })).set r
      (nr.withBase { nr.base with parent := some h.length }), ?_, ?_, ?_, ?_, ?_⟩
  · simp only [reparent, Left, Right, deref, h0p, hN, Result.ok_bind, setParent, h0l, h1p, hnr]
  · simp
  · rw [List.getElem?_set]
    have : ¬ r = h.length := by omega
    simp [this, h1p]
  · rw [List.getElem?_set]
    by_cases hrl : r = l
    · subst hrl
      refine ⟨nr.withBase { nr.base with parent := some h.length }, ?_, ?_⟩
      · simp [hlen1]; omega
      · simp [withBase_base]
    · refine ⟨nl.withBase { nl.base with parent := some h.length }, ?_, ?_⟩
      · simp only [hrl, if_false]
        rw [List.getElem?_set]
        simp; omega
      · simp [withBase_base]
  · refine ⟨nr.withBase { nr.base with parent := some h.length }, ?_, ?_⟩
    · rw [List.getElem?_set]
      simp [hlen1]; omega
    · simp [withBase_base]

end criteria

namespace criteria

/-- What the caller of a binary constructor can read back from the new node
and its two children. -/
theorem ctor_facts (h : Heap) (N : Node) (l r : Nat)
    (hN : N.children = some (some l, some r)) (hNp : N.base.parent = none)
    (hl : l < h.length) (hr : r < h.length) :
    ∃ h2, reparent (h ++ [N]) (some h.length) = .ok (some h.length, h2) ∧
      Left h2 (some h.length) = .ok (some l) ∧ Right h2 (some h.length) = .ok (some r) ∧
      Parent h2 (some l) = .ok (some h.length) ∧ Parent h2 (some r) = .ok (some h.length) ∧
      Parent h2 (some h.length) = .ok none ∧
      ∀ k, Annotation h2 (some h.length) k = .ok (N.base.get k) := by
  obtain ⟨h2, e, -, hp, ⟨nl, hnl, pl⟩, ⟨nr, hnr, pr⟩⟩ := reparent_spec h N l r hN hl hr
  refine ⟨h2, e, ?_, ?_, ?_, ?_, ?_, ?_⟩
  · simp [Left, deref, hp, hN]
  · simp [Right, deref, hp, hN]
  · simp [Parent, deref, hnl, pl]
  · simp [Parent, deref, hnr, pr]
  · simp [Parent, deref, hp, hNp]
  · intro k
    simp [ Annotation, deref, hp]

end criteria

namespace Term

open criteria models

/-- In the heap image of a tree, parent links and child links agree: a node is
the parent of what it has as left or right child, and every node but the root
is the left or right child of its parent. -/
theorem layout_parents (m : Bool) (t : Term) :
    ∀ (H pre post : Heap) (par : Expression),
      H = pre ++ layout m t pre.length par ++ post →
      Parent H (some (pre.length + t.rootOff)) = .ok par ∧
      ∀ q, pre.length ≤ q → q ≤ pre.length + t.rootOff →
        (∀ a, (Left H (some q) = .ok (some a) ∨ Right H (some q) = .ok (some a)) →
          Parent H (some a) = .ok (some q)) ∧
        (q ≠ pre.length + t.rootOff →
          ∃ p, Parent H (some q) = .ok (some p) ∧
            (Left H (some p) = .ok (some q) ∨ Right H (some p) = .ok (some q))) := by
  have rootpar : ∀ (t : Term) (H pre post : Heap) (par : Expression),
      H = pre ++ layout m t pre.length par ++ post →
      Parent H (some (pre.length + t.rootOff)) = .ok par := by
    intro t H pre post par hH
    have hp := getElem?_root m t pre post par
    rw [← hH] at hp
    simp only [Parent, deref, hp, Result.ok_bind]
    cases t <;> rfl
  have leaf : ∀ (t : Term), t.rootOff = 0 → (∀ base par, (top m t base par).children = none) →
      ∀ (H pre post : Heap) (par : Expression),
      H = pre ++ layout m t pre.length par ++ post →
      Parent H (some (pre.length + t.rootOff)) = .ok par ∧
      ∀ q, pre.length ≤ q → q ≤ pre.length + t.rootOff →
        (∀ a, (Left H (some q) = .ok (some a) ∨ Right H (some q) = .ok (some a)) →
          Parent H (some a) = .ok (some q)) ∧
        (q ≠ pre.length + t.rootOff →
          ∃ p, Parent H (some q) = .ok (some p) ∧
            (Left H (some p) = .ok (some q) ∨ Right H (some p) = .ok (some q))) := by
    intro t h0 hc H pre post par hH
    refine ⟨rootpar t H pre post par hH, ?_⟩
    intro q h1 h2
    have hq : q = pre.length + t.rootOff := by omega
    subst hq
    have hp := getElem?_root m t pre post par
    rw [← hH] at hp
    constructor
    · intro a ha
      rcases ha with ha | ha
      · simp [Left, deref, hp, hc] at ha
      · simp [Right, deref, hp, hc] at ha
    · intro hne; exact absurd rfl hne
  have node : ∀ (t l r : Term),
      (∀ base, body m t base =
        layout m l base (some (base + l.size + r.size)) ++
          layout m r (base + l.size) (some (base + l.size + r.size))) →
      t.rootOff = l.rootOff + r.rootOff + 2 →
      (∀ base par, (top m t base par).children =
        some (some (base + l.rootOff), some (base + l.size + r.rootOff))) →
      (∀ (H pre post : Heap) (par : Expression),
        H = pre ++ layout m l pre.length par ++ post →
        Parent H (some (pre.length + l.rootOff)) = .ok par ∧
        ∀ q, pre.length ≤ q → q ≤ pre.length + l.rootOff →
          (∀ a, (Left H (some q) = .ok (some a) ∨ Right H (some q) = .ok (some a)) →
            Parent H (some a) = .ok (some q)) ∧
          (q ≠ pre.length + l.rootOff →
            ∃ p, Parent H (some q) = .ok (some p) ∧
              (Left H (some p) = .ok (some q) ∨ Right H (some p) = .ok (some q)))) →
      (∀ (H pre post : Heap) (par : Expression),
        H = pre ++ layout m r pre.length par ++ post →
        Parent H (some (pre.length + r.rootOff)) = .ok par ∧
        ∀ q, pre.length ≤ q → q ≤ pre.length + r.rootOff →
          (∀ a, (Left H (some q) = .ok (some a) ∨ Right H (some q) = .ok (some a)) →
            Parent H (some a) = .ok (some q)) ∧
          (q ≠ pre.length + r.rootOff →
            ∃ p, Parent H (some q) = .ok (some p) ∧
              (Left H (some p) = .ok (some q) ∨ Right H (some p) = .ok (some q)))) →
      ∀ (H pre post : Heap) (par : Expression),
      H = pre ++ layout m t pre.length par ++ post →
      Parent H (some (pre.length + t.rootOff)) = .ok par ∧
      ∀ q, pre.length ≤ q → q ≤ pre.length + t.rootOff →
        (∀ a, (Left H (some q) = .ok (some a) ∨ Right H (some q) = .ok (some a)) →
          Parent H (some a) = .ok (some q)) ∧
        (q ≠ pre.length + t.rootOff →
          ∃ p, Parent H (some q) = .ok (some p) ∧
            (Left H (some p) = .ok (some q) ∨ Right H (some p) = .ok (some q))) := by
    intro t l r hbody hoff hch ihl ihr H pre post par hH
    refine ⟨rootpar t H pre post par hH, ?_⟩
    have hp := getElem?_root m t pre post par
    rw [← hH] at hp
    obtain ⟨e1, e2⟩ := node_split m t l r pre post par (hbody _)
    have hlen : (pre ++ layout m l pre.length (some (pre.length + l.size + r.size))).length =
        pre.length + l.size := by simp [length_layout]
    have hR : pre.length + l.size + r.size = pre.length + t.rootOff := by
      simp only [size, hoff]; omega
    obtain ⟨pl, fl⟩ := ihl H pre _ _ (hH.trans e1)
    obtain ⟨pr, fr⟩ := ihr H _ _ _ (hH.trans e2)
    rw [hlen] at pr fr
    rw [hR] at pl pr
    have hL : Left H (some (pre.length + t.rootOff)) = .ok (some (pre.length + l.rootOff)) := by
      simp only [Left, deref, hp, Result.ok_bind, hch]
    have hRt : Right H (some (pre.length + t.rootOff)) =
        .ok (some (pre.length + l.size + r.rootOff)) := by
      simp only [Right, deref, hp, Result.ok_bind, hch]
    intro q h1 h2
    by_cases hq1 : q ≤ pre.length + l.rootOff
    · obtain ⟨fa, fb⟩ := fl q h1 hq1
      refine ⟨fa, fun _ => ?_⟩
      by_cases hq : q = pre.length + l.rootOff
      · subst hq
        exact ⟨_, pl, Or.inl hL⟩
      · exact fb hq
    · by_cases hq2 : q ≤ pre.length + l.size + r.rootOff
      · obtain ⟨fa, fb⟩ := fr q (by simp only [size] at *; omega) hq2
        refine ⟨fa, fun _ => ?_⟩
        by_cases hq : q = pre.length + l.size + r.rootOff
        · subst hq
          exact ⟨_, pr, Or.inr hRt⟩
        · exact fb hq
      · have hq : q = pre.length + t.rootOff := by simp only [size, hoff] at *; omega
        subst hq
        constructor
        · intro a ha
          rcases ha with ha | ha
          · rw [hL] at ha
            simp only [Result.ok.injEq, Option.some.injEq] at ha
            subst ha
            exact pl
          · rw [hRt] at ha
            simp only [Result.ok.injEq, Option.some.injEq] at ha
            subst ha
            exact pr
        · intro hne; exact absurd rfl hne
  induction t with
  | Field id => exact leaf _ rfl (fun _ _ => rfl)
  | Parameter => exact leaf _ rfl (fun _ _ => rfl)
  | Literal v => exact leaf _ rfl (fun _ _ => rfl)
  | And l r ihl ihr =>
    exact node _ l r (fun _ => by simp [body, layout]) rfl (fun _ _ => rfl) ihl ihr
  | Or l r ihl ihr =>
    exact node _ l r (fun _ => by simp [body, layout]) rfl (fun _ _ => rfl) ihl ihr
  | Equals l r ihl ihr =>
    exact node _ l r (fun _ => by simp [body, layout]) rfl (fun _ _ => rfl) ihl ihr
  | Matches l r ihl ihr =>
    exact node _ l r (fun _ => by simp [body, layout]) rfl (fun _ _ => rfl) ihl ihr

end Term

/-! ## The parent chain -/

namespace criteria

theorem ancestorChain_unique (h : Heap) (e : Expression) (as bs : List Nat)
    (ha : ancestorChain h e as) (hb : ancestorChain h e bs) : as = bs := by
  induction as generalizing e bs with
  | nil =>
    cases bs with
    | nil => rfl
    | cons b bs =>
      simp only [ancestorChain] at ha hb
      rw [ha] at hb
      cases hb.1
  | cons a as ih =>
    cases bs with
    | nil =>
      simp only [ancestorChain] at ha hb
      rw [hb] at ha
      cases ha.1
    | cons b bs =>
      simp only [ancestorChain] at ha hb
      have e1 := ha.1
      rw [hb.1] at e1
      simp only [Result.ok.injEq, Option.some.injEq] at e1
      subst e1
      rw [ih (some b) bs ha.2 hb.2]

theorem ancestorChain_drop (h : Heap) (e : Expression) (xs : List Nat) (a : Nat)
    (ys : List Nat) (hc : ancestorChain h e (xs ++ a :: ys)) :
    ancestorChain h (some a) ys := by
  induction xs generalizing e with
  | nil => exact hc.2
  | cons x xs ih => exact ih (some x) hc.2

theorem ancestorChain_lt (h : Heap) (e : Expression) (as : List Nat)
    (hc : ancestorChain h e as) : ∀ a ∈ as, a < h.length := by
  intro a ha
  obtain ⟨xs, ys, rfl⟩ := List.append_of_mem ha
  have h1 := ancestorChain_drop h e xs a ys hc
  by_contra hlt
  have hn : h[a]? = none := List.getElem?_eq_none (by omega)
  cases ys with
  | nil => simp [ancestorChain, Parent, deref, hn] at h1
  | cons y ys => simp [ancestorChain, Parent, deref, hn] at h1

theorem ancestorChain_nodup (h : Heap) (e : Expression) (as : List Nat)
    (hc : ancestorChain h e as) : as.Nodup := by
  induction as generalizing e with
  | nil => exact List.nodup_nil
  | cons a as ih =>
    refine List.nodup_cons.2 ⟨?_, ih (some a) hc.2⟩
    intro hmem
    obtain ⟨xs, ys, rfl⟩ := List.append_of_mem hmem
    have h1 := ancestorChain_drop h (some a) xs a ys hc.2
    have h2 := ancestorChain_unique h (some a) _ _ hc.2 h1
    have := congrArg List.length h2
    simp at this
    omega

theorem ancestorChain_not_self (h : Heap) (e : Nat) (as : List Nat)
    (hc : ancestorChain h (some e) as) : e ∉ as := by
  intro hmem
  obtain ⟨xs, ys, rfl⟩ := List.append_of_mem hmem
  have h1 := ancestorChain_drop h (some e) xs e ys hc
  have h2 := ancestorChain_unique h (some e) _ _ hc h1
  have := congrArg List.length h2
  simp at this
  omega

theorem ancestorChain_length (h : Heap) (e : Expression) (as : List Nat)
    (hc : ancestorChain h e as) : as.length ≤ h.length := by
  have hnd := ancestorChain_nodup h e as hc
  have hlt := ancestorChain_lt h e as hc
  have hsub : as.toFinset ⊆ Finset.range h.length := by
    intro a ha
    simp only [List.mem_toFinset] at ha
    simpa using hlt a ha
  have := Finset.card_le_card hsub
  rwa [List.toFinset_card_of_nodup hnd, Finset.card_range] at this

theorem mem_expectedCalls (pred : Expression → Bool) (as : List Nat) (x : Expression)
    (hx : x ∈ expectedCalls pred as) : ∃ a ∈ as, x = some a := by
  induction as with
  | nil => simp [expectedCalls] at hx
  | cons a as ih =>
    simp only [expectedCalls, List.mem_cons] at hx
    rcases hx with hx | hx
    · exact ⟨a, List.mem_cons_self _ _, hx⟩
    · split at hx
      · obtain ⟨b, hb, e⟩ := ih hx
        exact ⟨b, List.mem_cons_of_mem _ hb, e⟩
      · simp at hx

/-- The loop of `IterateParents`, started at a node with the given chain of
ancestors, calls the callback on the node and then up the chain. -/
theorem loop_recordCalls (h : Heap) (pred : Expression → Bool) (as : List Nat) :
    ∀ (a fuel : Nat) (s : List Expression), ancestorChain h (some a) as →
      as.length + 1 ≤ fuel →
      IterateParents.loop h (recordCalls pred) fuel (some a) s =
        .ok (s ++ expectedCalls pred (a :: as)) := by
  induction as with
  | nil =>
    intro a fuel s hc hf
    obtain ⟨fuel, rfl⟩ : ∃ m, fuel = m + 1 := ⟨fuel - 1, by omega⟩
    simp only [ancestorChain] at hc
    simp only [IterateParents.loop, recordCalls, Result.ok_bind, hc, expectedCalls]
    cases pred (some a) <;> cases fuel <;> simp [IterateParents.loop]
  | cons b bs ih =>
    intro a fuel s hc hf
    obtain ⟨fuel, rfl⟩ : ∃ m, fuel = m + 1 := ⟨fuel - 1, by omega⟩
    simp only [ancestorChain] at hc
    simp only [IterateParents.loop, recordCalls, Result.ok_bind, hc.1]
    cases hp : pred (some a) with
    | false => simp [expectedCalls, hp]
    | true =>
      simp only [Bool.not_true, Bool.false_eq_true, if_false]
      rw [ih b fuel _ hc.2 (by simp only [List.length_cons] at hf; omega)]
      simp [expectedCalls, hp]

end criteria

/-! ## Errors and text of the emission read off the tree -/

namespace Term

open criteria models

theorem convertToString_supported (F : Nat → String) (v : Value) :
    (v.supported = true → ∃ s, expressionCompiler.convertToString F v = .ok s) ∧
    (v.supported = false → expressionCompiler.convertToString F v =
      .error (Error.Errorf "unknown value type of %v: %T" [v, v])) := by
  cases v <;> simp [Value.supported, expressionCompiler.convertToString]

/-- The errors the emission adds are those the specification lists. -/
theorem emit_errors (F : Nat → String) (t : Term) :
    ∀ (ctx : Bool) (c : expressionCompiler),
      (emit F t ctx c).2.err = c.err ++ expectedErrors t ctx := by
  induction t with
  | Field id =>
    intro ctx c
    simp only [emit, expectedErrors]
    cases hj : isJSONField id with
    | false => simp [Field_column c id hj]
    | true =>
      by_cases hq : Char.ofNat 39 ∈ id.toList
      · rw [Field_quote c id hj hq]
        have hq2 : Char.ofNat 39 ∈ id.data := hq
        simp [hq2]
      · rw [Field_document c id hj hq]
        have hq2 : ¬ Char.ofNat 39 ∈ id.data := hq
        simp [hq2]
  | Parameter => intro ctx c; simp [emit, expectedErrors, expressionCompiler.Parameter]
  | Literal v =>
    intro ctx c
    simp only [emit, emitLiteral, expectedErrors]
    cases ctx with
    | false => simp
    | true =>
      simp only [if_true, Bool.true_and]
      cases hs : v.supported with
      | true =>
        obtain ⟨s, e⟩ := (convertToString_supported F v).1 hs
        simp [e]
      | false =>
        rw [(convertToString_supported F v).2 hs]
        simp
  | And l r ihl ihr => intro ctx c; simp [emit, expectedErrors, ihl, ihr]
  | Or l r ihl ihr => intro ctx c; simp [emit, expectedErrors, ihl, ihr]
  | Equals l r ihl ihr =>
    intro ctx c
    simp [emit, expectedErrors, ihl, ihr, marked, Bool.or_comm]
  | Matches l r ihl ihr => intro ctx c; simp [emit, expectedErrors, ihl, ihr]

/-- A Literal of unsupported type that lies in document context is among the
failing leaves. -/
theorem mem_expectedErrors_of_sub (t : Term) :
    ∀ (path : List Dir) (v : Value) (ctx : Bool), t.sub path = some (Literal v) →
      v.supported = false → (ctx || t.underMarked path) = true →
      Error.Errorf "unknown value type of %v: %T" [v, v] ∈ expectedErrors t ctx := by
  induction t with
  | Field id =>
    intro path v ctx hs
    cases path <;> simp [sub] at hs
  | Parameter =>
    intro path v ctx hs
    cases path <;> simp [sub] at hs
  | Literal w =>
    intro path v ctx hs hv hc
    cases path with
    | nil =>
      simp only [sub, Option.some.injEq, Literal.injEq] at hs
      subst hs
      simp only [underMarked, Bool.or_false] at hc
      simp [expectedErrors, hc, hv]
    | cons d p => simp [sub] at hs
  | And l r ihl ihr =>
    intro path v ctx hs hv hc
    cases path with
    | nil => simp [sub] at hs
    | cons d p =>
      cases d with
      | left =>
        exact List.mem_append_left _ (ihl p v ctx hs hv (by simpa [underMarked] using hc))
      | right =>
        exact List.mem_append_right _ (ihr p v ctx hs hv (by simpa [underMarked] using hc))
  | Or l r ihl ihr =>
    intro path v ctx hs hv hc
    cases path with
    | nil => simp [sub] at hs
    | cons d p =>
      cases d with
      | left =>
        exact List.mem_append_left _ (ihl p v ctx hs hv (by simpa [underMarked] using hc))
      | right =>
        exact List.mem_append_right _ (ihr p v ctx hs hv (by simpa [underMarked] using hc))
  | Equals l r ihl ihr =>
    intro path v ctx hs hv hc
    cases path with
    | nil => simp [sub] at hs
    | cons d p =>
      cases d with
      | left =>
        exact List.mem_append_left _ (ihl p v _ hs hv
          (by simpa [underMarked, Bool.or_assoc] using hc))
      | right =>
        exact List.mem_append_right _ (ihr p v _ hs hv
          (by simpa [underMarked, Bool.or_assoc] using hc))
  | Matches l r ihl ihr =>
    intro path v ctx hs hv hc
    cases path with
    | nil => simp [sub] at hs
    | cons d p =>
      cases d with
      | left =>
        exact List.mem_append_left _ (ihl p v ctx hs hv (by simpa [underMarked] using hc))
      | right =>
        exact List.mem_append_right _ (ihr p v ctx hs hv (by simpa [underMarked] using hc))

theorem marked_erase (t : Term) : t.erase.marked = t.marked := by
  induction t with
  | Equals l r ihl ihr => simp [erase, marked, ihl, ihr]
  | _ => rfl

theorem joinBinary_eq_some (op : String) (a b : Option String) (s : String)
    (h : joinBinary op a b = some s) :
    ∃ ls rs, a = some ls ∧ b = some rs ∧ s = "(" ++ ls ++ " " ++ op ++ " " ++ rs ++ ")" := by
  cases a <;> cases b <;> simp [joinBinary] at h
  exact ⟨_, _, rfl, rfl, h.symm⟩

theorem joinMatches_eq_some (a b : Option String) (s : String)
    (h : joinMatches a b = some s) :
    ∃ ls rs, a = some ls ∧ b = some rs ∧
      s = "(to_tsvector('english', " ++ ls ++ ") @@ to_tsquery('english', " ++ rs ++ "))" := by
  cases a <;> cases b <;> simp [joinMatches] at h
  exact ⟨_, _, rfl, rfl, h.symm⟩

/-- The fragment of a tree that compiles does not depend on the values of its
Literal nodes. -/
theorem emit_text_erase (F G : Nat → String) (t1 : Term) :
    ∀ (t2 : Term) (ctx : Bool) (c1 c2 : expressionCompiler) (s1 s2 : String),
      t1.erase = t2.erase → (emit F t1 ctx c1).1 = some s1 → (emit G t2 ctx c2).1 = some s2 →
      s1 = s2 := by
  induction t1 with
  | Field id =>
    intro t2 ctx c1 c2 s1 s2 he h1 h2
    cases t2 <;> simp only [erase, reduceCtorEq] at he
    simp only [Field.injEq] at he
    subst he
    simp only [emit, expressionCompiler.Field] at h1 h2
    split at h1
    · simp_all
    · split at h1
      · cases h1
      · simp_all
  | Parameter => intro t2 ctx c1 c2 s1 s2 _ h1 _; cases h1
  | Literal v =>
    intro t2 ctx c1 c2 s1 s2 he h1 h2
    cases t2 <;> simp only [erase, reduceCtorEq] at he
    rename_i w
    simp only [emit, emitLiteral] at h1 h2
    cases ctx with
    | false => simp_all
    | true =>
      simp only [if_true] at h1 h2
      cases e1 : expressionCompiler.convertToString F v with
      | error e => rw [e1] at h1; cases h1
      | ok a =>
        cases e2 : expressionCompiler.convertToString G w with
        | error e => rw [e2] at h2; cases h2
        | ok b =>
          rw [e1] at h1
          rw [e2] at h2
          simp_all
  | And l r ihl ihr =>
    intro t2 ctx c1 c2 s1 s2 he h1 h2
    cases t2 <;> simp only [erase, reduceCtorEq] at he
    simp only [And.injEq] at he
    simp only [emit] at h1 h2
    obtain ⟨a1, b1, x1, y1, rfl⟩ := joinBinary_eq_some _ _ _ _ h1
    obtain ⟨a2, b2, x2, y2, rfl⟩ := joinBinary_eq_some _ _ _ _ h2
    rw [ihl _ ctx _ _ a1 a2 he.1 x1 x2, ihr _ ctx _ _ b1 b2 he.2 y1 y2]
  | Or l r ihl ihr =>
    intro t2 ctx c1 c2 s1 s2 he h1 h2
    cases t2 <;> simp only [erase, reduceCtorEq] at he
    simp only [Or.injEq] at he
    simp only [emit] at h1 h2
    obtain ⟨a1, b1, x1, y1, rfl⟩ := joinBinary_eq_some _ _ _ _ h1
    obtain ⟨a2, b2, x2, y2, rfl⟩ := joinBinary_eq_some _ _ _ _ h2
    rw [ihl _ ctx _ _ a1 a2 he.1 x1 x2, ihr _ ctx _ _ b1 b2 he.2 y1 y2]
  | Equals l r ihl ihr =>
    intro t2 ctx c1 c2 s1 s2 he h1 h2
    cases t2 <;> simp only [erase, reduceCtorEq] at he
    rename_i l2 r2
    simp only [Equals.injEq] at he
    have ml : l.marked = l2.marked := by rw [← marked_erase l, he.1, marked_erase]
    have mr : r.marked = r2.marked := by rw [← marked_erase r, he.2, marked_erase]
    simp only [emit] at h1 h2
    rw [← ml, ← mr] at h2
    obtain ⟨a1, b1, x1, y1, rfl⟩ := joinBinary_eq_some _ _ _ _ h1
    obtain ⟨a2, b2, x2, y2, rfl⟩ := joinBinary_eq_some _ _ _ _ h2
    rw [ihl _ _ _ _ a1 a2 he.1 x1 x2, ihr _ _ _ _ b1 b2 he.2 y1 y2]
  | Matches l r ihl ihr =>
    intro t2 ctx c1 c2 s1 s2 he h1 h2
    cases t2 <;> simp only [erase, reduceCtorEq] at he
    simp only [Matches.injEq] at he
    simp only [emit] at h1 h2
    obtain ⟨a1, b1, x1, y1, rfl⟩ := joinMatches_eq_some _ _ _ h1
    obtain ⟨a2, b2, x2, y2, rfl⟩ := joinMatches_eq_some _ _ _ h2
    rw [ihl _ ctx _ _ a1 a2 he.1 x1 x2, ihr _ ctx _ _ b1 b2 he.2 y1 y2]

end Term

/-! ## Parentheses and JSON string literals -/

namespace strings

theorem parenDepth_append (a b : List Char) :
    ∀ d, parenDepth d (a ++ b) = (parenDepth d a).bind fun e => parenDepth e b := by
  induction a with
  | nil => intro d; rfl
  | cons c cs ih =>
    intro d
    simp only [List.cons_append, parenDepth]
    split
    · exact ih _
    · split
      · cases d with
        | zero => rfl
        | succ d => exact ih _
      · exact ih _

theorem parenDepth_shift (a : List Char) :
    ∀ d e k, parenDepth d a = some e → parenDepth (d + k) a = some (e + k) := by
  induction a with
  | nil =>
    intro d e k h
    simp only [parenDepth, Option.some.injEq] at h ⊢
    omega
  | cons c cs ih =>
    intro d e k h
    simp only [parenDepth] at h ⊢
    split
    · rename_i hc
      rw [if_pos hc] at h
      have := ih (d + 1) e k h
      rwa [show d + 1 + k = d + k + 1 by omega] at this
    · rename_i hc
      rw [if_neg hc] at h
      split
      · rename_i hc2
        rw [if_pos hc2] at h
        cases d with
        | zero => cases h
        | succ d =>
          rw [show d + 1 + k = (d + k) + 1 by omega]
          exact ih d e k h
      · rename_i hc2
        rw [if_neg hc2] at h
        exact ih d e k h

theorem parenDepth_balanced (a : List Char) (h : parenDepth 0 a = some 0) (d : Nat) :
    parenDepth d a = some d := by
  have := parenDepth_shift a 0 0 d h
  simpa using this

theorem parenDepth_of_avoid (a : List Char) (h1 : a.contains (Char.ofNat 40) = false)
    (h2 : a.contains (Char.ofNat 41) = false) (d : Nat) : parenDepth d a = some d := by
  induction a with
  | nil => rfl
  | cons c cs ih =>
    simp only [List.contains_cons, Bool.or_eq_false_iff, beq_eq_false_iff_ne, ne_eq] at h1 h2
    simp only [parenDepth]
    rw [if_neg (fun e => h1.1 e.symm), if_neg (fun e => h2.1 e.symm)]
    exact ih h1.2 h2.2

end strings

namespace json

theorem decodeFrom_plain (cs : List Char)
    (h : ∀ c ∈ cs, c ≠ Char.ofNat 34 ∧ c ≠ Char.ofNat 92 ∧ 32 ≤ c.toNat) :
    decodeFrom Mode.normal (cs ++ [Char.ofNat 34]) = some cs := by
  induction cs with
  | nil => simp [decodeFrom]
  | cons c cs ih =>
    obtain ⟨h1, h2, h3⟩ := h c (List.mem_cons_self _ _)
    have ih2 := ih (fun x hx => h x (List.mem_cons_of_mem _ hx))
    simp only [List.cons_append, decodeFrom, if_neg h1, if_neg h2]
    rw [if_neg (by omega)]
    show Option.map (fun r => c :: r) (decodeFrom Mode.normal (cs ++ [Char.ofNat 34])) = _
    rw [ih2]
    rfl

end json

namespace Term

open criteria models

/-- The fragment of a tree whose field names hold no parenthesis has balanced
parentheses. -/
theorem emit_balanced (F : Nat → String) (t : Term) :
    ∀ (ctx : Bool) (c : expressionCompiler) (s : String),
      t.fieldsAvoid (Char.ofNat 40) = true → t.fieldsAvoid (Char.ofNat 41) = true →
      (emit F t ctx c).1 = some s → strings.parenDepth 0 s.toList = some 0 := by
  have bin : ∀ (op ls rs : String),
      strings.parenDepth 0 op.toList = some 0 →
      strings.parenDepth 0 ls.toList = some 0 → strings.parenDepth 0 rs.toList = some 0 →
      strings.parenDepth 0 ("(" ++ ls ++ " " ++ op ++ " " ++ rs ++ ")").toList = some 0 := by
    intro op ls rs hop hl hr
    have e : ("(" ++ ls ++ " " ++ op ++ " " ++ rs ++ ")").toList =
        [Char.ofNat 40] ++ (ls.toList ++ ([Char.ofNat 32] ++ (op.toList ++
          ([Char.ofNat 32] ++ (rs.toList ++ [Char.ofNat 41]))))) := by
      simp [String.toList, String.data_append]
    rw [e]
    simp only [strings.parenDepth_append, strings.parenDepth_balanced _ hl,
      strings.parenDepth_balanced _ hr, strings.parenDepth_balanced _ hop]
    decide
  induction t with
  | Field id =>
    intro ctx c s h1 h2 hs
    simp only [fieldsAvoid, Bool.not_eq_true'] at h1 h2
    simp only [emit, expressionCompiler.Field] at hs
    split at hs
    · simp only [Option.some.injEq] at hs
      subst hs
      exact strings.parenDepth_of_avoid _ h1 h2 0
    · split at hs
      · cases hs
      · simp only [Option.some.injEq] at hs
        subst hs
        have e : ("Fields->'" ++ id ++ "'").toList =
            ("Fields->'" : String).toList ++ (id.toList ++ ("'" : String).toList) := by
          simp [String.toList, String.data_append]
        rw [e]
        simp only [strings.parenDepth_append, strings.parenDepth_of_avoid _ h1 h2]
        decide
  | Parameter => intro ctx c s _ _ hs; cases hs
  | Literal v =>
    intro ctx c s _ _ hs
    simp only [emit, emitLiteral] at hs
    cases ctx with
    | false =>
      simp only [Bool.false_eq_true, if_false, Option.some.injEq] at hs
      subst hs
      decide
    | true =>
      simp only [if_true] at hs
      cases hc : expressionCompiler.convertToString F v with
      | ok s0 =>
        rw [hc] at hs
        simp only [Option.some.injEq] at hs
        subst hs
        decide
      | error e => rw [hc] at hs; cases hs
  | And l r ihl ihr =>
    intro ctx c s h1 h2 hs
    simp only [fieldsAvoid, Bool.and_eq_true] at h1 h2
    simp only [emit] at hs
    obtain ⟨ls, rs, x, y, rfl⟩ := joinBinary_eq_some _ _ _ _ hs
    exact bin _ _ _ (by decide) (ihl ctx c ls h1.1 h2.1 x) (ihr ctx _ rs h1.2 h2.2 y)
  | Or l r ihl ihr =>
    intro ctx c s h1 h2 hs
    simp only [fieldsAvoid, Bool.and_eq_true] at h1 h2
    simp only [emit] at hs
    obtain ⟨ls, rs, x, y, rfl⟩ := joinBinary_eq_some _ _ _ _ hs
    exact bin _ _ _ (by decide) (ihl ctx c ls h1.1 h2.1 x) (ihr ctx _ rs h1.2 h2.2 y)
  | Equals l r ihl ihr =>
    intro ctx c s h1 h2 hs
    simp only [fieldsAvoid, Bool.and_eq_true] at h1 h2
    simp only [emit] at hs
    obtain ⟨ls, rs, x, y, rfl⟩ := joinBinary_eq_some _ _ _ _ hs
    exact bin _ _ _ (by decide) (ihl _ c ls h1.1 h2.1 x) (ihr _ _ rs h1.2 h2.2 y)
  | Matches l r ihl ihr =>
    intro ctx c s h1 h2 hs
    simp only [fieldsAvoid, Bool.and_eq_true] at h1 h2
    simp only [emit] at hs
    obtain ⟨ls, rs, x, y, rfl⟩ := joinMatches_eq_some _ _ _ hs
    have e : ("(to_tsvector('english', " ++ ls ++ ") @@ to_tsquery('english', " ++ rs ++
        "))").toList =
        ("(to_tsvector('english', " : String).toList ++ (ls.toList ++
          ((") @@ to_tsquery('english', " : String).toList ++ (rs.toList ++
            ("))" : String).toList))) := by
      simp [String.toList, String.data_append]
    rw [e]
    have d1 : strings.parenDepth 0 ("(to_tsvector('english', " : String).toList = some 2 := by
      decide
    have d2 : strings.parenDepth 2 (") @@ to_tsquery('english', " : String).toList = some 2 := by
      decide
    have d3 : strings.parenDepth 2 ("))" : String).toList = some 0 := by decide
    simp only [strings.parenDepth_append, d1, Option.some_bind,
      strings.parenDepth_balanced _ (ihl ctx c ls h1.1 h2.1 x), d2,
      strings.parenDepth_balanced _ (ihr ctx _ rs h1.2 h2.2 y), d3]

end Term

/-! ## Pass 1 run again -/

namespace Term

open criteria models

/-- The pre-pass step on the root of a tree, marked before or not, whose children
have been processed. -/
theorem bubble_top_any (m : Bool) (t : Term) (A post : Heap) (base : Nat) (par : Expression)
    (p : Nat) (hA : p = A.length)
    (hk : ∀ l r, t = Equals l r →
      Annotation (A ++ top m t base par :: post) (some (base + l.rootOff)) jsonAnnotation
          = .ok (jsonVal l.marked) ∧
      Annotation (A ++ top m t base par :: post) (some (base + l.size + r.rootOff))
          jsonAnnotation = .ok (jsonVal r.marked)) :
    bubbleUpJSONContext (A ++ top m t base par :: post) (some p) =
      .ok (true, A ++ top true t base par :: post) := by
  subst hA
  have hp : (A ++ top m t base par :: post)[A.length]? = some (top m t base par) :=
    getElem?_mid _ _ _ _ rfl
  cases t with
  | Field id =>
    simp only [top] at hp ⊢
    simp only [bubbleUpJSONContext, hp, SetAnnotation_mid]
    by_cases hj : isJSONField id = true
    · simp [hj, Node.withBase, Node.base, expression.put, mark]
    · simp [hj, mark]
  | Parameter => simp only [top] at hp ⊢; simp only [bubbleUpJSONContext, hp]
  | Literal v => simp only [top] at hp ⊢; simp only [bubbleUpJSONContext, hp]
  | And l r => simp only [top] at hp ⊢; simp only [bubbleUpJSONContext, hp]
  | Or l r => simp only [top] at hp ⊢; simp only [bubbleUpJSONContext, hp]
  | Matches l r => simp only [top] at hp ⊢; simp only [bubbleUpJSONContext, hp]
  | Equals l r =>
    obtain ⟨h1, h2⟩ := hk l r rfl
    simp only [top] at h1 h2 hp ⊢
    simp only [bubbleUpJSONContext, hp, h1, h2, Result.ok_bind, SetAnnotation_mid]
    cases hl : l.marked <;> cases hr : r.marked <;>
      simp [jsonVal, Node.withBase, Node.base, expression.put, mark]

end Term

namespace Term

open criteria models

/-- The pre-pass on a binary node, marked before or not, given the pre-pass on
its two subtrees. -/
theorem walk_node_any (m : Bool) (t l r : Term) (pre post : Heap) (par : Expression) (fuel : Nat)
    (hbody : ∀ m, body m t pre.length =
      layout m l pre.length (some (pre.length + l.size + r.size)) ++
        layout m r (pre.length + l.size) (some (pre.length + l.size + r.size)))
    (hoff : t.rootOff = l.rootOff + r.rootOff + 2)
    (hch : (top m t pre.length par).children =
      some (some (pre.length + l.rootOff), some (pre.length + l.size + r.rootOff)))
    (hEq : ∀ l2 r2, t = Equals l2 r2 → l2 = l ∧ r2 = r)
    (ihl : ∀ (pre post : Heap) (par : Expression),
      IteratePostOrder.walk bubbleUpJSONContext fuel
        (pre ++ layout m l pre.length par ++ post) (some (pre.length + l.rootOff)) =
      .ok (pre ++ layout true l pre.length par ++ post))
    (ihr : ∀ (pre post : Heap) (par : Expression),
      IteratePostOrder.walk bubbleUpJSONContext fuel
        (pre ++ layout m r pre.length par ++ post) (some (pre.length + r.rootOff)) =
      .ok (pre ++ layout true r pre.length par ++ post)) :
    IteratePostOrder.walk bubbleUpJSONContext (fuel + 1)
        (pre ++ layout m t pre.length par ++ post) (some (pre.length + t.rootOff)) =
      .ok (pre ++ layout true t pre.length par ++ post) := by
  rw [walk_bin _ _ _ _ _ _ _ (getElem?_root m t pre post par) hch]
  have e1 : pre ++ layout m t pre.length par ++ post =
      pre ++ layout m l pre.length (some (pre.length + l.size + r.size)) ++
        (layout m r (pre.length + l.size) (some (pre.length + l.size + r.size)) ++
          top m t pre.length par :: post) := by
    simp [layout, hbody]
  rw [e1, ihl]
  simp only [Result.ok_bind]
  have e2 : pre ++ layout true l pre.length (some (pre.length + l.size + r.size)) ++
        (layout m r (pre.length + l.size) (some (pre.length + l.size + r.size)) ++
          top m t pre.length par :: post) =
      (pre ++ layout true l pre.length (some (pre.length + l.size + r.size))) ++
        layout m r (pre ++ layout true l pre.length
            (some (pre.length + l.size + r.size))).length
          (some (pre.length + l.size + r.size)) ++
        (top m t pre.length par :: post) := by
    simp [length_layout]
  have e2i : pre.length + l.size + r.rootOff =
      (pre ++ layout true l pre.length (some (pre.length + l.size + r.size))).length +
        r.rootOff := by
    simp [length_layout]
  rw [e2, e2i, ihr]
  simp only [Result.ok_bind]
  have hlen : (pre ++ layout true l pre.length (some (pre.length + l.size + r.size))).length =
      pre.length + l.size := by
    simp [length_layout]
  rw [hlen]
  have e3 : pre ++ layout true l pre.length (some (pre.length + l.size + r.size)) ++
        layout true r (pre.length + l.size) (some (pre.length + l.size + r.size)) ++
        top m t pre.length par :: post =
      (pre ++ layout true l pre.length (some (pre.length + l.size + r.size)) ++
        layout true r (pre.length + l.size) (some (pre.length + l.size + r.size))) ++
        top m t pre.length par :: post := by
    simp
  have e3i : pre.length + t.rootOff =
      (pre ++ layout true l pre.length (some (pre.length + l.size + r.size)) ++
        layout true r (pre.length + l.size) (some (pre.length + l.size + r.size))).length := by
    simp [length_layout, size, hoff]
    omega
  rw [bubble_top_any m t _ post pre.length par _ e3i]
  · simp [layout, hbody]
  · intro l2 r2 h2
    obtain ⟨rfl, rfl⟩ := hEq l2 r2 h2
    constructor
    · have := Annotation_root l2 pre
        (layout true r2 (pre.length + l2.size) (some (pre.length + l2.size + r2.size)) ++
          top m t pre.length par :: post) (some (pre.length + l2.size + r2.size))
      simpa [List.append_assoc] using this
    · have := Annotation_root r2
        (pre ++ layout true l2 pre.length (some (pre.length + l2.size + r2.size)))
        (top m t pre.length par :: post) (some (pre.length + l2.size + r2.size))
      simpa [List.append_assoc, length_layout] using this

/-- Pass 1 on a subtree, whether pass 1 has run on it before or not, leaves
exactly the nodes `marked` names marked. -/
theorem walk_layout_any (m : Bool) (t : Term) (pre post : Heap) (par : Expression) (fuel : Nat)
    (hf : t.size ≤ fuel) :
    IteratePostOrder.walk bubbleUpJSONContext fuel
        (pre ++ layout m t pre.length par ++ post) (some (pre.length + t.rootOff)) =
      .ok (pre ++ layout true t pre.length par ++ post) := by
  induction t generalizing pre post par fuel with
  | Field id =>
    obtain ⟨fuel, rfl⟩ : ∃ k, fuel = k + 1 := ⟨fuel - 1, by simp [size] at hf; omega⟩
    rw [walk_leaf _ _ _ _ _ (getElem?_root m _ pre post par) (by rfl)]
    have := bubble_top_any m (Field id) pre post pre.length par (pre.length + (Field id).rootOff)
      (by simp [rootOff]) (by simp)
    simp only [layout, body, List.append_nil, List.nil_append, List.append_assoc,
      List.singleton_append, this, Result.ok_bind]
  | Parameter =>
    obtain ⟨fuel, rfl⟩ : ∃ k, fuel = k + 1 := ⟨fuel - 1, by simp [size] at hf; omega⟩
    rw [walk_leaf _ _ _ _ _ (getElem?_root m _ pre post par) (by rfl)]
    have := bubble_top_any m Parameter pre post pre.length par (pre.length + Parameter.rootOff)
      (by simp [rootOff]) (by simp)
    simp only [layout, body, List.append_nil, List.nil_append, List.append_assoc,
      List.singleton_append, this, Result.ok_bind]
  | Literal v =>
    obtain ⟨fuel, rfl⟩ : ∃ k, fuel = k + 1 := ⟨fuel - 1, by simp [size] at hf; omega⟩
    rw [walk_leaf _ _ _ _ _ (getElem?_root m _ pre post par) (by rfl)]
    have := bubble_top_any m (Literal v) pre post pre.length par (pre.length + (Literal v).rootOff)
      (by simp [rootOff]) (by simp)
    simp only [layout, body, List.append_nil, List.nil_append, List.append_assoc,
      List.singleton_append, this, Result.ok_bind]
  | And l r ihl ihr =>
    obtain ⟨fuel, rfl⟩ : ∃ k, fuel = k + 1 := ⟨fuel - 1, by simp [size] at hf; omega⟩
    simp only [size, rootOff] at hf
    exact walk_node_any m _ l r pre post par fuel (by intro m; simp [body, layout]) rfl rfl
      (by simp) (fun a b c => ihl a b c fuel (by simp only [size]; omega))
      (fun a b c => ihr a b c fuel (by simp only [size]; omega))
  | Or l r ihl ihr =>
    obtain ⟨fuel, rfl⟩ : ∃ k, fuel = k + 1 := ⟨fuel - 1, by simp [size] at hf; omega⟩
    simp only [size, rootOff] at hf
    exact walk_node_any m _ l r pre post par fuel (by intro m; simp [body, layout]) rfl rfl
      (by simp) (fun a b c => ihl a b c fuel (by simp only [size]; omega))
      (fun a b c => ihr a b c fuel (by simp only [size]; omega))
  | Equals l r ihl ihr =>
    obtain ⟨fuel, rfl⟩ : ∃ k, fuel = k + 1 := ⟨fuel - 1, by simp [size] at hf; omega⟩
    simp only [size, rootOff] at hf
    exact walk_node_any m _ l r pre post par fuel (by intro m; simp [body, layout]) rfl rfl
      (by intro l2 r2 h; injection h with h1 h2; exact ⟨h1.symm, h2.symm⟩)
      (fun a b c => ihl a b c fuel (by simp only [size]; omega))
      (fun a b c => ihr a b c fuel (by simp only [size]; omega))
  | Matches l r ihl ihr =>
    obtain ⟨fuel, rfl⟩ : ∃ k, fuel = k + 1 := ⟨fuel - 1, by simp [size] at hf; omega⟩
    simp only [size, rootOff] at hf
    exact walk_node_any m _ l r pre post par fuel (by intro m; simp [body, layout]) rfl rfl
      (by simp) (fun a b c => ihl a b c fuel (by simp only [size]; omega))
      (fun a b c => ihr a b c fuel (by simp only [size]; omega))

end Term

namespace Term

open criteria models

/-- Pass 1 and `Compile` on a tree on which pass 1 has already run. -/
theorem compile_again (F : Nat → String) (t : Term) (h : Heap) :
    IteratePostOrder (h ++ layout true t h.length none) (some (h.length + t.rootOff))
        bubbleUpJSONContext = .ok (h ++ layout true t h.length none) ∧
    Compile F (h ++ layout true t h.length none) (some (h.length + t.rootOff)) =
      match (emit F t false newExpressionCompiler).1 with
      | some s =>
        .ok ((s, (emit F t false newExpressionCompiler).2.parameters,
          (emit F t false newExpressionCompiler).2.err), h ++ layout true t h.length none)
      | none => .panic := by
  have w := walk_layout_any true t h [] none (h ++ layout true t h.length none).length
    (by simp [length_layout])
  simp only [List.append_nil] at w
  have a := Accept_layout F t (h ++ layout true t h.length none).length
    (h ++ layout true t h.length none) h [] none 0 false
    newExpressionCompiler (by simp [length_layout]) (by simp) (CtxAt_nil _)
    (by simp [length_layout])
  refine ⟨w, ?_⟩
  simp only [Compile, compilePasses, IteratePostOrder, w, Result.ok_bind, a]

end Term

/-! ## Properties of the compiler -/

open criteria models

theorem convertToString_of_textualForm (F : Nat → String) (v : Value) (s : String)
    (hv : v.textualForm = some s) :
    expressionCompiler.convertToString F v = .ok s := by
  cases v with
  | bool b => cases b <;> simp_all [Value.textualForm, expressionCompiler.convertToString,
      strconv.FormatBool]
  | _ => simp_all [Value.textualForm, expressionCompiler.convertToString]

theorem textualForm_ne (v : Value) (s : String) (hv : v.textualForm = some s) :
    Value.string s ≠ v := by
  cases v with
  | string s0 =>
    simp only [Value.textualForm, Option.some.injEq] at hv
    subst hv
    intro h
    injection h with h
    exact quoted_ne s0 h
  | _ => intro h; cases h

theorem Term.compile_of_emit (F : Nat → String) (t : Term) (h : Heap) (s : String)
    (c : expressionCompiler) (he : Term.emit F t false newExpressionCompiler = (some s, c)) :
    ∃ h1, t.compile F h = Result.ok ((s, c.parameters, c.err), h1) :=
  ⟨h ++ Term.layout true t h.length none, by rw [Term.compile_eq, he]⟩

theorem Term.passes_of_emit (F : Nat → String) (t : Term) (h : Heap) (r : Option String)
    (c : expressionCompiler) (he : Term.emit F t false newExpressionCompiler = (r, c)) :
    ∃ h1, t.passes F h = Result.ok ((r, c), h1) :=
  ⟨h ++ Term.layout true t h.length none, by rw [Term.passes_eq, he]⟩

/-- C1: for a field name `n` that is not `ID`, `Type` or `Version` and has no
single quote, and a literal `v` that is a string, a bool or an
int/int64/uint/uint64, `Compile(Equals(Field(n), Literal(v)))` returns the text
`(Fields->'n' = ?::jsonb)`, the one-element parameter list holding the textual
form of `v` as a string (which is not the raw value), and no errors. -/
theorem C1_equals_document_field (F : Nat → String) (n : String) (v : Value) (s : String)
    (h : Heap) (hn : n ≠ "ID" ∧ n ≠ "Type" ∧ n ≠ "Version")
    (hq : ¬ Char.ofNat 39 ∈ n.toList) (hv : v.textualForm = some s) :
    (∃ h1, (Term.Equals (Term.Field n) (Term.Literal v)).compile F h =
      Result.ok (("(Fields->'" ++ n ++ "' = ?::jsonb)", [Value.string s], []), h1)) ∧
    Value.string s ≠ v := by
  refine ⟨?_, textualForm_ne v s hv⟩
  have hj : isJSONField n = true := (Term.isJSONField_eq_true n).2 hn
  apply Term.compile_of_emit F _ h _ { parameters := [Value.string s], err := [] }
  simp only [Term.emit, Term.marked, hj, Bool.true_or, Term.Field_document _ n hj hq,
    Term.emitLiteral, if_true, convertToString_of_textualForm F v s hv, Term.joinBinary,
    newExpressionCompiler, List.nil_append]
  congr 2
  apply String.ext
  simp [String.data_append]

/-- C1 at `Equals(Field("title"), Literal("foo"))`. -/
theorem C1_witness :
    (∃ h1, (Term.Equals (Term.Field "title") (Term.Literal (Value.string "foo"))).compile
        (fun _ => "") [] =
      Result.ok (("(Fields->'" ++ "title" ++ "' = ?::jsonb)", [Value.string "\"foo\""], []),
        h1)) ∧
    Value.string "\"foo\"" ≠ Value.string "foo" :=
  C1_equals_document_field (fun _ => "") "title" (Value.string "foo") "\"foo\"" []
    (by decide) (by decide) rfl

/-- C2: for a field name `n` among `ID`, `Type`, `Version` and a literal `v` of
any type, `Compile(Equals(Field(n), Literal(v)))` returns the text `(n = ?)`,
the parameter list `[v]` with the raw value, and no errors. -/
theorem C2_equals_column (F : Nat → String) (n : String) (v : Value) (h : Heap)
    (hn : n = "ID" ∨ n = "Type" ∨ n = "Version") :
    ∃ h1, (Term.Equals (Term.Field n) (Term.Literal v)).compile F h =
      Result.ok (("(" ++ n ++ " = ?)", [v], []), h1) := by
  have hj : isJSONField n = false := (Term.isJSONField_eq_false n).2 hn
  apply Term.compile_of_emit F _ h _ { parameters := [v], err := [] }
  simp only [Term.emit, Term.marked, hj, Bool.or_self, Term.Field_column _ n hj,
    Term.emitLiteral, Bool.false_eq_true, if_false, Term.joinBinary,
    newExpressionCompiler, List.nil_append]
  congr 2
  apply String.ext
  simp [String.data_append]

/-- C2 at `Equals(Field("ID"), Literal(5))`. -/
theorem C2_witness :
    ∃ h1, (Term.Equals (Term.Field "ID") (Term.Literal (Value.int 5))).compile
        (fun _ => "") [] =
      Result.ok (("(" ++ "ID" ++ " = ?)", [Value.int 5], []), h1) :=
  C2_equals_column (fun _ => "") "ID" (Value.int 5) [] (Or.inl rfl)

/-- C3: the Field visitor returns exactly `n`, with the compiler unchanged, when
`n` is `ID`, `Type` or `Version`; returns nil and appends exactly one error when
`n` is another name containing a single quote; returns `Fields->'n'`, with the
compiler unchanged, for every other name; and never changes the parameters. -/
theorem C3_field_visitor (c : expressionCompiler) (n : String) :
    ((n = "ID" ∨ n = "Type" ∨ n = "Version") → c.Field n = (some n, c)) ∧
    ((¬ (n = "ID" ∨ n = "Type" ∨ n = "Version") ∧ Char.ofNat 39 ∈ n.toList) →
      (c.Field n).1 = none ∧ (∃ e, (c.Field n).2.err = c.err ++ [e])) ∧
    ((¬ (n = "ID" ∨ n = "Type" ∨ n = "Version") ∧ ¬ Char.ofNat 39 ∈ n.toList) →
      c.Field n = (some ("Fields->'" ++ n ++ "'"), c)) ∧
    (c.Field n).2.parameters = c.parameters := by
  have hcol := Term.isJSONField_eq_false n
  refine ⟨fun h => Term.Field_column c n (hcol.2 h), ?_, ?_, ?_⟩
  · rintro ⟨h1, h2⟩
    have hj : isJSONField n = true := by
      cases hb : isJSONField n
      · exact absurd (hcol.1 hb) h1
      · rfl
    rw [Term.Field_quote c n hj h2]
    exact ⟨rfl, _, rfl⟩
  · rintro ⟨h1, h2⟩
    have hj : isJSONField n = true := by
      cases hb : isJSONField n
      · exact absurd (hcol.1 hb) h1
      · rfl
    exact Term.Field_document c n hj h2
  · simp only [expressionCompiler.Field]
    split
    · rfl
    · split <;> rfl

/-- C3 at the names `ID` and `bad'name`. -/
theorem C3_witness :
    newExpressionCompiler.Field "ID" = (some "ID", newExpressionCompiler) ∧
    ((newExpressionCompiler.Field "bad'name").1 = none ∧
      ∃ e, (newExpressionCompiler.Field "bad'name").2.err = newExpressionCompiler.err ++ [e]) :=
  ⟨(C3_field_visitor newExpressionCompiler "ID").1 (Or.inl rfl),
   (C3_field_visitor newExpressionCompiler "bad'name").2.1 ⟨by decide, by decide⟩⟩

/-- C4, as stated, fails: in `Equals(Field("title"), Literal(nil))` the Literal
has a marked Equals as proper ancestor, yet it is not compiled to `?::jsonb`:
the visitor returns nil. -/
theorem C4_counterexample :
    ∃ root h1 x c,
      (Term.Equals (Term.Field "title") (Term.Literal Value.nil)).prepass [] =
        Result.ok (root, h1) ∧
      descend h1 root [Dir.right] = Result.ok (some x) ∧
      (Term.Equals (Term.Field "title") (Term.Literal Value.nil)).underMarked [Dir.right]
        = true ∧
      Accept (fun _ => "") h1 h1.length (some x) newExpressionCompiler = Result.ok (none, c) :=
  ⟨some 2,
   [Node.FieldExpression ⟨some 2, [("JSON", Value.bool true)]⟩ "title",
    Node.LiteralExpression ⟨some 2, []⟩ Value.nil,
    Node.EqualsExpression ⟨none, [("JSON", Value.bool true)]⟩ (some 0) (some 1)],
   1,
   { parameters := [],
     err := [Error.Errorf "unknown value type of %v: %T" [Value.nil, Value.nil]] },
   by decide, by decide, by decide, by decide⟩

/-- C4, amended: in a tree built by the factory functions, after pass 1, the
node reached along a path that names a Literal is that Literal, and visiting it
gives: with a marked Equals among its proper ancestors, `?::jsonb` with the
textual form of the value (`Value.documentText`: a float as formatted, an
integer in base 10, a string in double quotes, a boolean as `true` or `false`)
appended to the parameters as a string when the value has a supported type
(float64, int, int64, uint, uint64, string, bool), and nil with the error
"unknown value type of %v: %T" appended when it has not; with no marked Equals
among its proper ancestors, the bare `?` with the raw value appended. -/
theorem C4_literal_context (F : Nat → String) (t : Term) (path : List Dir) (v : Value)
    (h : Heap) (c : expressionCompiler) (hs : t.sub path = some (Term.Literal v)) :
    ∃ root h1 x b,
      t.prepass h = Result.ok (root, h1) ∧
      descend h1 root path = Result.ok (some x) ∧
      h1[x]? = some (Node.LiteralExpression b v) ∧
      (v.documentText F).isSome = v.supported ∧
      Accept F h1 h1.length (some x) c =
        Result.ok
          (if t.underMarked path then
            match v.documentText F with
            | some s =>
              (some "?::jsonb", { c with parameters := c.parameters ++ [Value.string s] })
            | none =>
              (none, { c with
                err := c.err ++ [Error.Errorf "unknown value type of %v: %T" [v, v]] })
          else (some "?", { c with parameters := c.parameters ++ [v] })) := by
  obtain ⟨pre2, post2, par2, k2, h1, h2, h3, h4⟩ :=
    Term.descend_layout t path (Term.Literal v) (h ++ Term.layout true t h.length none) h []
      none 0 false (by simp) (Term.CtxAt_nil _) (by simp [Term.length_layout]) hs
  refine ⟨_, _, pre2.length + (Term.Literal v).rootOff, ⟨par2, []⟩, Term.prepass_eq t h,
    h1, ?_, Term.documentText_isSome F v, ?_⟩
  · have := Term.getElem?_root true (Term.Literal v) pre2 post2 par2
    rw [← h2] at this
    exact this
  · rw [Term.Accept_layout F (Term.Literal v) _ _ pre2 post2 par2 k2 _ c
      (by simp only [Term.size] at h4 ⊢; omega) h2 h3 h4]
    simp only [Bool.false_or, Term.emit, Term.emitLiteral]
    cases v with
    | bool b => cases b <;> rfl
    | _ => rfl

/-- C4 amended, at the Literal of `Equals(Field("title"), Literal("foo"))`,
which lies under a marked Equals: on the heap that pass 1 leaves, the Literal
(node 1) compiles to `?::jsonb` and binds the five-character text `"foo"`,
quotes included. -/
theorem C4_witness :
    ((Term.Equals (Term.Field "title") (Term.Literal (Value.string "foo"))).prepass [] =
        Result.ok (some 2,
          [Node.FieldExpression ⟨some 2, [("JSON", Value.bool true)]⟩ "title",
           Node.LiteralExpression ⟨some 2, []⟩ (Value.string "foo"),
           Node.EqualsExpression ⟨none, [("JSON", Value.bool true)]⟩ (some 0) (some 1)]) ∧
      Accept (fun _ => "")
          [Node.FieldExpression ⟨some 2, [("JSON", Value.bool true)]⟩ "title",
           Node.LiteralExpression ⟨some 2, []⟩ (Value.string "foo"),
           Node.EqualsExpression ⟨none, [("JSON", Value.bool true)]⟩ (some 0) (some 1)]
          3 (some 1) newExpressionCompiler =
        Result.ok (some "?::jsonb", { parameters := [Value.string "\"foo\""], err := [] })) ∧
    ∃ root h1 x b,
      (Term.Equals (Term.Field "title") (Term.Literal (Value.string "foo"))).prepass [] =
        Result.ok (root, h1) ∧
      descend h1 root [Dir.right] = Result.ok (some x) ∧
      h1[x]? = some (Node.LiteralExpression b (Value.string "foo")) ∧
      ((Value.string "foo").documentText (fun _ => "")).isSome =
        (Value.string "foo").supported ∧
      Accept (fun _ => "") h1 h1.length (some x) newExpressionCompiler =
        Result.ok
          (some "?::jsonb",
            { newExpressionCompiler with parameters := [Value.string "\"foo\""] }) :=
  ⟨⟨by decide, by decide⟩,
   C4_literal_context (fun _ => "") _ [Dir.right] (Value.string "foo") []
    newExpressionCompiler rfl⟩

/-- C5, as stated, fails: for `Matches(Field("description"), Literal("search term"))`
`Compile` does not return the quoted textual form as parameter together with a
text containing the `?::jsonb` placeholder. -/
theorem C5_counterexample :
    ¬ ∃ text h1,
      (Term.Matches (Term.Field "description")
          (Term.Literal (Value.string "search term"))).compile (fun _ => "") [] =
        Result.ok ((text, [Value.string "\"search term\""], []), h1) ∧
      strings.Contains text
        "to_tsvector('english', Fields->'description') @@ to_tsquery('english', ?::jsonb)"
        = true := by
  rintro ⟨text, h1, he, -⟩
  have e : Term.emit (fun _ => "")
      (Term.Matches (Term.Field "description") (Term.Literal (Value.string "search term")))
      false newExpressionCompiler =
      (some "(to_tsvector('english', Fields->'description') @@ to_tsquery('english', ?))",
        { parameters := [Value.string "search term"], err := [] }) := by decide
  rw [Term.compile_eq, e] at he
  have hp : [Value.string "search term"] = [Value.string "\"search term\""] :=
    congrArg (fun x : (String × List Value × List Error) × Heap => x.1.2.1) (Result.ok.inj he)
  exact absurd hp (by decide)

/-- C5, amended: for a document field name `n` (not `ID`, `Type`, `Version`, no
single quote) and a string `s`, `Compile(Matches(Field(n), Literal(s)))` returns
the text `(to_tsvector('english', Fields->'n') @@ to_tsquery('english', ?))`
with the bare placeholder, the parameter list `[s]` holding the raw string, and
no errors. -/
theorem C5_matches_document_field (F : Nat → String) (n s : String) (h : Heap)
    (hn : n ≠ "ID" ∧ n ≠ "Type" ∧ n ≠ "Version") (hq : ¬ Char.ofNat 39 ∈ n.toList) :
    ∃ h1, (Term.Matches (Term.Field n) (Term.Literal (Value.string s))).compile F h =
      Result.ok (("(to_tsvector('english', Fields->'" ++ n ++
        "') @@ to_tsquery('english', ?))", [Value.string s], []), h1) := by
  have hj : isJSONField n = true := (Term.isJSONField_eq_true n).2 hn
  apply Term.compile_of_emit F _ h _ { parameters := [Value.string s], err := [] }
  simp only [Term.emit, Term.Field_document _ n hj hq, Term.emitLiteral,
    Bool.false_eq_true, if_false, Term.joinMatches, newExpressionCompiler, List.nil_append]
  congr 2
  apply String.ext
  simp [String.data_append]

/-- C5 amended, at `Matches(Field("description"), Literal("search term"))`. -/
theorem C5_witness :
    ∃ h1, (Term.Matches (Term.Field "description")
        (Term.Literal (Value.string "search term"))).compile (fun _ => "") [] =
      Result.ok (("(to_tsvector('english', Fields->'" ++ "description" ++
        "') @@ to_tsquery('english', ?))", [Value.string "search term"], []), h1) :=
  C5_matches_document_field (fun _ => "") "description" "search term" []
    (by decide) (by decide)

/-- C6: for a tree that contains a Parameter node at any position, the two
passes return, the emission visitor run from the root with a fresh compiler
returns nil, and the error list holds a "Parameter expression not supported"
error. -/
theorem C6_parameter_poisons (F : Nat → String) (t : Term) (h : Heap)
    (hp : t.hasParameter = true) :
    ∃ c h1, t.passes F h = Result.ok ((none, c), h1) ∧
      Error.Errorf "Parameter expression not supported" [] ∈ c.err := by
  obtain ⟨E, he, hn, hm⟩ := Term.emit_err F t false newExpressionCompiler
  have hE : E ≠ [] := fun h0 => by
    have := hm hp
    rw [h0] at this
    exact absurd this (List.not_mem_nil _)
  obtain ⟨h1, hpass⟩ := Term.passes_of_emit F t h none
    (Term.emit F t false newExpressionCompiler).2 (by rw [← hn.2 hE])
  refine ⟨_, h1, hpass, ?_⟩
  rw [he]
  exact List.mem_append_right _ (hm hp)

/-- C6 at `And(Equals(Field("ID"), Parameter()), Field("Type"))`. -/
theorem C6_witness :
    ∃ c h1, (Term.And (Term.Equals (Term.Field "ID") Term.Parameter)
        (Term.Field "Type")).passes (fun _ => "") [] = Result.ok ((none, c), h1) ∧
      Error.Errorf "Parameter expression not supported" [] ∈ c.err :=
  C6_parameter_poisons (fun _ => "") _ [] (by decide)

/-- C7: for every tree, the two passes return, and the emission visitor run from
the root with a fresh compiler after pass 1 returns nil if and only if the
accumulated error list is non-empty. -/
theorem C7_nil_iff_errors (F : Nat → String) (t : Term) (h : Heap) :
    ∃ r c h1, t.passes F h = Result.ok ((r, c), h1) ∧ (r = none ↔ c.err ≠ []) := by
  obtain ⟨E, he, hn, -⟩ := Term.emit_err F t false newExpressionCompiler
  obtain ⟨h1, hpass⟩ := Term.passes_of_emit F t h _ _ rfl
  refine ⟨_, _, h1, hpass, ?_⟩
  rw [hn, he]
  simp [newExpressionCompiler]

/-- C8 fails on the code: for the tree `Parameter()` the emission visitor
returns nil with one error recorded, and `Compile` then panics in the type
assertion instead of returning the error list. -/
theorem C8_compile_panics_on_failure (F : Nat → String) (h : Heap) :
    Term.Parameter.compile F h = Result.panic ∧
    ∃ c h1, Term.Parameter.passes F h = Result.ok ((none, c), h1) ∧ c.err.length = 1 := by
  constructor
  · rw [Term.compile_eq]; rfl
  · obtain ⟨h1, hpass⟩ := Term.passes_of_emit F Term.Parameter h _ _ rfl
    exact ⟨_, h1, hpass, rfl⟩

theorem length_expectedParams (F : Nat → String) (t : Term) :
    ∀ (ctx : Bool) (c : expressionCompiler), (Term.emit F t ctx c).2.err = c.err →
      (Term.expectedParams F t ctx).length = t.countLiterals := by
  have split2 : ∀ (l r : Term) (ctx1 ctx2 : Bool) (c : expressionCompiler),
      (Term.emit F r ctx2 (Term.emit F l ctx1 c).2).2.err = c.err →
      (Term.emit F l ctx1 c).2.err = c.err ∧
      (Term.emit F r ctx2 (Term.emit F l ctx1 c).2).2.err = (Term.emit F l ctx1 c).2.err := by
    intro l r ctx1 ctx2 c h
    obtain ⟨E1, h1, -, -⟩ := Term.emit_err F l ctx1 c
    obtain ⟨E2, h2, -, -⟩ := Term.emit_err F r ctx2 (Term.emit F l ctx1 c).2
    rw [h2, h1, List.append_assoc] at h
    have hnil : E1 ++ E2 = [] := by
      have hl := congrArg List.length h
      simp only [List.length_append] at hl
      exact List.eq_nil_of_length_eq_zero (by simp only [List.length_append]; omega)
    obtain ⟨e1, e2⟩ := List.append_eq_nil.1 hnil
    subst e1; subst e2
    simp [h1, h2]
  induction t with
  | Field id => intro ctx c _; rfl
  | Parameter => intro ctx c _; rfl
  | Literal v =>
    intro ctx c h
    simp only [Term.emit, Term.emitLiteral] at h
    simp only [Term.expectedParams, Term.countLiterals]
    cases ctx with
    | false => simp
    | true =>
      simp only [if_true] at h ⊢
      rw [Term.convertToString_documentText] at h
      cases hc : v.documentText F with
      | some s => simp
      | none =>
        rw [hc] at h
        have := congrArg List.length h
        simp at this
  | And l r ihl ihr =>
    intro ctx c h
    obtain ⟨h1, h2⟩ := split2 l r ctx ctx c h
    simp [Term.expectedParams, Term.countLiterals, ihl ctx c h1, ihr ctx _ h2]
  | Or l r ihl ihr =>
    intro ctx c h
    obtain ⟨h1, h2⟩ := split2 l r ctx ctx c h
    simp [Term.expectedParams, Term.countLiterals, ihl ctx c h1, ihr ctx _ h2]
  | Equals l r ihl ihr =>
    intro ctx c h
    obtain ⟨h1, h2⟩ := split2 l r _ _ c h
    have e : (ctx || (l.Equals r).marked) = (l.marked || r.marked || ctx) := by
      simp [Term.marked, Bool.or_comm]
    simp [Term.expectedParams, Term.countLiterals, e, ihl _ c h1, ihr _ _ h2]
  | Matches l r ihl ihr =>
    intro ctx c h
    obtain ⟨h1, h2⟩ := split2 l r ctx ctx c h
    simp [Term.expectedParams, Term.countLiterals, ihl ctx c h1, ihr ctx _ h2]

/-- C9: for every tree, the parameter list produced by the emission pass is the
list of the tree's Literal nodes in left-to-right order, each giving its raw
value outside document context and its textual string form inside (nothing
when it fails); when the error list is empty it has as many entries as the tree
has Literal nodes. -/
theorem C9_parameters_in_order (F : Nat → String) (t : Term) (h : Heap) :
    ∃ r c h1, t.passes F h = Result.ok ((r, c), h1) ∧
      c.parameters = t.expectedParams F false ∧
      (c.err = [] → c.parameters.length = t.countLiterals) := by
  have key : ∀ (t : Term) (ctx : Bool) (c : expressionCompiler),
      (Term.emit F t ctx c).2.parameters = c.parameters ++ Term.expectedParams F t ctx := by
    intro t
    induction t with
    | Field id =>
      intro ctx c
      simp only [Term.emit, Term.expectedParams, List.append_nil, expressionCompiler.Field]
      split
      · rfl
      · split <;> rfl
    | Parameter =>
      intro ctx c
      simp [Term.emit, Term.expectedParams, expressionCompiler.Parameter]
    | Literal v =>
      intro ctx c
      simp only [Term.emit, Term.emitLiteral, Term.expectedParams]
      cases ctx with
      | false => simp
      | true =>
        simp only [if_true]
        cases v with
        | bool b => cases b <;> rfl
        | _ => first | rfl | simp [expressionCompiler.convertToString, Value.documentText]
    | And l r ihl ihr => intro ctx c; simp [Term.emit, Term.expectedParams, ihl, ihr]
    | Or l r ihl ihr => intro ctx c; simp [Term.emit, Term.expectedParams, ihl, ihr]
    | Equals l r ihl ihr =>
      intro ctx c
      simp [Term.emit, Term.expectedParams, ihl, ihr, Term.marked, Bool.or_comm]
    | Matches l r ihl ihr => intro ctx c; simp [Term.emit, Term.expectedParams, ihl, ihr]
  obtain ⟨h1, hpass⟩ := Term.passes_of_emit F t h _ _ rfl
  refine ⟨_, _, h1, hpass, ?_, ?_⟩
  · rw [key]; rfl
  · intro he
    rw [key]
    simpa [newExpressionCompiler] using
      length_expectedParams F t false newExpressionCompiler (by rw [he]; rfl)

theorem joinBinary_some (op : String) (a b : Option String) (s : String)
    (h : Term.joinBinary op a b = some s) :
    ∃ ls rs, a = some ls ∧ b = some rs ∧ s = "(" ++ ls ++ " " ++ op ++ " " ++ rs ++ ")" := by
  cases a <;> cases b <;> simp [Term.joinBinary] at h
  exact ⟨_, _, rfl, rfl, h.symm⟩

theorem joinMatches_some (a b : Option String) (s : String)
    (h : Term.joinMatches a b = some s) :
    ∃ ls rs, a = some ls ∧ b = some rs ∧
      s = "(to_tsvector('english', " ++ ls ++ ") @@ to_tsquery('english', " ++ rs ++ "))" := by
  cases a <;> cases b <;> simp [Term.joinMatches] at h
  exact ⟨_, _, rfl, rfl, h.symm⟩

/-- In a fragment built from field names without `?`, every `?` is the
placeholder of one bound parameter. -/
theorem emit_count (F : Nat → String) (t : Term) :
    ∀ (ctx : Bool) (c : expressionCompiler) (s : String), t.fieldsAvoid '?' = true →
      (Term.emit F t ctx c).1 = some s →
      strings.CountChar s '?' = (Term.expectedParams F t ctx).length := by
  have bin : ∀ (op ls rs : String), strings.CountChar op '?' = 0 →
      strings.CountChar ("(" ++ ls ++ " " ++ op ++ " " ++ rs ++ ")") '?' =
        strings.CountChar ls '?' + strings.CountChar rs '?' := by
    intro op ls rs hop
    have e1 : strings.CountChar "(" '?' = 0 := by decide
    have e2 : strings.CountChar " " '?' = 0 := by decide
    have e3 : strings.CountChar ")" '?' = 0 := by decide
    simp only [CountChar_append, e1, e2, e3, hop]
    omega
  induction t with
  | Field id =>
    intro ctx c s hf hs
    simp only [Term.fieldsAvoid, Bool.not_eq_true'] at hf
    simp only [Term.emit, expressionCompiler.Field] at hs
    simp only [Term.expectedParams, List.length_nil]
    split at hs
    · simp only [Option.some.injEq] at hs
      subst hs
      exact CountChar_of_not_mem _ _ hf
    · split at hs
      · cases hs
      · simp only [Option.some.injEq] at hs
        subst hs
        have e1 : strings.CountChar "Fields->'" '?' = 0 := by decide
        have e2 : strings.CountChar "'" '?' = 0 := by decide
        simp only [CountChar_append, e1, e2, CountChar_of_not_mem _ _ hf]
  | Parameter => intro ctx c s _ hs; cases hs
  | Literal v =>
    intro ctx c s _ hs
    simp only [Term.emit, Term.emitLiteral] at hs
    simp only [Term.expectedParams]
    cases ctx with
    | false =>
      simp only [Bool.false_eq_true, if_false, Option.some.injEq] at hs ⊢
      subst hs
      have e : strings.CountChar "?" '?' = 1 := by decide
      simp [e]
    | true =>
      simp only [if_true] at hs ⊢
      rw [Term.convertToString_documentText] at hs
      cases hc : v.documentText F with
      | some s0 =>
        rw [hc] at hs
        simp only [Option.some.injEq] at hs
        subst hs
        have e : strings.CountChar "?::jsonb" '?' = 1 := by decide
        simp [e]
      | none => rw [hc] at hs; cases hs
  | And l r ihl ihr =>
    intro ctx c s hf hs
    simp only [Term.fieldsAvoid, Bool.and_eq_true] at hf
    simp only [Term.emit] at hs
    obtain ⟨ls, rs, h1, h2, rfl⟩ := joinBinary_some _ _ _ _ hs
    rw [bin _ _ _ (by decide), ihl ctx c ls hf.1 h1, ihr ctx _ rs hf.2 h2]
    simp [Term.expectedParams]
  | Or l r ihl ihr =>
    intro ctx c s hf hs
    simp only [Term.fieldsAvoid, Bool.and_eq_true] at hf
    simp only [Term.emit] at hs
    obtain ⟨ls, rs, h1, h2, rfl⟩ := joinBinary_some _ _ _ _ hs
    rw [bin _ _ _ (by decide), ihl ctx c ls hf.1 h1, ihr ctx _ rs hf.2 h2]
    simp [Term.expectedParams]
  | Equals l r ihl ihr =>
    intro ctx c s hf hs
    simp only [Term.fieldsAvoid, Bool.and_eq_true] at hf
    simp only [Term.emit] at hs
    obtain ⟨ls, rs, h1, h2, rfl⟩ := joinBinary_some _ _ _ _ hs
    rw [bin _ _ _ (by decide), ihl _ c ls hf.1 h1, ihr _ _ rs hf.2 h2]
    have e : (ctx || (l.Equals r).marked) = (l.marked || r.marked || ctx) := by
      simp [Term.marked, Bool.or_comm]
    simp [Term.expectedParams, e]
  | Matches l r ihl ihr =>
    intro ctx c s hf hs
    simp only [Term.fieldsAvoid, Bool.and_eq_true] at hf
    simp only [Term.emit] at hs
    obtain ⟨ls, rs, h1, h2, rfl⟩ := joinMatches_some _ _ _ hs
    have e1 : strings.CountChar "(to_tsvector('english', " '?' = 0 := by decide
    have e2 : strings.CountChar ") @@ to_tsquery('english', " '?' = 0 := by decide
    have e3 : strings.CountChar "))" '?' = 0 := by decide
    simp only [CountChar_append, e1, e2, e3, ihl ctx c ls hf.1 h1, ihr ctx _ rs hf.2 h2,
      Term.expectedParams, List.length_append]
    omega

/-- C10, as stated, fails: `Equals(Field("a?"), Literal(1))` compiles with an
empty error list to a text with two `?` characters and one parameter. -/
theorem C10_counterexample :
    ∃ text params h1,
      (Term.Equals (Term.Field "a?") (Term.Literal (Value.int 1))).compile (fun _ => "") [] =
        Result.ok ((text, params, []), h1) ∧
      strings.CountChar text '?' ≠ params.length :=
  ⟨"(Fields->'a?' = ?::jsonb)", [Value.string "1"],
   [Node.FieldExpression ⟨some 2, [("JSON", Value.bool true)]⟩ "a?",
    Node.LiteralExpression ⟨some 2, []⟩ (Value.int 1),
    Node.EqualsExpression ⟨none, [("JSON", Value.bool true)]⟩ (some 0) (some 1)],
   by decide, by decide⟩

/-- C10, amended: for every tree none of whose Field names contains the
character `?`, when `Compile` returns with an empty error list the number of
`?` characters in the returned text equals the length of the returned
parameter list. -/
theorem C10_placeholders_match_parameters (F : Nat → String) (t : Term) (h h1 : Heap)
    (text : String) (params : List Value)
    (hc : t.compile F h = Result.ok ((text, params, []), h1))
    (hf : t.fieldsAvoid '?' = true) :
    strings.CountChar text '?' = params.length := by
  rw [Term.compile_eq] at hc
  cases hs : (Term.emit F t false newExpressionCompiler).1 with
  | none => rw [hs] at hc; cases hc
  | some s =>
    rw [hs] at hc
    simp only [Result.ok.injEq, Prod.mk.injEq] at hc
    obtain ⟨⟨rfl, rfl, -⟩, -⟩ := hc
    rw [emit_count F t false _ s hf hs, Term.emit_parameters]
    simp [newExpressionCompiler]

/-- C10 amended, at `Equals(Field("ID"), Literal(5))`. -/
theorem C10_witness :
    (Term.Equals (Term.Field "ID") (Term.Literal (Value.int 5))).compile (fun _ => "") [] =
      Result.ok (("(ID = ?)", [Value.int 5], []),
        [Node.FieldExpression ⟨some 2, []⟩ "ID",
         Node.LiteralExpression ⟨some 2, []⟩ (Value.int 5),
         Node.EqualsExpression ⟨none, []⟩ (some 0) (some 1)]) ∧
    strings.CountChar "(ID = ?)" '?' = [Value.int 5].length :=
  ⟨by decide,
   C10_placeholders_match_parameters (fun _ => "")
     (Term.Equals (Term.Field "ID") (Term.Literal (Value.int 5))) []
     [Node.FieldExpression ⟨some 2, []⟩ "ID",
      Node.LiteralExpression ⟨some 2, []⟩ (Value.int 5),
      Node.EqualsExpression ⟨none, []⟩ (some 0) (some 1)]
     "(ID = ?)" [Value.int 5] (by decide) (by decide)⟩

/-- C11, as stated, fails: `Equals(Field("ID"), Literal(nil))` contains a Literal
of unsupported type and compiles with an empty error list. -/
theorem C11_counterexample :
    ∃ h1, (Term.Equals (Term.Field "ID") (Term.Literal Value.nil)).compile (fun _ => "") [] =
      Result.ok (("(ID = ?)", [Value.nil], []), h1) :=
  ⟨[Node.FieldExpression ⟨some 2, []⟩ "ID",
    Node.LiteralExpression ⟨some 2, []⟩ Value.nil,
    Node.EqualsExpression ⟨none, []⟩ (some 0) (some 1)], by decide⟩

/-- C11, amended: for every tree that contains a Literal of unsupported type
(not float64, int, int64, uint, uint64, string or bool) in document context,
that is with a marked Equals among its proper ancestors, the two passes return
and the error list holds the "unknown value type" error of that Literal,
wherever under the marked Equals it stands. -/
theorem C11_unsupported_literal_in_context (F : Nat → String) (t : Term) (path : List Dir)
    (v : Value) (h : Heap) (hs : t.sub path = some (Term.Literal v))
    (hv : v.supported = false) (hu : t.underMarked path = true) :
    ∃ r c h1, t.passes F h = Result.ok ((r, c), h1) ∧
      Error.Errorf "unknown value type of %v: %T" [v, v] ∈ c.err ∧ c.err ≠ [] := by
  obtain ⟨h1, hpass⟩ := Term.passes_of_emit F t h _ _ rfl
  have hm : Error.Errorf "unknown value type of %v: %T" [v, v] ∈
      (Term.emit F t false newExpressionCompiler).2.err := by
    rw [Term.emit_errors]
    exact List.mem_append_right _
      (Term.mem_expectedErrors_of_sub t path v false hs hv (by simpa using hu))
  exact ⟨_, _, h1, hpass, hm, List.ne_nil_of_mem hm⟩

/-- C11 amended, at `Equals(Field("title"), Literal(nil))`. -/
theorem C11_witness :
    ∃ r c h1, (Term.Equals (Term.Field "title") (Term.Literal Value.nil)).passes
        (fun _ => "") [] = Result.ok ((r, c), h1) ∧
      Error.Errorf "unknown value type of %v: %T" [Value.nil, Value.nil] ∈ c.err ∧
      c.err ≠ [] :=
  C11_unsupported_literal_in_context (fun _ => "")
    (Term.Equals (Term.Field "title") (Term.Literal Value.nil)) [Dir.right] Value.nil []
    rfl rfl (by decide)

/-- C12: for every tree the two passes return, and the error list of the
emission is the list of the failing leaves in left-to-right order, one entry
each: every Parameter node, every Field whose name is not `ID`, `Type`,
`Version` and contains a single quote, and every Literal in document context
whose value type is unsupported; a failing left child does not keep the right
child from being visited. `And(Parameter(), Parameter())` yields two errors
and `Or(Field("bad'name"), Field("ID"))` exactly one. -/
theorem C12_one_error_per_failing_leaf (F : Nat → String) (t : Term) (h : Heap) :
    (∃ r c h1, t.passes F h = Result.ok ((r, c), h1) ∧ c.err = t.expectedErrors false) ∧
    (∃ r c h1, (Term.And Term.Parameter Term.Parameter).passes F h = Result.ok ((r, c), h1) ∧
      c.err = [Error.Errorf "Parameter expression not supported" [],
        Error.Errorf "Parameter expression not supported" []]) ∧
    (∃ r c h1, (Term.Or (Term.Field "bad'name") (Term.Field "ID")).passes F h =
        Result.ok ((r, c), h1) ∧
      c.err = [Error.Errorf "single quote not allowed in field name" []]) := by
  have gen : ∀ t : Term, ∃ r c h1, t.passes F h = Result.ok ((r, c), h1) ∧
      c.err = t.expectedErrors false := by
    intro t
    obtain ⟨h1, hpass⟩ := Term.passes_of_emit F t h _ _ rfl
    refine ⟨_, _, h1, hpass, ?_⟩
    rw [Term.emit_errors]
    rfl
  refine ⟨gen t, ?_, ?_⟩
  · obtain ⟨r, c, h1, hp, he⟩ := gen (Term.And Term.Parameter Term.Parameter)
    exact ⟨r, c, h1, hp, by rw [he]; rfl⟩
  · obtain ⟨r, c, h1, hp, he⟩ := gen (Term.Or (Term.Field "bad'name") (Term.Field "ID"))
    exact ⟨r, c, h1, hp, by rw [he]; decide⟩

/-- C13: for two trees with the same shape, node kinds and field names, which
differ at most in the values of their Literal nodes, when both compile with an
empty error list the two returned texts are equal. -/
theorem C13_text_independent_of_values (F : Nat → String) (t1 t2 : Term) (h1 h2 g1 g2 : Heap)
    (text1 text2 : String) (p1 p2 : List Value) (hs : t1.erase = t2.erase)
    (c1 : t1.compile F h1 = Result.ok ((text1, p1, []), g1))
    (c2 : t2.compile F h2 = Result.ok ((text2, p2, []), g2)) :
    text1 = text2 := by
  rw [Term.compile_eq] at c1 c2
  cases e1 : (Term.emit F t1 false newExpressionCompiler).1 with
  | none => rw [e1] at c1; cases c1
  | some s1 =>
    cases e2 : (Term.emit F t2 false newExpressionCompiler).1 with
    | none => rw [e2] at c2; cases c2
    | some s2 =>
      rw [e1] at c1
      rw [e2] at c2
      simp only [Result.ok.injEq, Prod.mk.injEq] at c1 c2
      rw [← c1.1.1, ← c2.1.1]
      exact Term.emit_text_erase F F t1 t2 false _ _ s1 s2 hs e1 e2

/-- C13 at `Equals(Field("title"), Literal("foo"))` and
`Equals(Field("title"), Literal(7))`, which both compile to `(Fields->'title' = ?::jsonb)`. -/
theorem C13_witness :
    (Term.Equals (Term.Field "title") (Term.Literal (Value.string "foo"))).compile
        (fun _ => "") [] =
      Result.ok (("(Fields->'title' = ?::jsonb)", [Value.string "\"foo\""], []),
        [Node.FieldExpression ⟨some 2, [("JSON", Value.bool true)]⟩ "title",
         Node.LiteralExpression ⟨some 2, []⟩ (Value.string "foo"),
         Node.EqualsExpression ⟨none, [("JSON", Value.bool true)]⟩ (some 0) (some 1)]) ∧
    (Term.Equals (Term.Field "title") (Term.Literal (Value.int 7))).compile
        (fun _ => "") [] =
      Result.ok (("(Fields->'title' = ?::jsonb)", [Value.string "7"], []),
        [Node.FieldExpression ⟨some 2, [("JSON", Value.bool true)]⟩ "title",
         Node.LiteralExpression ⟨some 2, []⟩ (Value.int 7),
         Node.EqualsExpression ⟨none, [("JSON", Value.bool true)]⟩ (some 0) (some 1)]) ∧
    ("(Fields->'title' = ?::jsonb)" : String) = "(Fields->'title' = ?::jsonb)" :=
  ⟨by decide, by decide,
   C13_text_independent_of_values (fun _ => "")
    (Term.Equals (Term.Field "title") (Term.Literal (Value.string "foo")))
    (Term.Equals (Term.Field "title") (Term.Literal (Value.int 7))) [] []
    [Node.FieldExpression ⟨some 2, [("JSON", Value.bool true)]⟩ "title",
         Node.LiteralExpression ⟨some 2, []⟩ (Value.string "foo"),
         Node.EqualsExpression ⟨none, [("JSON", Value.bool true)]⟩ (some 0) (some 1)]
    [Node.FieldExpression ⟨some 2, [("JSON", Value.bool true)]⟩ "title",
         Node.LiteralExpression ⟨some 2, []⟩ (Value.int 7),
         Node.EqualsExpression ⟨none, [("JSON", Value.bool true)]⟩ (some 0) (some 1)]
    "(Fields->'title' = ?::jsonb)" "(Fields->'title' = ?::jsonb)"
    [Value.string "\"foo\""] [Value.string "7"] (by decide) (by decide) (by decide)⟩

/-- C14: each of `And`, `Or`, `Equals`, `Matches`, given two existing nodes `l`
and `r`, returns a node `p` with `p.Left() = l`, `p.Right() = r`,
`l.Parent() = p`, `r.Parent() = p` and `p.Parent() = nil`; `Field`, `Literal`
and `Parameter` return nodes whose `Parent()` is nil; and in every tree
assembled bottom-up from fresh nodes the root has no parent, every node is the
`Parent()` of its left and right child, and every node but the root is the left
or right child of its `Parent()`. -/
theorem C14_parent_links (h : Heap) (l r : Nat) (id : String) (value : Value) (t : Term)
    (hl : l < h.length) (hr : r < h.length) :
    (∃ p h2, criteria.And h (some l) (some r) = Result.ok (p, h2) ∧
      Left h2 p = Result.ok (some l) ∧ Right h2 p = Result.ok (some r) ∧
      Parent h2 (some l) = Result.ok p ∧ Parent h2 (some r) = Result.ok p ∧
      Parent h2 p = Result.ok none) ∧
    (∃ p h2, criteria.Or h (some l) (some r) = Result.ok (p, h2) ∧
      Left h2 p = Result.ok (some l) ∧ Right h2 p = Result.ok (some r) ∧
      Parent h2 (some l) = Result.ok p ∧ Parent h2 (some r) = Result.ok p ∧
      Parent h2 p = Result.ok none) ∧
    (∃ p h2, criteria.Equals h (some l) (some r) = Result.ok (p, h2) ∧
      Left h2 p = Result.ok (some l) ∧ Right h2 p = Result.ok (some r) ∧
      Parent h2 (some l) = Result.ok p ∧ Parent h2 (some r) = Result.ok p ∧
      Parent h2 p = Result.ok none) ∧
    (∃ p h2, criteria.Matches h (some l) (some r) = Result.ok (p, h2) ∧
      Left h2 p = Result.ok (some l) ∧ Right h2 p = Result.ok (some r) ∧
      Parent h2 (some l) = Result.ok p ∧ Parent h2 (some r) = Result.ok p ∧
      Parent h2 p = Result.ok none) ∧
    Parent (criteria.Field h id).2 (criteria.Field h id).1 = Result.ok none ∧
    Parent (criteria.Literal h value).2 (criteria.Literal h value).1 = Result.ok none ∧
    Parent (criteria.Parameter h).2 (criteria.Parameter h).1 = Result.ok none ∧
    (∃ root h2, t.construct h = Result.ok (root, h2) ∧ Parent h2 root = Result.ok none ∧
      ∀ q, h.length ≤ q → q < h2.length →
        (∀ a, (Left h2 (some q) = Result.ok (some a) ∨ Right h2 (some q) = Result.ok (some a)) →
          Parent h2 (some a) = Result.ok (some q)) ∧
        (some q ≠ root →
          ∃ p, Parent h2 (some q) = Result.ok (some p) ∧
            (Left h2 (some p) = Result.ok (some q) ∨
              Right h2 (some p) = Result.ok (some q)))) := by
  refine ⟨?_, ?_, ?_, ?_, ?_, ?_, ?_, ?_⟩
  · obtain ⟨h2, e, f1, f2, f3, f4, f5, -⟩ :=
      ctor_facts h (Node.AndExpression ⟨none, []⟩ (some l) (some r)) l r rfl rfl hl hr
    exact ⟨_, h2, e, f1, f2, f3, f4, f5⟩
  · obtain ⟨h2, e, f1, f2, f3, f4, f5, -⟩ :=
      ctor_facts h (Node.OrExpression ⟨none, []⟩ (some l) (some r)) l r rfl rfl hl hr
    exact ⟨_, h2, e, f1, f2, f3, f4, f5⟩
  · obtain ⟨h2, e, f1, f2, f3, f4, f5, -⟩ :=
      ctor_facts h (Node.EqualsExpression ⟨none, []⟩ (some l) (some r)) l r rfl rfl hl hr
    exact ⟨_, h2, e, f1, f2, f3, f4, f5⟩
  · obtain ⟨h2, e, f1, f2, f3, f4, f5, -⟩ :=
      ctor_facts h (Node.MatchesExpression ⟨none, []⟩ (some l) (some r)) l r rfl rfl hl hr
    exact ⟨_, h2, e, f1, f2, f3, f4, f5⟩
  · simp [criteria.Field, Parent, deref, Node.base]
  · simp [criteria.Literal, Parent, deref, Node.base]
  · simp [criteria.Parameter, Parent, deref, Node.base]
  · obtain ⟨hroot, hall⟩ := Term.layout_parents false t
      (h ++ Term.layout false t h.length none) h [] none (by simp)
    refine ⟨_, _, Term.construct_eq t h, hroot, ?_⟩
    intro q h1 h2
    have h3 : q ≤ h.length + t.rootOff := by
      simp only [List.length_append, Term.length_layout, Term.size] at h2
      omega
    obtain ⟨fa, fb⟩ := hall q h1 h3
    refine ⟨fa, fun hne => fb (fun e => hne (by rw [e]))⟩

/-- C14 at the heap holding `Field("ID")` and `Literal(5)`, joined by each
constructor, and at the tree `Equals(Field("ID"), Literal(5))`. -/
theorem C14_witness :
    (∃ p h2, criteria.And [Node.FieldExpression ⟨none, []⟩ "ID",
        Node.LiteralExpression ⟨none, []⟩ (Value.int 5)] (some 0) (some 1) = Result.ok (p, h2) ∧
      Left h2 p = Result.ok (some 0) ∧ Right h2 p = Result.ok (some 1) ∧
      Parent h2 (some 0) = Result.ok p ∧ Parent h2 (some 1) = Result.ok p ∧
      Parent h2 p = Result.ok none) :=
  (C14_parent_links [Node.FieldExpression ⟨none, []⟩ "ID",
    Node.LiteralExpression ⟨none, []⟩ (Value.int 5)] 0 1 "ID" (Value.int 5)
    (Term.Equals (Term.Field "ID") (Term.Literal (Value.int 5))) (by decide) (by decide)).1

/-- C15: for a node `e` whose chain of proper ancestors is `a1, ..., an` and a
predicate `f`, `IterateParents(e, f)` returns having called `f` on `a1, ..., ak`
in that order and on nothing else, `k` being the position of the first
ancestor on which `f` returns false, or `n`; `f` is not called on `e` itself,
and is not called at all when `e` has no parent or is nil. -/
theorem C15_iterate_parents (h : Heap) (e : Nat) (as : List Nat) (f : Expression → Bool)
    (hc : ancestorChain h (some e) as) :
    IterateParents h (some e) (recordCalls f) [] = Result.ok (expectedCalls f as) ∧
    some e ∉ expectedCalls f as ∧
    (as = [] → IterateParents h (some e) (recordCalls f) [] = Result.ok []) ∧
    IterateParents h none (recordCalls f) [] = Result.ok [] := by
  have main : IterateParents h (some e) (recordCalls f) [] = Result.ok (expectedCalls f as) := by
    have hlen := ancestorChain_length h (some e) as hc
    cases as with
    | nil =>
      simp only [ancestorChain] at hc
      simp only [IterateParents, hc, Result.ok_bind, expectedCalls]
      cases h.length <;> rfl
    | cons a as =>
      simp only [ancestorChain] at hc
      simp only [IterateParents, hc.1, Result.ok_bind]
      rw [loop_recordCalls h f as a h.length [] hc.2 (by simpa using hlen)]
      rfl
  refine ⟨main, ?_, ?_, ?_⟩
  · intro hmem
    obtain ⟨a, ha, he⟩ := mem_expectedCalls f as _ hmem
    simp only [Option.some.injEq] at he
    subst he
    exact ancestorChain_not_self h e as hc ha
  · intro hnil
    rw [main, hnil]
    rfl
  · simp only [IterateParents]
    cases h.length <;> rfl

/-- C15 at the Literal of `And(Equals(Field("ID"), Literal(5)), Field("Type"))`,
whose ancestors are the Equals (address 2) and the And (address 4), with a
predicate that is false on the Equals. -/
theorem C15_witness :
    IterateParents
      [Node.FieldExpression ⟨some 2, []⟩ "ID", Node.LiteralExpression ⟨some 2, []⟩ (Value.int 5),
       Node.EqualsExpression ⟨some 4, []⟩ (some 0) (some 1),
       Node.FieldExpression ⟨some 4, []⟩ "Type",
       Node.AndExpression ⟨none, []⟩ (some 2) (some 3)]
      (some 1) (recordCalls (fun x => x != some 2)) [] =
        Result.ok (expectedCalls (fun x => x != some 2) [2, 4]) :=
  (C15_iterate_parents _ 1 [2, 4] (fun x => x != some 2)
    (by simp [ancestorChain, Parent, deref, Node.base])).1

/-- C16: `Annotation(k)` on a freshly constructed node returns nil for every
key; and on any existing node, after `SetAnnotation(k, v)` the call
`Annotation(k)` returns `v`, `Annotation(k2)` for every other key returns what
it returned before, and the node's parent and children are unchanged. -/
theorem C16_annotations (h : Heap) (l r : Nat) (id : String) (value : Value)
    (hl : l < h.length) (hr : r < h.length)
    (H : Heap) (x : Nat) (n : Node) (k : String) (v : Value) (hx : H[x]? = some n) :
    Annotation (criteria.Field h id).2 (criteria.Field h id).1 k = Result.ok Value.nil ∧
    Annotation (criteria.Literal h value).2 (criteria.Literal h value).1 k
      = Result.ok Value.nil ∧
    Annotation (criteria.Parameter h).2 (criteria.Parameter h).1 k = Result.ok Value.nil ∧
    (∃ p h2, criteria.And h (some l) (some r) = Result.ok (p, h2) ∧
      Annotation h2 p k = Result.ok Value.nil) ∧
    (∃ p h2, criteria.Or h (some l) (some r) = Result.ok (p, h2) ∧
      Annotation h2 p k = Result.ok Value.nil) ∧
    (∃ p h2, criteria.Equals h (some l) (some r) = Result.ok (p, h2) ∧
      Annotation h2 p k = Result.ok Value.nil) ∧
    (∃ p h2, criteria.Matches h (some l) (some r) = Result.ok (p, h2) ∧
      Annotation h2 p k = Result.ok Value.nil) ∧
    (∃ H2, SetAnnotation H (some x) k v = Result.ok H2 ∧
      Annotation H2 (some x) k = Result.ok v ∧
      (∀ k2, k2 ≠ k → Annotation H2 (some x) k2 = Annotation H (some x) k2) ∧
      Parent H2 (some x) = Parent H (some x) ∧
      Left H2 (some x) = Left H (some x) ∧ Right H2 (some x) = Right H (some x)) := by
  refine ⟨?_, ?_, ?_, ?_, ?_, ?_, ?_, ?_⟩
  · simp [criteria.Field, Annotation, deref, Node.base, expression.get]
  · simp [criteria.Literal, Annotation, deref, Node.base, expression.get]
  · simp [criteria.Parameter, Annotation, deref, Node.base, expression.get]
  · obtain ⟨h2, e, -, -, -, -, -, fa⟩ :=
      ctor_facts h (Node.AndExpression ⟨none, []⟩ (some l) (some r)) l r rfl rfl hl hr
    exact ⟨_, h2, e, by rw [fa k]; rfl⟩
  · obtain ⟨h2, e, -, -, -, -, -, fa⟩ :=
      ctor_facts h (Node.OrExpression ⟨none, []⟩ (some l) (some r)) l r rfl rfl hl hr
    exact ⟨_, h2, e, by rw [fa k]; rfl⟩
  · obtain ⟨h2, e, -, -, -, -, -, fa⟩ :=
      ctor_facts h (Node.EqualsExpression ⟨none, []⟩ (some l) (some r)) l r rfl rfl hl hr
    exact ⟨_, h2, e, by rw [fa k]; rfl⟩
  · obtain ⟨h2, e, -, -, -, -, -, fa⟩ :=
      ctor_facts h (Node.MatchesExpression ⟨none, []⟩ (some l) (some r)) l r rfl rfl hl hr
    exact ⟨_, h2, e, by rw [fa k]; rfl⟩
  · obtain ⟨e, hg⟩ := SetAnnotation_spec H x n k v hx
    refine ⟨_, e, ?_, ?_, ?_, ?_, ?_⟩
    · simp [ Annotation, deref, hg, withBase_base, get_put_same]
    · intro k2 hk
      simp [ Annotation, deref, hg, hx, withBase_base, get_put_other _ _ _ _ hk]
    · simp only [Parent, deref, hg, hx, Result.ok_bind, withBase_base]
      rfl
    · simp [Left, deref, hg, hx, withBase_children]
    · simp [Right, deref, hg, hx, withBase_children]

/-- C16 at the heap holding `Field("ID")` and `Literal(5)`, setting `"JSON"` to
`true` on the Field. -/
theorem C16_witness :
    ∃ H2, SetAnnotation [Node.FieldExpression ⟨none, []⟩ "ID",
        Node.LiteralExpression ⟨none, []⟩ (Value.int 5)] (some 0) "JSON" (Value.bool true)
        = Result.ok H2 ∧
      Annotation H2 (some 0) "JSON" = Result.ok (Value.bool true) :=
  let w := (C16_annotations [Node.FieldExpression ⟨none, []⟩ "ID",
    Node.LiteralExpression ⟨none, []⟩ (Value.int 5)] 0 1 "ID" (Value.int 5)
    (by decide) (by decide)
    [Node.FieldExpression ⟨none, []⟩ "ID", Node.LiteralExpression ⟨none, []⟩ (Value.int 5)]
    0 (Node.FieldExpression ⟨none, []⟩ "ID") "JSON" (Value.bool true) rfl).2.2.2.2.2.2.2
  ⟨w.choose, w.choose_spec.1, w.choose_spec.2.1⟩

/-- C17 fails on the code: for the string `a"b` the compiler binds `"a"b"`,
which is not a well-formed JSON string literal; only strings free of double
quotes, backslashes and control characters are bound as a JSON string literal
that decodes to the string. -/
theorem C17_string_literal_not_escaped (F : Nat → String) :
    expressionCompiler.convertToString F (Value.string "a\"b") = Except.ok "\"a\"b\"" ∧
    json.decodeString "\"a\"b\"" = none ∧
    (∃ h1, (Term.Equals (Term.Field "title") (Term.Literal (Value.string "a\"b"))).compile F []
      = Result.ok (("(Fields->'title' = ?::jsonb)", [Value.string "\"a\"b\""], []), h1)) ∧
    (∀ s : String,
      (∀ c ∈ s.toList, c ≠ Char.ofNat 34 ∧ c ≠ Char.ofNat 92 ∧ 32 ≤ c.toNat) →
      ∃ t, expressionCompiler.convertToString F (Value.string s) = Except.ok t ∧
        json.decodeString t = some s) := by
  refine ⟨rfl, by decide, ?_, ?_⟩
  · exact Term.compile_of_emit F _ [] _
      { parameters := [Value.string "\"a\"b\""], err := [] } (by rfl)
  · intro s hs
    refine ⟨"\"" ++ s ++ "\"", rfl, ?_⟩
    have e : ("\"" ++ s ++ "\"").toList = Char.ofNat 34 :: (s.toList ++ [Char.ofNat 34]) := by
      simp [String.toList, String.data_append]
    simp only [json.decodeString, e, if_true, json.decodeFrom_plain s.toList hs]
    rfl

/-- C18: when the two children of a binary node compile to fragments `L` and
`R`, the node's fragment is `(L and R)` for And, `(L or R)` for Or, `(L = R)`
for Equals and `(to_tsvector('english', L) @@ to_tsquery('english', R))` for
Matches; and the text of a tree that compiles without error and whose field
names hold no parenthesis has balanced parentheses. -/
theorem C18_fragments_and_balance (c c1 c2 : expressionCompiler)
    (accept : Expression → expressionCompiler → Result Visit) (left right : Expression)
    (L R : String) (hL : accept left c = Result.ok (some L, c1))
    (hR : accept right c1 = Result.ok (some R, c2))
    (F : Nat → String) (t : Term) (h h1 : Heap) (text : String) (params : List Value)
    (hc : t.compile F h = Result.ok ((text, params, []), h1))
    (ho : t.fieldsAvoid (Char.ofNat 40) = true) (hcl : t.fieldsAvoid (Char.ofNat 41) = true) :
    c.And accept left right = Result.ok (some ("(" ++ L ++ " and " ++ R ++ ")"), c2) ∧
    c.Or accept left right = Result.ok (some ("(" ++ L ++ " or " ++ R ++ ")"), c2) ∧
    c.Equals accept left right = Result.ok (some ("(" ++ L ++ " = " ++ R ++ ")"), c2) ∧
    c.Matches accept left right = Result.ok
      (some ("(to_tsvector('english', " ++ L ++ ") @@ to_tsquery('english', " ++ R ++ "))"),
        c2) ∧
    strings.Balanced text = true := by
  refine ⟨?_, ?_, ?_, ?_, ?_⟩
  · simp only [expressionCompiler.And, expressionCompiler.binary, hL, hR, Result.ok_bind]
    congr 3
    apply String.ext
    simp [String.data_append]
  · simp only [expressionCompiler.Or, expressionCompiler.binary, hL, hR, Result.ok_bind]
    congr 3
    apply String.ext
    simp [String.data_append]
  · simp only [expressionCompiler.Equals, expressionCompiler.binary, hL, hR, Result.ok_bind]
    congr 3
    apply String.ext
    simp [String.data_append]
  · simp only [expressionCompiler.Matches, hL, hR, Result.ok_bind]
  · rw [Term.compile_eq] at hc
    cases hs : (Term.emit F t false newExpressionCompiler).1 with
    | none => rw [hs] at hc; cases hc
    | some s =>
      rw [hs] at hc
      simp only [Result.ok.injEq, Prod.mk.injEq] at hc
      rw [← hc.1.1]
      simp only [strings.Balanced, Term.emit_balanced F t false _ s ho hcl hs]
      rfl

/-- C18 at the children fragments `a` and `b`, and at the tree
`And(Equals(Field("ID"), Literal(5)), Or(Field("Type"), Field("Version")))`. -/
theorem C18_witness :
    expressionCompiler.And newExpressionCompiler
      (fun e c => Result.ok (if e = some 0 then some "a" else some "b", c)) (some 0) (some 1)
      = Result.ok (some ("(" ++ "a" ++ " and " ++ "b" ++ ")"), newExpressionCompiler) ∧
    strings.Balanced "((ID = ?) and (Type or Version))" = true :=
  let w := C18_fragments_and_balance newExpressionCompiler newExpressionCompiler
    newExpressionCompiler
    (fun e c => Result.ok (if e = some 0 then some "a" else some "b", c)) (some 0) (some 1)
    "a" "b" rfl rfl (fun _ => "")
    (Term.And (Term.Equals (Term.Field "ID") (Term.Literal (Value.int 5)))
      (Term.Or (Term.Field "Type") (Term.Field "Version"))) []
    [Node.FieldExpression ⟨some 2, []⟩ "ID",
     Node.LiteralExpression ⟨some 2, []⟩ (Value.int 5),
     Node.EqualsExpression ⟨some 6, []⟩ (some 0) (some 1),
     Node.FieldExpression ⟨some 5, []⟩ "Type",
     Node.FieldExpression ⟨some 5, []⟩ "Version",
     Node.OrExpression ⟨some 6, []⟩ (some 3) (some 4),
     Node.AndExpression ⟨none, []⟩ (some 2) (some 5)]
    "((ID = ?) and (Type or Version))" [Value.int 5] (by decide) (by decide) (by decide)
  ⟨w.1, w.2.2.2.2⟩

/-- C19: for a tree freshly built by the factory functions on which `Compile`
returns with an empty error list, running pass 1 again on the heap the first
call left returns that heap unchanged, and calling `Compile` again on it
returns the same text, the same parameter list and the same heap. -/
theorem C19_compile_repeatable (F : Nat → String) (t : Term) (h h0 h1 : Heap)
    (root : Expression) (text : String) (params : List Value)
    (hb : t.construct h = Result.ok (root, h0))
    (hc : Compile F h0 root = Result.ok ((text, params, []), h1)) :
    IteratePostOrder h1 root bubbleUpJSONContext = Result.ok h1 ∧
    Compile F h1 root = Result.ok ((text, params, []), h1) := by
  rw [Term.construct_eq] at hb
  simp only [Result.ok.injEq, Prod.mk.injEq] at hb
  obtain ⟨rfl, rfl⟩ := hb
  have h2 := Term.compile_eq F t h
  simp only [Term.compile, Term.construct_eq, Result.ok_bind] at h2
  rw [h2] at hc
  obtain ⟨w, a⟩ := Term.compile_again F t h
  cases hs : (Term.emit F t false newExpressionCompiler).1 with
  | none => rw [hs] at hc; cases hc
  | some s =>
    rw [hs] at hc a
    simp only [Result.ok.injEq, Prod.mk.injEq] at hc
    obtain ⟨⟨e1, e2, e3⟩, e4⟩ := hc
    subst e4
    refine ⟨w, ?_⟩
    rw [a, e1, e2, e3]

/-- C19 at `Equals(Field("title"), Literal("foo"))`. -/
theorem C19_witness :
    Compile (fun _ => "")
      [Node.FieldExpression ⟨some 2, [("JSON", Value.bool true)]⟩ "title",
       Node.LiteralExpression ⟨some 2, []⟩ (Value.string "foo"),
       Node.EqualsExpression ⟨none, [("JSON", Value.bool true)]⟩ (some 0) (some 1)] (some 2) =
      Result.ok (("(Fields->'title' = ?::jsonb)", [Value.string "\"foo\""], []),
        [Node.FieldExpression ⟨some 2, [("JSON", Value.bool true)]⟩ "title",
         Node.LiteralExpression ⟨some 2, []⟩ (Value.string "foo"),
         Node.EqualsExpression ⟨none, [("JSON", Value.bool true)]⟩ (some 0) (some 1)]) :=
  (C19_compile_repeatable (fun _ => "")
    (Term.Equals (Term.Field "title") (Term.Literal (Value.string "foo"))) []
    [Node.FieldExpression ⟨some 2, []⟩ "title",
     Node.LiteralExpression ⟨some 2, []⟩ (Value.string "foo"),
     Node.EqualsExpression ⟨none, []⟩ (some 0) (some 1)]
    [Node.FieldExpression ⟨some 2, [("JSON", Value.bool true)]⟩ "title",
     Node.LiteralExpression ⟨some 2, []⟩ (Value.string "foo"),
     Node.EqualsExpression ⟨none, [("JSON", Value.bool true)]⟩ (some 0) (some 1)]
    (some 2) "(Fields->'title' = ?::jsonb)" [Value.string "\"foo\""]
    (by decide) (by decide)).2

/-- C20: for every optional offset string and optional limit, `computePagingLimts`
returns an offset of at least 0 and a limit between 1 and 100; the offset is
the parsed integer when the string parses to a non-negative integer and 0
otherwise (absent, unparsable or negative); the limit is 20 when the parameter
is absent or at most 0, 100 when it exceeds 100, and the given value otherwise. -/
theorem C20_paging_limits (offsetParam : Option String) (limitParam : Option Int) :
    0 ≤ (paging.computePagingLimts offsetParam limitParam).1 ∧
    1 ≤ (paging.computePagingLimts offsetParam limitParam).2 ∧
    (paging.computePagingLimts offsetParam limitParam).2 ≤ 100 ∧
    (paging.computePagingLimts offsetParam limitParam).1 =
      (match offsetParam with
       | none => 0
       | some s =>
         match strconv.Atoi s with
         | Except.ok v => if 0 ≤ v then v else 0
         | Except.error _ => 0) ∧
    (paging.computePagingLimts offsetParam limitParam).2 =
      (match limitParam with
       | none => 20
       | some l => if l ≤ 0 then 20 else if 100 < l then 100 else l) := by
  refine ⟨?_, ?_, ?_, ?_, ?_⟩
  · simp only [paging.computePagingLimts]
    split <;> omega
  · simp only [paging.computePagingLimts, paging.pageSizeDefault, paging.pageSizeMax]
    split
    · omega
    · split <;> omega
  · simp only [paging.computePagingLimts, paging.pageSizeDefault, paging.pageSizeMax]
    split
    · omega
    · split <;> omega
  · simp only [paging.computePagingLimts]
    cases offsetParam with
    | none => simp
    | some s =>
      simp only
      cases strconv.Atoi s with
      | error e => simp
      | ok v =>
        simp only
        split <;> split <;> omega
  · simp only [paging.computePagingLimts, paging.pageSizeDefault, paging.pageSizeMax]
    cases limitParam with
    | none => simp
    | some l => simp only [gt_iff_lt]
